import Mathlib

/-!
# Merge16: a stable two-queue merge sort of text lines

A verification development for `Merge16.c` (the sort) and `Queue.c` (the
FIFO queue it is built on).

Modelling conventions.

* A C string is the list of its bytes up to, not including, the terminating
  NUL; a byte is a natural number.  The newline is byte 10.
* Pointer arithmetic `line + pos` is defined while it stays inside the string,
  terminator included (`pos ≤ strlen line`); any other offset leaves the
  string, which is undefined behaviour in C and the fault `outOfBounds` here.
  The buffer of a line that was read with its newline holds one more byte,
  the old terminator behind the one that `trim` writes; a line is its string
  here, so that the offset `strlen line + 1`, which reads that byte in C and
  gives the empty key, is `outOfBounds` here as well.  The faults shown below
  are at offsets far beyond it, and the theorems with offsets inside the lines
  do not reach it.
* A source file is the list of its lines, each as `getLine` returns it (with
  its newline, if it has one).
* Merge16.c reaches a queue only through the functions of Queue.h.  `main`
  is modelled on the sequence of values that a queue holds (`Fifo`); Queue.c is
  modelled on a store of linked nodes and proved to keep that sequence
  (`queue_refines_fifo`).  The store is unbounded: `malloc` succeeds.
* `main` is the run up to the end of the printing pass, when the last line
  has been written.  Up to there every value of `groupsize` is less than
  `totalLines`, and the counters are taken as numbers (`passLoop`,
  `passStarts`).  The loop with `groupsize` as an `int`, whose `groupsize *= 2`
  after the printing pass wraps around for more than `2^30` lines, is
  `passLoopInt`, with its passes `passStartsInt`; it is `passLoop` up to `2^30`
  lines (`passLoopInt_eq`), and `groupsizes` is its counter alone.
* A `long` has 64 bits: `strtol` yields `LONG_MAX` for a larger value.  The key
  argument is modelled up to the variables `pos` and `len` of `main`
  (`parseArgs`); `main` takes the offset and length that `compareLines`
  receives.
* Loops are recursive functions on a fuel argument that the caller sets to a
  bound of the loop's progress measure; a loop whose guard still holds at
  fuel zero is the fault `diverges`.
-/

namespace Merge16

/-- A line of text held as a C string: its bytes before the terminating NUL. -/
abbrev Line := List Nat

/-- Ways in which a run of the program leaves defined behaviour or aborts. -/
inductive Fault where
  /-- a read through a pointer that left the string it was derived from -/
  | outOfBounds
  /-- `DIE("removeQ() failed")` in `addRemove` -/
  | removeQFailed
  /-- use of a `char *` that `headQ` did not assign because the queue was empty -/
  | uninitialised
  /-- a loop that makes no progress -/
  | diverges
  deriving DecidableEq, Repr

deriving instance DecidableEq for Except

/-! ## libc: `strncmp` and pointer offsets -/

/-- `strncmp(s1, s2, n)`: compares at most `n` bytes as unsigned chars; the end
of a list is the terminating NUL, and the comparison stops at a NUL.  The
result is the difference of the first pair of bytes that differ. -/
def strncmp : List Nat → List Nat → Nat → Int
  | [], [], _ => 0
  | [], c2 :: _, n => if n = 0 then 0 else 0 - (c2 : Int)
  | c1 :: _, [], n => if n = 0 then 0 else (c1 : Int)
  | c1 :: s1, c2 :: s2, n =>
    if n = 0 then 0
    else if c1 = c2 then (if c1 = 0 then 0 else strncmp s1 s2 (n - 1))
    else (c1 : Int) - (c2 : Int)

/-- The C string found at `line + pos`. -/
def offset (line : Line) (pos : Nat) : Except Fault Line :=
  if pos ≤ line.length then .ok (line.drop pos) else .error .outOfBounds

/-! ## Merge16.c: `compareLines` and `trim` -/

/-- `compareLines(line1, line2, pos, len)` of Merge16.c. -/
def compareLines (line1 line2 : Line) (pos len : Nat) : Except Fault Int :=
  if line1 = [] ∧ line2 ≠ [] then do
    let p2 ← offset line2 pos
    pure (strncmp [] p2 len)
  else if line1 ≠ [] ∧ line2 = [] then do
    let p1 ← offset line1 pos
    pure (strncmp p1 [] len)
  else if line1 = [] ∧ line2 = [] then
    pure 0
  else do
    let p1 ← offset line1 pos
    let p2 ← offset line2 pos
    pure (strncmp p1 p2 len)

/-- `trim(s)` of Merge16.c: a string that starts with a newline becomes the
empty string; otherwise a newline in the last position, when that position is
not the first, is overwritten by NUL. -/
def trim (s : Line) : Line :=
  if s.head? = some 10 then []
  else
    let i : Int := (s.length : Int) - 1
    if i > 0 ∧ s.getLast? = some 10 then s.dropLast else s

/-! ## Queue.c: a circular singly linked list entered through its last node -/

/-- The `Node` of Queue.c. -/
structure Node where
  value : Line
  next : Nat
  deriving DecidableEq, Repr

/-- The node store: cell `a` is the node allocated at address `a`, or `none`
when nothing is allocated there. -/
abbrev Heap := List (Option Node)

/-- The `Queue` of Queue.h: the address of the LAST node, or NULL (`none`). -/
abbrev Queue := Option Nat

/-- Dereference of a node pointer; `none` when the address is not allocated. -/
def Heap.read (h : Heap) (a : Nat) : Option Node := (h[a]?).join

/-- Store to an allocated node. -/
def Heap.write (h : Heap) (a : Nat) (n : Node) : Heap := h.set a (some n)

/-- `free(p)`. -/
def Heap.release (h : Heap) (a : Nat) : Heap := h.set a none

/-- `malloc(sizeof(Node))`: a fresh address with unspecified content.  The
store is unbounded, so the allocation succeeds. -/
def malloc (h : Heap) : Option (Nat × Heap) := some (h.length, h ++ [some ⟨[], 0⟩])

/-- `createQ(&q)`: the return value and the new `*q`. -/
def createQ : Bool × Queue := (true, none)

/-- `isEmptyQ(&q)`. -/
def isEmptyQ (q : Queue) : Bool :=
  if q = none then true else false

/-- `addQ(&q, s)`: the return value, the store and the new `*q`; `none` when a
pointer that is not allocated is dereferenced. -/
def addQ (h : Heap) (q : Queue) (s : Line) : Option (Bool × Heap × Queue) :=
  match malloc h with
  | none => some (false, h, q)
  | some (nxt, h) =>
    if isEmptyQ q then
      some (true, h.write nxt ⟨s, nxt⟩, some nxt)
    else do
      let last ← q
      let l ← h.read last
      let h := h.write nxt ⟨s, l.next⟩
      let h := h.write last ⟨l.value, nxt⟩
      some (true, h, some nxt)

/-- `headQ(&q, &s)`: the return value and the new `*s`. -/
def headQ (h : Heap) (q : Queue) (s : Line) : Option (Bool × Line) :=
  if isEmptyQ q then some (false, s)
  else do
    let last ← q
    let l ← h.read last
    let hd ← h.read l.next
    some (true, hd.value)

/-- `removeQ(&q, &s)`: the return value, the store, the new `*q` and the new `*s`. -/
def removeQ (h : Heap) (q : Queue) (s : Line) : Option (Bool × Heap × Queue × Line) :=
  if isEmptyQ q then some (false, h, q, s)
  else do
    let (_, s) ← headQ h q s
    let last ← q
    let l ← h.read last
    let head := l.next
    if head = last then
      some (true, h.release head, none, s)
    else do
      let hd ← h.read head
      let h := h.write last ⟨l.value, hd.next⟩
      some (true, h.release head, q, s)

/-- The loop of `destroyQ`; every turn releases one allocated node, so the
number of cells of the store bounds the turns. -/
def destroyLoop : Nat → Heap → Queue → Option (Heap × Queue)
  | fuel, h, q =>
    if !isEmptyQ q then
      match fuel with
      | 0 => none
      | fuel + 1 =>
        match removeQ h q [120] with
        | none => none
        | some (_, h, q, _) => destroyLoop fuel h q
    else some (h, q)

/-- `destroyQ(&q)`: the return value, the store and the new `*q`. -/
def destroyQ (h : Heap) (q : Queue) : Option (Bool × Heap × Queue) :=
  match destroyLoop h.length h q with
  | none => none
  | some (h, q) => some (true, h, q)

/-- A call made by a client of the queue. -/
inductive Op where
  | add (s : Line)
  | remove
  deriving DecidableEq, Repr

/-- What a call returned: the `int` result and, for `removeQ`, the value of `*s`
after the call. -/
inductive Ret where
  | add (ok : Bool)
  | remove (ok : Bool) (s : Line)
  deriving DecidableEq, Repr

/-- Runs a sequence of calls on the queue `q` in the store `h`; `s` is the
variable whose address is passed to `removeQ`. -/
def runOps : List Op → Heap → Queue → Line → Option (Heap × Queue × List Ret)
  | [], h, q, _ => some (h, q, [])
  | Op.add v :: ops, h, q, s =>
    match addQ h q v with
    | none => none
    | some (ok, h, q) =>
      match runOps ops h q s with
      | none => none
      | some (h, q, rets) => some (h, q, Ret.add ok :: rets)
  | Op.remove :: ops, h, q, s =>
    match removeQ h q s with
    | none => none
    | some (ok, h, q, s) =>
      match runOps ops h q s with
      | none => none
      | some (h, q, rets) => some (h, q, Ret.remove ok s :: rets)

/-- The values passed to `addQ`, in call order. -/
def addedValues : List Op → List Line
  | [] => []
  | Op.add v :: ops => v :: addedValues ops
  | Op.remove :: ops => addedValues ops

/-- The values delivered by the `removeQ` calls that returned true, in call order. -/
def removedValues : List Ret → List Line
  | [] => []
  | Ret.remove true s :: rets => s :: removedValues rets
  | _ :: rets => removedValues rets

/-! ## The queue as Merge16.c uses it

Merge16.c reaches a queue only through the six functions of Queue.h.  Here a
queue is the sequence of the values it holds, oldest first; that Queue.c keeps
exactly this sequence is proved below. -/

/-- The values of a queue, oldest first. -/
abbrev Fifo := List Line

/-- `addQ` on the sequence of values. -/
def Fifo.addQ (q : Fifo) (s : Line) : Fifo := q ++ [s]

/-- `isEmptyQ` on the sequence of values. -/
def Fifo.isEmptyQ (q : Fifo) : Bool := q.isEmpty

/-- `headQ` on the sequence of values; `none` is the C result false. -/
def Fifo.headQ (q : Fifo) : Option Line := q.head?

/-- `removeQ` on the sequence of values; `none` is the C result false. -/
def Fifo.removeQ : Fifo → Option (Line × Fifo)
  | [] => none
  | s :: q => some (s, q)

/-! ## Merge16.c: the distribution pass of `main` -/

/-- The variables of `main` that the distribution pass sets. -/
structure Dist where
  q1 : Fifo := []
  q2 : Fifo := []
  totalLines : Int := 0
  q1Size : Int := 0
  q2Size : Int := 0
  addQueue1 : Bool := true
  deriving DecidableEq, Repr

/-- Modelled from the spec: `getLine` of getLine.h, which is not among the
sources.  It yields the next raw line of a source, with its newline if it has
one, and signals the end of the source (NULL, here `none`) apart from an empty
line.  The second component is the rest of the file. -/
def getLine : List Line → Option Line × List Line
  | [] => (none, [])
  | l :: file => (some l, file)

/-- Two `addQ` calls on the current queue and the update of its size
(Merge16.c lines 225-248 and 253-276). -/
def addPair (d : Dist) (first second : Line) : Dist :=
  if d.addQueue1 then
    { d with q1 := Fifo.addQ (Fifo.addQ d.q1 first) second, q1Size := d.q1Size + 2 }
  else
    { d with q2 := Fifo.addQ (Fifo.addQ d.q2 first) second, q2Size := d.q2Size + 2 }

/-- The body of the loop over the pairs of lines of a file, up to the flip of
`addQueue1` (lines 217-279). -/
def pairStep (pos len : Nat) (line nextLine : Line) (d : Dist) : Except Fault Dist := do
  let line := trim line
  let nextLine := trim nextLine
  let value ← compareLines line nextLine pos len
  let d :=
    if value < 0 ∨ value = 0 then addPair d line nextLine
    else if value > 0 then addPair d nextLine line
    else d
  pure { d with totalLines := d.totalLines + 2, addQueue1 := !d.addQueue1 }

/-- The loop `while (line != NULL && nextLine != NULL)` (lines 215-282).
Returns `line`, `nextLine` and the variables at the exit. -/
def pairLoop (pos len : Nat) :
    Nat → Option Line → Option Line → List Line → Dist →
      Except Fault (Option Line × Option Line × Dist)
  | 0, some _, some _, _, _ => .error .diverges
  | fuel + 1, some line, some nextLine, file, d => do
    let d ← pairStep pos len line nextLine d
    let (line, file) := getLine file
    let (nextLine, file) := getLine file
    pairLoop pos len fuel line nextLine file d
  | _, line, nextLine, _, d => pure (line, nextLine, d)

/-- The odd last line of the last file goes to the current queue (lines 289-306). -/
def addLast (d : Dist) (line : Line) : Dist :=
  let line := trim line
  if d.addQueue1 then
    { d with q1 := Fifo.addQ d.q1 line, q1Size := d.q1Size + 1, totalLines := d.totalLines + 1 }
  else
    { d with q2 := Fifo.addQ d.q2 line, q2Size := d.q2Size + 1, totalLines := d.totalLines + 1 }

/-- The loop over the files (lines 196-320); `line` and `continuation` are
the variables of that name.  The test `index == argc - 1` is the test that no
file follows. -/
def fileLoop (pos len : Nat) :
    List (List Line) → Option Line → Bool → Dist → Except Fault Dist
  | [], _, _, d => pure d
  | file :: files, line, continuation, d => do
    let (line, file) := if !continuation then getLine file else (line, file)
    let (nextLine, file) := getLine file
    let (line, nextLine, d) ← pairLoop pos len (file.length + 1) line nextLine file d
    match line, nextLine with
    | some l, none =>
      if files = [] then fileLoop pos len files line false (addLast d l)
      else fileLoop pos len files line true d
    | _, _ => fileLoop pos len files line false d

/-! ## Merge16.c: the merge passes of `main` -/

/-- The variables of `main` that a merge pass reads and writes; `out` is what
has been written to standard output.  (`linesAdded` is only ever incremented
and is left out.) -/
structure Vars where
  q1 : Fifo
  q2 : Fifo
  q1Size : Int
  q2Size : Int
  q1Left : Int
  q2Left : Int
  fromQueue1 : Int
  fromQueue2 : Int
  addQueue1 : Bool
  out : List Line
  deriving DecidableEq, Repr

/-- The two queues, for the pointer arguments `&q1` and `&q2`. -/
inductive QId where
  | one
  | two
  deriving DecidableEq, Repr

/-- The queue behind a pointer. -/
def Vars.getQ (v : Vars) : QId → Fifo
  | .one => v.q1
  | .two => v.q2

/-- Assignment through a pointer to a queue. -/
def Vars.setQ (v : Vars) : QId → Fifo → Vars
  | .one, q => { v with q1 := q }
  | .two, q => { v with q2 := q }

/-- `addRemove(dest, from, line, print)` of Merge16.c. -/
def addRemove (dest src : QId) (line : Line) (print : Bool) (v : Vars) : Except Fault Vars := do
  let v := if !print then v.setQ dest (Fifo.addQ (v.getQ dest) line) else v
  match Fifo.removeQ (v.getQ src) with
  | none => .error .removeQFailed
  | some (line, q) =>
    let v := v.setQ src q
    if print then pure { v with out := v.out ++ [line] } else pure v

/-- `headQ(&q, &line)` with the result ignored, followed by a use of `line`:
the variable has no value when the queue is empty. -/
def headLine (q : Fifo) : Except Fault Line :=
  match Fifo.headQ q with
  | some line => .ok line
  | none => .error .uninitialised

/-- The head of `q1` goes to the current destination (lines 376-387, 413-424
and 463-473). -/
def moveFromQ1 (print : Bool) (line1 : Line) (v : Vars) : Except Fault Vars := do
  if v.addQueue1 then
    let v ← addRemove .one .one line1 print v
    pure { v with q1Left := v.q1Left - 1 }
  else
    let v ← addRemove .two .one line1 print v
    pure { v with q2Size := v.q2Size + 1, q1Size := v.q1Size - 1, q1Left := v.q1Left - 1 }

/-- The head of `q2` goes to the current destination (lines 392-403, 433-444
and 480-490). -/
def moveFromQ2 (print : Bool) (line2 : Line) (v : Vars) : Except Fault Vars := do
  if v.addQueue1 then
    let v ← addRemove .one .two line2 print v
    pure { v with q1Size := v.q1Size + 1, q2Size := v.q2Size - 1, q2Left := v.q2Left - 1 }
  else
    let v ← addRemove .two .two line2 print v
    pure { v with q2Left := v.q2Left - 1 }

/-- The guard of the loop that merges two runs (lines 362-363). -/
def mergeCond (groupsize : Int) (v : Vars) : Bool :=
  decide (v.q1Left > 0) && decide (v.q2Left > 0) && decide (v.fromQueue1 < groupsize)
    && decide (v.fromQueue2 < groupsize) && !Fifo.isEmptyQ v.q1 && !Fifo.isEmptyQ v.q2

/-- The body of the loop that merges two runs (lines 366-405). -/
def mergeStep (pos len : Nat) (print : Bool) (v : Vars) : Except Fault Vars := do
  let line1 ← headLine v.q1
  let line2 ← headLine v.q2
  let value ← compareLines line1 line2 pos len
  if value < 0 ∨ value = 0 then
    let v ← moveFromQ1 print line1 v
    pure { v with fromQueue1 := v.fromQueue1 + 1 }
  else if value > 0 then
    let v ← moveFromQ2 print line2 v
    pure { v with fromQueue2 := v.fromQueue2 + 1 }
  else pure v

/-- The loop that merges two runs (lines 362-406). -/
def mergeLoop (pos len : Nat) (groupsize : Int) (print : Bool) : Nat → Vars → Except Fault Vars
  | fuel, v =>
    if mergeCond groupsize v then
      match fuel with
      | 0 => .error .diverges
      | fuel + 1 => do
        let v ← mergeStep pos len print v
        mergeLoop pos len groupsize print fuel v
    else pure v

/-- The loop that moves the rest of the run of `q1` (lines 409-427). -/
def runRest1 (groupsize : Int) (print : Bool) : Nat → Vars → Except Fault Vars
  | fuel, v =>
    if decide (v.fromQueue1 < groupsize) && !Fifo.isEmptyQ v.q1 && decide (v.q1Left > 0) then
      match fuel with
      | 0 => .error .diverges
      | fuel + 1 => do
        let line1 ← headLine v.q1
        let v ← moveFromQ1 print line1 v
        runRest1 groupsize print fuel { v with fromQueue1 := v.fromQueue1 + 1 }
    else pure v

/-- The loop that moves the rest of the run of `q2` (lines 429-447). -/
def runRest2 (groupsize : Int) (print : Bool) : Nat → Vars → Except Fault Vars
  | fuel, v =>
    if decide (v.fromQueue2 < groupsize) && !Fifo.isEmptyQ v.q2 && decide (v.q2Left > 0) then
      match fuel with
      | 0 => .error .diverges
      | fuel + 1 => do
        let line2 ← headLine v.q2
        let v ← moveFromQ2 print line2 v
        runRest2 groupsize print fuel { v with fromQueue2 := v.fromQueue2 + 1 }
    else pure v

/-- The body of the loop over the pairs of runs (lines 359-456). -/
def groupStep (pos len : Nat) (groupsize : Int) (print : Bool) (v : Vars) : Except Fault Vars := do
  let v := { v with fromQueue1 := 0, fromQueue2 := 0 }
  let v ← mergeLoop pos len groupsize print (v.q1Left + v.q2Left).toNat v
  let v ← runRest1 groupsize print v.q1Left.toNat v
  let v ← runRest2 groupsize print v.q2Left.toNat v
  pure { v with addQueue1 := if v.addQueue1 then false else true }

/-- The loop over the pairs of runs, `while (q1Left > 0 && q2Left > 0)`
(lines 357-457). -/
def groupLoop (pos len : Nat) (groupsize : Int) (print : Bool) : Nat → Vars → Except Fault Vars
  | fuel, v =>
    if v.q1Left > 0 ∧ v.q2Left > 0 then
      match fuel with
      | 0 => .error .diverges
      | fuel + 1 => do
        let v ← groupStep pos len groupsize print v
        groupLoop pos len groupsize print fuel v
    else pure v

/-- The loop `while (q1Left > 0)` after the pairs of runs (lines 459-474). -/
def leftover1 (print : Bool) : Nat → Vars → Except Fault Vars
  | fuel, v =>
    if v.q1Left > 0 then
      match fuel with
      | 0 => .error .diverges
      | fuel + 1 => do
        let line ← headLine v.q1
        let v ← moveFromQ1 print line v
        leftover1 print fuel v
    else pure v

/-- The loop `while (q2Left > 0)` after the pairs of runs (lines 476-491). -/
def leftover2 (print : Bool) : Nat → Vars → Except Fault Vars
  | fuel, v =>
    if v.q2Left > 0 then
      match fuel with
      | 0 => .error .diverges
      | fuel + 1 => do
        let line ← headLine v.q2
        let v ← moveFromQ2 print line v
        leftover2 print fuel v
    else pure v

/-- One merge pass: the body of `while (groupsize < totalLines)` after the
test that sets `print` and before `groupsize *= 2` (lines 346-491). -/
def mergePass (pos len : Nat) (groupsize : Int) (print : Bool) (v : Vars) : Except Fault Vars := do
  let v := { v with addQueue1 := true, q1Left := v.q1Size, q2Left := v.q2Size,
                    fromQueue1 := 0, fromQueue2 := 0 }
  let v ← groupLoop pos len groupsize print (v.q1Left + v.q2Left).toNat v
  let v ← leftover1 print v.q1Left.toNat v
  leftover2 print v.q2Left.toNat v

/-- The loop `while (groupsize < totalLines)` (lines 341-494) up to the end of
its printing pass.  The test `groupsize >= (double)totalLines/2` is
`2 * groupsize ≥ totalLines`.  Up to the printing pass every value that
`groupsize` takes is less than `totalLines` and is the double as a number; the
double after the printing pass ends this loop.  As an `int` that double wraps
around for more than `2^30` lines: `passLoopInt` is the loop with the `int`
counter, and it is this loop up to `2^30` lines. -/
def passLoop (pos len : Nat) (totalLines : Int) : Nat → Int → Bool → Vars → Except Fault Vars
  | fuel, groupsize, print, v =>
    if groupsize < totalLines then
      match fuel with
      | 0 => .error .diverges
      | fuel + 1 => do
        let print := if 2 * groupsize ≥ totalLines then true else print
        let v ← mergePass pos len groupsize print v
        passLoop pos len totalLines fuel (groupsize * 2) print v
    else pure v

/-- The loop `while (!isEmptyQ(&q1))` for one or two lines (lines 327-334);
`line` is the variable that `removeQ` assigns. -/
def smallDrain : Nat → Fifo → Line → List Line → Except Fault (List Line)
  | fuel, q1, line, out =>
    if !Fifo.isEmptyQ q1 then
      match fuel with
      | 0 => .error .diverges
      | fuel + 1 =>
        match Fifo.removeQ q1 with
        | some (line, q1) => smallDrain fuel q1 line (out ++ [line])
        | none => smallDrain fuel q1 line (out ++ [line])
    else pure out

/-- The variables at the start of the merge passes. -/
def Dist.vars (d : Dist) : Vars :=
  { q1 := d.q1, q2 := d.q2, q1Size := d.q1Size, q2Size := d.q2Size, q1Left := 0, q2Left := 0,
    fromQueue1 := 0, fromQueue2 := 0, addQueue1 := d.addQueue1, out := [] }

/-- The distribution pass: the queues and counters after the loop over the files. -/
def distribute (files : List (List Line)) (pos len : Nat) : Except Fault Dist :=
  fileLoop pos len files none false {}

/-- The part of `main` that follows the distribution pass (lines 322-495), up
to the end of the printing pass: the lines written to standard output.  (With
the `int` counter the loop goes on after the printing pass for more than
`2^30` lines, `passLoopInt`, and writes nothing more.) -/
def mergeAll (pos len : Nat) (d : Dist) : Except Fault (List Line) :=
  if d.totalLines = 1 ∨ d.totalLines = 2 then
    smallDrain d.q1.length d.q1 [120] []
  else do
    let v ← passLoop pos len d.totalLines d.totalLines.toNat 2 false d.vars
    pure v.out

/-- `main` of Merge16.c for the key `pos`, `len` and the files `files`, each
the list of its lines as `getLine` returns them: the lines written to standard
output, in order.  (The two `destroyQ` calls at the end write nothing.) -/
def main (files : List (List Line)) (pos len : Nat) : Except Fault (List Line) := do
  let d ← distribute files pos len
  mergeAll pos len d

/-! ## The key order -/

/-- The comparison of the keys of two lines when every offset stays inside its
line: `strncmp` on the two lines from `pos` on. -/
def keyCmp (pos len : Nat) (a b : Line) : Int :=
  strncmp (a.drop pos) (b.drop pos) len

/-- The offset `pos` stays inside the line, or the line is empty and
`compareLines` does not offset it. -/
def InB (pos : Nat) (l : Line) : Prop := l = [] ∨ pos ≤ l.length

instance (pos : Nat) (l : Line) : Decidable (InB pos l) := by
  unfold InB; infer_instance

/-- The order in which `main` puts two lines: `a` may stand before `b`. -/
def keyLe (pos len : Nat) (a b : Line) : Bool := decide (keyCmp pos len a b ≤ 0)

/-! ## Stable sortedness -/

/-- Two elements that the order does not separate. -/
def eqv {α : Type} (le : α → α → Bool) (x y : α) : Bool := le x y && le y x

/-- The list `r` is the stable sort of `b` under `le`: a permutation of `b`,
in order, in which the elements that `le` does not separate keep the order
they have in `b`. -/
def StableSortOf {α : Type} (le : α → α → Bool) (b r : List α) : Prop :=
  r.Perm b ∧ r.Pairwise (fun x y => le x y = true) ∧
    ∀ x, r.filter (eqv le x) = b.filter (eqv le x)

/-! ## A merge pass seen as lists -/

/-- The variables of a merge pass as lists: `rem1`, `rem2` are the lines of `q1`,
`q2` that the pass has not consumed yet, `new1`, `new2` the lines it has
appended to them, `s1`, `s2` the number of lines it has counted for `q1`, `q2`. -/
structure View where
  rem1 : List Line
  rem2 : List Line
  new1 : List Line
  new2 : List Line
  s1 : Int
  s2 : Int
  from1 : Int
  from2 : Int
  flag : Bool
  out : List Line

/-- The variables that a view stands for. -/
def View.vars (a : View) : Vars :=
  { q1 := a.rem1 ++ a.new1, q2 := a.rem2 ++ a.new2,
    q1Size := a.rem1.length + a.s1, q2Size := a.rem2.length + a.s2,
    q1Left := a.rem1.length, q2Left := a.rem2.length,
    fromQueue1 := a.from1, fromQueue2 := a.from2, addQueue1 := a.flag, out := a.out }

/-- A line reaches the current destination: standard output on a printing
pass, else the queue that `flag` selects. -/
def View.push (print : Bool) (x : Line) (a : View) : View :=
  if print then
    if a.flag then { a with out := a.out ++ [x], s1 := a.s1 + 1 }
    else { a with out := a.out ++ [x], s2 := a.s2 + 1 }
  else if a.flag then { a with new1 := a.new1 ++ [x], s1 := a.s1 + 1 }
  else { a with new2 := a.new2 ++ [x], s2 := a.s2 + 1 }

/-- Several lines reach the current destination, in order. -/
def View.pushAll (print : Bool) : List Line → View → View
  | [], a => a
  | x :: xs, a => View.pushAll print xs (a.push print x)

/-- The view with its unconsumed lines and run counters replaced. -/
def View.setRem (a : View) (r1 r2 : List Line) (f1 f2 : Int) : View :=
  { a with rem1 := r1, rem2 := r2, from1 := f1, from2 := f2 }

/-- The view after the destination has changed sides. -/
def View.flip (a : View) : View := { a with flag := !a.flag }

/-- What the body of the loop over the pairs of runs does after the merging
loop (lines 409-456). -/
def groupTail (groupsize : Int) (print : Bool) (v : Vars) : Except Fault Vars := do
  let v ← runRest1 groupsize print v.q1Left.toNat v
  let v ← runRest2 groupsize print v.q2Left.toNat v
  pure { v with addQueue1 := if v.addQueue1 then false else true }

/-- What a merge pass does after the loop over the pairs of runs (lines 459-491). -/
def passTail (print : Bool) (v : Vars) : Except Fault Vars := do
  let v ← leftover1 print v.q1Left.toNat v
  leftover2 print v.q2Left.toNat v

/-- The lines of the runs of even index, in order: the content of `q1`. -/
def evensJoin {α : Type} : List (List α) → List α
  | [] => []
  | [r] => r
  | r :: _ :: rest => r ++ evensJoin rest

/-- The lines of the runs of odd index, in order: the content of `q2`. -/
def oddsJoin {α : Type} : List (List α) → List α
  | [] => []
  | [_] => []
  | _ :: r :: rest => r ++ oddsJoin rest

/-- Every run holds `g` lines, but for the last, which holds between one and
`g` lines. -/
def RunShape {α : Type} (g : Nat) : List (List α) → Prop
  | [] => True
  | [r] => 0 < r.length ∧ r.length ≤ g
  | r :: r' :: rest => r.length = g ∧ RunShape g (r' :: rest)

/-- Each run of even index merged with the run that follows it. -/
def mergePairs {α : Type} (le : α → α → Bool) : List (List α) → List (List α)
  | [] => []
  | [r] => [r]
  | r :: r' :: rest => List.merge r r' le :: mergePairs le rest

/-- The view at the end of a merge pass over the runs `runs`. -/
def View.afterRuns (le : Line → Line → Bool) (print : Bool) : List (List Line) → View → View
  | [], a => a
  | [r], a => View.pushAll print r (a.setRem [] [] a.from1 a.from2)
  | r :: r' :: rest, a =>
    View.afterRuns le print rest
      (View.pushAll print (List.merge r r' le)
        (a.setRem (evensJoin rest) (oddsJoin rest) r.length r'.length)).flip

/-- Each block of even index joined with the block that follows it. -/
def joinPairs {α : Type} : List (List α) → List (List α)
  | [] => []
  | [b] => [b]
  | b :: b' :: rest => (b ++ b') :: joinPairs rest

/-- The runs `runs` are the stable sorts of the consecutive blocks of `g`
elements of `l` (the last block may be shorter). -/
def RunsOf {α : Type} (le : α → α → Bool) (g : Nat) (l : List α) (runs : List (List α)) : Prop :=
  ∃ blocks : List (List α), blocks.flatten = l ∧ RunShape g runs ∧
    List.Forall₂ (StableSortOf le) blocks runs

/-! ## The distribution pass on the sequence of all lines -/

/-- The distribution of a sequence of lines, two at a time; an odd last line
is handed back. -/
def pairsOf (pos len : Nat) : List Line → Dist → Except Fault (Option Line × Dist)
  | [], d => pure (none, d)
  | [a], d => pure (some a, d)
  | a :: b :: rest, d => do
    let d ← pairStep pos len a b d
    pairsOf pos len rest d

/-- The odd last line, when there is one, goes to the current queue. -/
def finishDist : Option Line × Dist → Dist
  | (none, d) => d
  | (some l, d) => addLast d l

/-- The distribution of one sequence of lines. -/
def distList (pos len : Nat) (xs : List Line) (d : Dist) : Except Fault Dist := do
  let r ← pairsOf pos len xs d
  pure (finishDist r)

/-- The sorted pairs of a sequence, and its odd last element as a run of its own. -/
def pairRuns {α : Type} (le : α → α → Bool) : List α → List (List α)
  | [] => []
  | [a] => [[a]]
  | a :: b :: rest => (if le a b then [a, b] else [b, a]) :: pairRuns le rest

/-- The consecutive pairs of a sequence, and its odd last element as a block
of its own. -/
def pairBlocks {α : Type} : List α → List (List α)
  | [] => []
  | [a] => [[a]]
  | a :: b :: rest => [a, b] :: pairBlocks rest

/-! ## The key of a line, in the words of the specification -/

/-- The key of a line: its bytes from `pos` to `min (pos + len) (length)`;
empty when `pos` is at or beyond the length. -/
def specKey (x : Line) (pos len : Nat) : Line := (x.drop pos).take len

/-- The byte-wise lexicographic comparison of two keys; a key that is a
proper prefix of the other is the lower one. -/
def lexCompare : List Nat → List Nat → Ordering
  | [], [] => .eq
  | [], _ :: _ => .lt
  | _ :: _, [] => .gt
  | a :: as, b :: bs =>
    if a < b then .lt else if b < a then .gt else lexCompare as bs

/-- The sign of an `int` result as an ordering. -/
def signOf (v : Int) : Ordering :=
  if v < 0 then .lt else if v = 0 then .eq else .gt

/-- The test `compareLines(x, y, pos, len) <= 0`; false when the comparison
leaves a line. -/
def inOrder (pos len : Nat) (x y : Line) : Bool :=
  match compareLines x y pos len with
  | .ok v => decide (v ≤ 0)
  | .error _ => false

/-- The test `compareLines(x, y, pos, len) == 0`; false when the comparison
leaves a line. -/
def sameKey (pos len : Nat) (x y : Line) : Bool :=
  match compareLines x y pos len with
  | .ok v => decide (v = 0)
  | .error _ => false

/-! ## The sequence that a linked queue holds -/

/-- The address of the first cell of a chain, or `e` when the chain is empty. -/
def firstAddr (cells : List (Nat × Line)) (e : Nat) : Nat :=
  match cells with
  | [] => e
  | c :: _ => c.1

/-- The cells `cells` (address and value) are nodes of the store, each linked
to the next, the last one to `e`. -/
def Chain (h : Heap) : List (Nat × Line) → Nat → Prop
  | [], _ => True
  | c :: rest, e => h.read c.1 = some ⟨c.2, firstAddr rest e⟩ ∧ Chain h rest e

/-- The queue `q` in the store `h` holds the values `vs`, oldest first: NULL
for no value, else the address of the last node of a ring of distinct nodes
that carries the values in order. -/
def Rep (h : Heap) (q : Queue) (vs : List Line) : Prop :=
  match q with
  | none => vs = []
  | some last =>
    ∃ cells : List (Nat × Line), cells.map Prod.snd = vs ∧ (cells.map Prod.fst).Nodup ∧
      cells.getLast?.map Prod.fst = some last ∧ Chain h cells (firstAddr cells 0)

/-! ## Merge16.c: the key argument of `main` -/

/-- `LONG_MAX` of limits.h for a 64-bit `long`. -/
def LONG_MAX : Int := 9223372036854775807

/-- `LONG_MIN` of limits.h for a 64-bit `long`. -/
def LONG_MIN : Int := -9223372036854775808

/-- `INT_MAX` of limits.h. -/
def INT_MAX : Int := 2147483647

/-- `isspace` of ctype.h in the C locale. -/
def isspace (c : Nat) : Bool := c = 32 || (9 ≤ c && c ≤ 13)

/-- `isdigit` of ctype.h. -/
def isdigit (c : Nat) : Bool := 48 ≤ c && c ≤ 57

/-- The number that the leading decimal digits of a string spell, after `acc`. -/
def digitsValue : List Nat → Nat → Nat
  | [], acc => acc
  | c :: cs, acc => if isdigit c then digitsValue cs (acc * 10 + (c - 48)) else acc

/-- `strtol(s, &end, 10)` of stdlib.h, its value: white space is skipped, a
sign is read, then the decimal digits; a value outside of `long` becomes
`LONG_MAX` or `LONG_MIN`. -/
def strtol (s : List Nat) : Int :=
  match s.dropWhile isspace with
  | 45 :: t => if -(digitsValue t 0 : Int) < LONG_MIN then LONG_MIN else -(digitsValue t 0 : Int)
  | 43 :: t => if (digitsValue t 0 : Int) > LONG_MAX then LONG_MAX else (digitsValue t 0 : Int)
  | t => if (digitsValue t 0 : Int) > LONG_MAX then LONG_MAX else (digitsValue t 0 : Int)

/-- The loop `while (argv[1][index] != '\0')` over the bytes of `argv[1]` from
`index` on (lines 106-126): `none` for `Invalid -POS,[LEN]`, else `comma` and
`index` at the exit. -/
def scanKey : List Nat → Int → Bool → Int → Option (Int × Int)
  | [], index, _, comma => some (comma, index)
  | c :: cs, index, hasComma, comma =>
    if c ≠ 44 ∧ (c < 48 ∨ c > 57) then none
    else if c = 44 ∧ hasComma = false then scanKey cs (index + 1) true index
    else if c = 44 ∧ hasComma = true then none
    else scanKey cs (index + 1) hasComma comma

/-- The handling of an `argv[1]` that starts with `-` (lines 102-151): `none`
for `Invalid -POS,[LEN]`, else `pos` and `len`. -/
def keyArg (arg : List Nat) : Option (Int × Int) :=
  match scanKey (arg.drop 1) 1 false (-1) with
  | none => none
  | some (comma, index) =>
    if comma = index - 1 ∨ comma = 1 then none
    else if comma = -1 then some (strtol (arg.drop 1), INT_MAX)
    else some (strtol (arg.drop 1), strtol (arg.drop (comma + 1).toNat))

/-- The first lines of `main` (lines 95-157) for `argv[1] = arg` and the
arguments `rest` after it: `none` for `Invalid -POS,[LEN]`, else `pos`, `len`
and `hasPos`. -/
def parseArgs (arg : List Nat) (rest : List (List Nat)) : Option (Int × Int × Bool) :=
  if rest = [] ∧ arg.head? = some 45 then none
  else if arg.head? = some 45 then (keyArg arg).map (fun p => (p.1, p.2, true))
  else some (0, INT_MAX, false)

/-- The number that a string of decimal digits spells. -/
def decimalValue (ds : List Nat) : Nat := ds.foldl (fun acc c => acc * 10 + (c - 48)) 0

/-! ## Invariants of the merge passes -/

/-- The offset `pos` stays inside every line of every run of two or more
lines: the lines that a comparison has read. -/
def LongRunsInB (pos : Nat) (runs : List (List Line)) : Prop :=
  ∀ r ∈ runs, 2 ≤ r.length → ∀ l ∈ r, InB pos l

/-- The passes that the loop `while (groupsize < totalLines)` starts (lines
341-494) up to and with its printing pass (the passes of `passLoop`): for each
pass `groupsize`, `print` after the test of line 343 and the variables at that
point, in order.  The list ends with the printing pass or where a pass does
not return.  The passes with the `int` counter are `passStartsInt`. -/
def passStarts (pos len : Nat) (totalLines : Int) :
    Nat → Int → Bool → Vars → List (Int × Bool × Vars)
  | fuel, groupsize, print, v =>
    if groupsize < totalLines then
      match fuel with
      | 0 => []
      | fuel + 1 =>
        let print := if 2 * groupsize ≥ totalLines then true else print
        (groupsize, print, v) ::
          (match mergePass pos len groupsize print v with
           | .ok v => passStarts pos len totalLines fuel (groupsize * 2) print v
           | .error _ => [])
    else []

/-- The state of the queues at the start of a merge pass with group size `g`
over the lines `l`: the queues hold in turn the runs of `g` lines, each the
stable sort of a block of `l`, the counters hold the lengths of the queues,
nothing has been written, and the offset is inside every line that a
comparison has read. -/
def PassInv (pos len : Nat) (l : List Line) (g : Nat) (v : Vars) : Prop :=
  ∃ runs, RunsOf (keyLe pos len) g l runs ∧ LongRunsInB pos runs ∧
    v.q1 = evensJoin runs ∧ v.q2 = oddsJoin runs ∧
    v.q1Size = v.q1.length ∧ v.q2Size = v.q2.length ∧ v.out = []

/-! ## An input of five lines -/

/-- One file with the five lines `c`, `a`, `b`, `e`, `d`. -/
def fiveLines : List (List Line) := [[[99, 10], [97, 10], [98, 10], [101, 10], [100, 10]]]

/-- The queues and counters that the distribution pass leaves for `fiveLines`
and the whole line as the key. -/
def fiveLinesDist : Dist :=
  { q1 := [[97], [99], [100]], q2 := [[98], [101]], totalLines := 5, q1Size := 3, q2Size := 2,
    addQueue1 := true }

/-- The variables at the start of the second merge pass for `fiveLines` and
the whole line as the key. -/
def fiveLinesSecond : Vars :=
  { q1 := [[97], [98], [99], [101]], q2 := [[100]], q1Size := 4, q2Size := 1, q1Left := 0,
    q2Left := 0, fromQueue1 := 2, fromQueue2 := 2, addQueue1 := false, out := [] }

/-! ## Merge16.c: the counter `groupsize` as an `int` -/

/-- `INT_MIN` of limits.h. -/
def INT_MIN : Int := -2147483648

/-- The statement `groupsize *= 2` on an `int` (line 493): the double when it
is an `int`; `none` when it is not, which is undefined behaviour in C. -/
def doubleGroupsize (groupsize : Int) : Option Int :=
  if INT_MIN ≤ groupsize * 2 ∧ groupsize * 2 ≤ INT_MAX then some (groupsize * 2) else none

/-- The `int` that two's complement arithmetic leaves for the value `x`. -/
def wrapInt (x : Int) : Int := (x + 2147483648) % 4294967296 - 2147483648

/-- How the loop over the passes, reduced to its counter, can end badly. -/
inductive CounterFault where
  /-- a `groupsize *= 2` whose value is not an `int` -/
  | overflow
  /-- the guard still holds when the fuel is used up -/
  | diverges
  deriving DecidableEq, Repr

/-- The loop `while (groupsize < totalLines)` reduced to its counter (lines
341 and 493), every pass taken to return: the values of `groupsize` with which
the passes start, in order, `groupsize *= 2` being done on an `int`. -/
def groupsizes (totalLines : Int) : Nat → Int → Except CounterFault (List Int)
  | fuel, groupsize =>
    if groupsize < totalLines then
      match fuel with
      | 0 => .error .diverges
      | fuel + 1 =>
        match doubleGroupsize groupsize with
        | none => .error .overflow
        | some doubled => do
          let rest ← groupsizes totalLines fuel doubled
          pure (groupsize :: rest)
    else pure []

/-- A file of `m` empty lines, each a newline. -/
def emptyLines (m : Nat) : List (List Line) := [List.replicate m [10]]

/-! ## Merge16.c: the loop over the passes with the `int` counter -/

/-- The loop `while (groupsize < totalLines)` (lines 341-494) with `groupsize`
an `int`: the statement `groupsize *= 2` of line 493 leaves the double when it
is an `int` and wraps around as two's complement arithmetic does when it is
not (`doubleGroupsize`: that case is undefined behaviour in C).  The test
`groupsize >= (double)totalLines/2` is done on `double` values and is
`2 * groupsize ≥ totalLines`. -/
def passLoopInt (pos len : Nat) (totalLines : Int) : Nat → Int → Bool → Vars → Except Fault Vars
  | fuel, groupsize, print, v =>
    if groupsize < totalLines then
      match fuel with
      | 0 => .error .diverges
      | fuel + 1 => do
        let print := if 2 * groupsize ≥ totalLines then true else print
        let v ← mergePass pos len groupsize print v
        passLoopInt pos len totalLines fuel (wrapInt (groupsize * 2)) print v
    else pure v

/-- The passes that the loop `while (groupsize < totalLines)` starts when
`groupsize` is an `int` (`passLoopInt`): for each pass `groupsize`, `print`
after the test of line 343 and the variables at that point, in order.  The
list ends where the loop ends or where a pass does not return. -/
def passStartsInt (pos len : Nat) (totalLines : Int) :
    Nat → Int → Bool → Vars → List (Int × Bool × Vars)
  | fuel, groupsize, print, v =>
    if groupsize < totalLines then
      match fuel with
      | 0 => []
      | fuel + 1 =>
        let print := if 2 * groupsize ≥ totalLines then true else print
        (groupsize, print, v) ::
          (match mergePass pos len groupsize print v with
           | .ok v => passStartsInt pos len totalLines fuel (wrapInt (groupsize * 2)) print v
           | .error _ => [])
    else []

/-! # Proofs -/

/-! ## The key order is a total preorder -/

theorem strncmp_self (s : List Nat) (n : Nat) : strncmp s s n = 0 := by
  induction s generalizing n with
  | nil => simp [strncmp]
  | cons c s ih => simp only [strncmp]; split_ifs <;> simp [ih]

theorem strncmp_swap (s t : List Nat) (n : Nat) : strncmp t s n = - strncmp s t n := by
  induction s generalizing t n with
  | nil =>
    cases t with
    | nil => simp [strncmp]
    | cons c t => simp only [strncmp]; split_ifs <;> simp
  | cons c s ih =>
    cases t with
    | nil => simp only [strncmp]; split_ifs <;> simp
    | cons d t =>
      simp only [strncmp]
      by_cases hn : n = 0
      · simp [hn]
      · by_cases hcd : c = d
        · subst hcd; simp only [hn, if_false, if_true]; split_ifs
          · simp
          · exact ih t (n - 1)
        · have hdc : ¬ d = c := fun h => hcd h.symm
          simp only [hn, hcd, hdc, if_false]; omega

theorem strncmp_trans (a b c : List Nat) (n : Nat)
    (hab : strncmp a b n ≤ 0) (hbc : strncmp b c n ≤ 0) : strncmp a c n ≤ 0 := by
  induction a generalizing b c n with
  | nil =>
    cases c with
    | nil => simp [strncmp]
    | cons z c => simp only [strncmp]; split_ifs <;> omega
  | cons x a ih =>
    by_cases hn : n = 0
    · subst hn; cases c <;> simp [strncmp]
    · cases b with
      | nil =>
        simp only [strncmp, hn, if_false] at hab
        have hx : x = 0 := by omega
        subst hx
        cases c with
        | nil => simp [strncmp]
        | cons z c =>
          simp only [strncmp, hn, if_false]
          split_ifs <;> omega
      | cons y b =>
        cases c with
        | nil =>
          simp only [strncmp, hn, if_false] at hbc
          have hy : y = 0 := by omega
          subst hy
          simp only [strncmp, hn, if_false] at hab ⊢
          split_ifs at hab <;> omega
        | cons z c =>
          simp only [strncmp, hn, if_false] at hab hbc ⊢
          by_cases hxy : x = y
          · subst hxy
            by_cases hxz : x = z
            · subst hxz
              simp only [if_true] at hab hbc ⊢
              split_ifs with h0
              · omega
              · simp only [h0, if_false] at hab hbc
                exact ih b c (n - 1) hab hbc
            · simp only [hxz, if_false] at hbc ⊢; exact hbc
          · simp only [hxy, if_false] at hab
            by_cases hyz : y = z
            · subst hyz; simp only [hxy, if_false]; exact hab
            · simp only [hyz, if_false] at hbc
              split_ifs <;> omega

theorem keyLe_total (pos len : Nat) (a b : Line) :
    (keyLe pos len a b || keyLe pos len b a) = true := by
  have h := strncmp_swap (a.drop pos) (b.drop pos) len
  simp only [keyLe, keyCmp, Bool.or_eq_true, decide_eq_true_eq]
  omega

theorem keyLe_trans (pos len : Nat) (a b c : Line)
    (hab : keyLe pos len a b = true) (hbc : keyLe pos len b c = true) :
    keyLe pos len a c = true := by
  simp only [keyLe, keyCmp, decide_eq_true_eq] at *
  exact strncmp_trans _ _ _ _ hab hbc

theorem offset_of_le {l : Line} {pos : Nat} (h : pos ≤ l.length) :
    offset l pos = .ok (l.drop pos) := by
  simp [offset, h]

/-- Inside the lines, `compareLines` is the comparison of the keys. -/
theorem compareLines_of_inB {pos : Nat} (len : Nat) {a b : Line}
    (ha : InB pos a) (hb : InB pos b) :
    compareLines a b pos len = .ok (keyCmp pos len a b) := by
  unfold compareLines keyCmp
  by_cases ha0 : a = [] <;> by_cases hb0 : b = []
  · subst ha0 hb0; simp [strncmp]; rfl
  · subst ha0
    have hb' : pos ≤ b.length := by rcases hb with h | h; exact absurd h hb0; exact h
    simp [hb0, offset_of_le hb']
  · subst hb0
    have ha' : pos ≤ a.length := by rcases ha with h | h; exact absurd h ha0; exact h
    simp [ha0, offset_of_le ha']
  · have ha' : pos ≤ a.length := by rcases ha with h | h; exact absurd h ha0; exact h
    have hb' : pos ≤ b.length := by rcases hb with h | h; exact absurd h hb0; exact h
    simp [ha0, hb0, offset_of_le ha', offset_of_le hb']
    rfl

/-! ## Merging keeps stable sortedness -/

section StableMerge

variable {α : Type} {le : α → α → Bool}

theorem le_refl_of_total (total : ∀ a b, (le a b || le b a) = true) (a : α) : le a a = true := by
  have h := total a a
  simpa using h

theorem filter_eqv_merge
    (trans : ∀ a b c, le a b = true → le b c = true → le a c = true)
    (total : ∀ a b, (le a b || le b a) = true)
    (x : α) (l₁ l₂ : List α) (h₁ : l₁.Pairwise (fun a b => le a b = true)) :
    (List.merge l₁ l₂ le).filter (eqv le x) = l₁.filter (eqv le x) ++ l₂.filter (eqv le x) := by
  induction l₁ generalizing l₂ with
  | nil => simp
  | cons a l₁ ih₁ =>
    induction l₂ with
    | nil => simp
    | cons b l₂ ih₂ =>
      by_cases hab : le a b = true
      · rw [List.cons_merge_cons_pos _ _ _ hab, List.filter_cons, ih₁ _ h₁.tail]
        by_cases hxa : eqv le x a = true <;> simp [List.filter_cons, hxa]
      · rw [List.cons_merge_cons_neg _ _ _ hab, List.filter_cons, ih₂]
        by_cases hxb : eqv le x b = true
        · have hnone : (a :: l₁).filter (eqv le x) = [] := by
            rw [List.filter_eq_nil_iff]
            intro z hz hxz
            have haz : le a z = true := by
              rcases List.mem_cons.1 hz with rfl | hm
              · exact le_refl_of_total total _
              · exact List.rel_of_pairwise_cons h₁ hm
            simp only [eqv, Bool.and_eq_true] at hxb hxz
            exact hab (trans _ _ _ haz (trans _ _ _ hxz.2 hxb.1))
          simp [hnone, List.filter_cons, hxb]
        · simp [List.filter_cons, hxb]

theorem StableSortOf.merge
    (trans : ∀ a b c, le a b = true → le b c = true → le a c = true)
    (total : ∀ a b, (le a b || le b a) = true)
    {b₁ b₂ r₁ r₂ : List α} (h₁ : StableSortOf le b₁ r₁) (h₂ : StableSortOf le b₂ r₂) :
    StableSortOf le (b₁ ++ b₂) (List.merge r₁ r₂ le) := by
  refine ⟨?_, ?_, ?_⟩
  · exact (List.merge_perm_append le).trans (h₁.1.append h₂.1)
  · have := @List.sorted_merge α le (fun a b c => trans a b c)
      (fun a b => total a b) r₁ r₂ h₁.2.1 h₂.2.1
    exact this
  · intro x
    rw [filter_eqv_merge trans total x _ _ h₁.2.1, h₁.2.2 x, h₂.2.2 x, List.filter_append]

end StableMerge

/-! ## The loops of a merge pass on views -/

theorem moveFromQ1_view (print : Bool) (a : View) (x : Line) (r : List Line)
    (h : a.rem1 = x :: r) :
    moveFromQ1 print x a.vars = .ok (View.push print x { a with rem1 := r }).vars := by
  obtain ⟨rem1, rem2, new1, new2, s1, s2, from1, from2, flag, out⟩ := a
  simp only at h
  subst h
  cases flag <;> cases print <;>
    simp [moveFromQ1, addRemove, View.vars, View.push, Vars.getQ, Vars.setQ, Fifo.addQ,
      Fifo.removeQ, bind, Except.bind, pure, Except.pure] <;> omega

theorem moveFromQ2_view (print : Bool) (a : View) (y : Line) (r : List Line)
    (h : a.rem2 = y :: r) :
    moveFromQ2 print y a.vars = .ok (View.push print y { a with rem2 := r }).vars := by
  obtain ⟨rem1, rem2, new1, new2, s1, s2, from1, from2, flag, out⟩ := a
  simp only at h
  subst h
  cases flag <;> cases print <;>
    simp [moveFromQ2, addRemove, View.vars, View.push, Vars.getQ, Vars.setQ, Fifo.addQ,
      Fifo.removeQ, bind, Except.bind, pure, Except.pure] <;> omega

@[simp] theorem View.push_rem1 (p : Bool) (x : Line) (a : View) : (a.push p x).rem1 = a.rem1 := by
  unfold View.push; split_ifs <;> rfl

@[simp] theorem View.push_rem2 (p : Bool) (x : Line) (a : View) : (a.push p x).rem2 = a.rem2 := by
  unfold View.push; split_ifs <;> rfl

@[simp] theorem View.push_from1 (p : Bool) (x : Line) (a : View) : (a.push p x).from1 = a.from1 := by
  unfold View.push; split_ifs <;> rfl

@[simp] theorem View.push_from2 (p : Bool) (x : Line) (a : View) : (a.push p x).from2 = a.from2 := by
  unfold View.push; split_ifs <;> rfl

@[simp] theorem View.push_flag (p : Bool) (x : Line) (a : View) : (a.push p x).flag = a.flag := by
  unfold View.push; split_ifs <;> rfl

theorem View.push_with_rem1 (p : Bool) (x : Line) (a : View) (r : List Line) (f : Int) :
    { a.push p x with rem1 := r, from1 := f } = View.push p x { a with rem1 := r, from1 := f } := by
  unfold View.push; simp only; split_ifs <;> rfl

theorem View.push_with_rem2 (p : Bool) (x : Line) (a : View) (r : List Line) (f : Int) :
    { a.push p x with rem2 := r, from2 := f } = View.push p x { a with rem2 := r, from2 := f } := by
  unfold View.push; simp only; split_ifs <;> rfl

theorem runRest1_view (g : Int) (print : Bool) (ra : List Line) :
    ∀ (a : View) (r1 : List Line) (fuel : Nat), a.rem1 = ra ++ r1 →
      a.from1 + ra.length ≤ g → (a.from1 + ra.length = g ∨ r1 = []) → ra.length ≤ fuel →
      runRest1 g print fuel a.vars =
        .ok (View.pushAll print ra { a with rem1 := r1, from1 := a.from1 + ra.length }).vars := by
  induction ra with
  | nil =>
    intro a r1 fuel h hle hor _
    have ha : ({ a with rem1 := r1, from1 := a.from1 + ([] : List Line).length } : View) = a := by
      obtain ⟨rem1, rem2, new1, new2, s1, s2, from1, from2, flag, out⟩ := a
      simp at h; subst h; simp
    rw [ha]; unfold runRest1
    have hc : (decide (a.vars.fromQueue1 < g) && !Fifo.isEmptyQ a.vars.q1 &&
        decide (a.vars.q1Left > 0)) = false := by
      rcases hor with h1 | h1
      · simp [View.vars] at h1 ⊢; intro h2; omega
      · subst h1; simp [View.vars, h]
    simp [hc, View.pushAll]; rfl
  | cons x ra ih =>
    intro a r1 fuel h hle hor hfuel
    cases fuel with
    | zero => simp at hfuel
    | succ fuel =>
      simp only [List.length_cons, Nat.cast_add, Nat.cast_one] at hle hor hfuel
      have h' : a.rem1 = x :: (ra ++ r1) := by simpa using h
      have hc : (decide (a.vars.fromQueue1 < g) && !Fifo.isEmptyQ a.vars.q1 &&
          decide (a.vars.q1Left > 0)) = true := by
        simp [View.vars, h', Fifo.isEmptyQ]; omega
      rw [runRest1]
      simp only [hc, if_true]
      have hh : headLine a.vars.q1 = .ok x := by simp [View.vars, h', headLine, Fifo.headQ]
      simp only [hh, moveFromQ1_view print a x (ra ++ r1) h', bind, Except.bind]
      have key : ({ (View.push print x { a with rem1 := ra ++ r1 }).vars with
            fromQueue1 := (View.push print x { a with rem1 := ra ++ r1 }).vars.fromQueue1 + 1 } : Vars)
          = (View.push print x { a with rem1 := ra ++ r1, from1 := a.from1 + 1 }).vars := by
        unfold View.push; simp only; split_ifs <;> rfl
      have hor' : a.from1 + 1 + (ra.length : Int) = g ∨ r1 = [] := by
        rcases hor with h1 | h1
        · left; omega
        · right; exact h1
      rw [key, ih _ r1 fuel (by simp) (by simp; omega) (by simpa using hor') (by omega)]
      congr 2
      simp only [View.pushAll, View.push_from1, List.length_cons, Nat.cast_add, Nat.cast_one]
      rw [View.push_with_rem1]
      congr 2
      congr 1
      omega

theorem runRest2_view (g : Int) (print : Bool) (rb : List Line) :
    ∀ (a : View) (r2 : List Line) (fuel : Nat), a.rem2 = rb ++ r2 →
      a.from2 + rb.length ≤ g → (a.from2 + rb.length = g ∨ r2 = []) → rb.length ≤ fuel →
      runRest2 g print fuel a.vars =
        .ok (View.pushAll print rb { a with rem2 := r2, from2 := a.from2 + rb.length }).vars := by
  induction rb with
  | nil =>
    intro a r2 fuel h hle hor _
    have ha : ({ a with rem2 := r2, from2 := a.from2 + ([] : List Line).length } : View) = a := by
      obtain ⟨rem2, rem2, new1, new2, s1, s2, from2, from2, flag, out⟩ := a
      simp at h; subst h; simp
    rw [ha]; unfold runRest2
    have hc : (decide (a.vars.fromQueue2 < g) && !Fifo.isEmptyQ a.vars.q2 &&
        decide (a.vars.q2Left > 0)) = false := by
      rcases hor with h1 | h1
      · simp [View.vars] at h1 ⊢; intro h2; omega
      · subst h1; simp [View.vars, h]
    simp [hc, View.pushAll]; rfl
  | cons x rb ih =>
    intro a r2 fuel h hle hor hfuel
    cases fuel with
    | zero => simp at hfuel
    | succ fuel =>
      simp only [List.length_cons, Nat.cast_add, Nat.cast_one] at hle hor hfuel
      have h' : a.rem2 = x :: (rb ++ r2) := by simpa using h
      have hc : (decide (a.vars.fromQueue2 < g) && !Fifo.isEmptyQ a.vars.q2 &&
          decide (a.vars.q2Left > 0)) = true := by
        simp [View.vars, h', Fifo.isEmptyQ]; omega
      rw [runRest2]
      simp only [hc, if_true]
      have hh : headLine a.vars.q2 = .ok x := by simp [View.vars, h', headLine, Fifo.headQ]
      simp only [hh, moveFromQ2_view print a x (rb ++ r2) h', bind, Except.bind]
      have key : ({ (View.push print x { a with rem2 := rb ++ r2 }).vars with
            fromQueue2 := (View.push print x { a with rem2 := rb ++ r2 }).vars.fromQueue2 + 1 } : Vars)
          = (View.push print x { a with rem2 := rb ++ r2, from2 := a.from2 + 1 }).vars := by
        unfold View.push; simp only; split_ifs <;> rfl
      have hor' : a.from2 + 1 + (rb.length : Int) = g ∨ r2 = [] := by
        rcases hor with h1 | h1
        · left; omega
        · right; exact h1
      rw [key, ih _ r2 fuel (by simp) (by simp; omega) (by simpa using hor') (by omega)]
      congr 2
      simp only [View.pushAll, View.push_from2, List.length_cons, Nat.cast_add, Nat.cast_one]
      rw [View.push_with_rem2]
      congr 2
      congr 1
      omega

theorem groupStep_eq (pos len : Nat) (g : Int) (print : Bool) (v : Vars) :
    groupStep pos len g print v =
      (mergeLoop pos len g print (v.q1Left + v.q2Left).toNat
        { v with fromQueue1 := 0, fromQueue2 := 0 }) >>= groupTail g print := rfl

theorem View.push_setRem (p : Bool) (x : Line) (a : View) (r1 r2 : List Line) (f1 f2 : Int) :
    (a.setRem r1 r2 f1 f2).push p x = (a.push p x).setRem r1 r2 f1 f2 := by
  unfold View.push View.setRem; simp only; split_ifs <;> rfl

theorem View.pushAll_setRem (p : Bool) (xs : List Line) :
    ∀ (a : View) (r1 r2 : List Line) (f1 f2 : Int),
      View.pushAll p xs (a.setRem r1 r2 f1 f2) = (View.pushAll p xs a).setRem r1 r2 f1 f2 := by
  induction xs with
  | nil => intros; rfl
  | cons x xs ih => intro a r1 r2 f1 f2; simp only [View.pushAll, View.push_setRem, ih]

theorem View.pushAll_append (p : Bool) (xs ys : List Line) :
    ∀ a : View, View.pushAll p (xs ++ ys) a = View.pushAll p ys (View.pushAll p xs a) := by
  induction xs with
  | nil => intro a; rfl
  | cons x xs ih => intro a; exact ih (a.push p x)

@[simp] theorem View.pushAll_rem1 (p : Bool) (xs : List Line) :
    ∀ a : View, (View.pushAll p xs a).rem1 = a.rem1 := by
  induction xs with
  | nil => intro a; rfl
  | cons x xs ih => intro a; simp [View.pushAll, ih]

@[simp] theorem View.pushAll_rem2 (p : Bool) (xs : List Line) :
    ∀ a : View, (View.pushAll p xs a).rem2 = a.rem2 := by
  induction xs with
  | nil => intro a; rfl
  | cons x xs ih => intro a; simp [View.pushAll, ih]

@[simp] theorem View.pushAll_from1 (p : Bool) (xs : List Line) :
    ∀ a : View, (View.pushAll p xs a).from1 = a.from1 := by
  induction xs with
  | nil => intro a; rfl
  | cons x xs ih => intro a; simp [View.pushAll, ih]

@[simp] theorem View.pushAll_from2 (p : Bool) (xs : List Line) :
    ∀ a : View, (View.pushAll p xs a).from2 = a.from2 := by
  induction xs with
  | nil => intro a; rfl
  | cons x xs ih => intro a; simp [View.pushAll, ih]

@[simp] theorem View.pushAll_flag (p : Bool) (xs : List Line) :
    ∀ a : View, (View.pushAll p xs a).flag = a.flag := by
  induction xs with
  | nil => intro a; rfl
  | cons x xs ih => intro a; simp [View.pushAll, ih]

theorem View.vars_flip (a : View) :
    ({ a.vars with addQueue1 := if a.vars.addQueue1 then false else true } : Vars) = a.flip.vars := by
  obtain ⟨rem1, rem2, new1, new2, s1, s2, from1, from2, flag, out⟩ := a
  cases flag <;> rfl

theorem groupTail_view (g : Int) (print : Bool) (ra rb : List Line) (a : View)
    (r1 r2 : List Line) (h1 : a.rem1 = ra ++ r1) (h2 : a.rem2 = rb ++ r2)
    (hle1 : a.from1 + ra.length ≤ g) (hor1 : a.from1 + ra.length = g ∨ r1 = [])
    (hle2 : a.from2 + rb.length ≤ g) (hor2 : a.from2 + rb.length = g ∨ r2 = []) :
    groupTail g print a.vars =
      .ok (View.pushAll print (ra ++ rb)
        (a.setRem r1 r2 (a.from1 + ra.length) (a.from2 + rb.length))).flip.vars := by
  unfold groupTail
  have hf1 : ra.length ≤ a.vars.q1Left.toNat := by simp [View.vars, h1]; omega
  rw [runRest1_view g print ra a r1 _ h1 hle1 hor1 hf1]
  simp only [bind, Except.bind]
  set b := View.pushAll print ra { a with rem1 := r1, from1 := a.from1 + ra.length } with hb
  have hb2 : b.rem2 = rb ++ r2 := by simp [hb, h2]
  have hbf : b.from2 = a.from2 := by simp [hb]
  have hf2 : rb.length ≤ b.vars.q2Left.toNat := by simp [View.vars, hb2]; omega
  rw [runRest2_view g print rb b r2 _ hb2 (by rw [hbf]; exact hle2) (by rw [hbf]; exact hor2) hf2]
  have e1 : ({ a with rem1 := r1, from1 := a.from1 + ra.length } : View)
      = a.setRem r1 a.rem2 (a.from1 + ra.length) a.from2 := rfl
  have hV : View.pushAll print rb { b with rem2 := r2, from2 := b.from2 + rb.length }
      = View.pushAll print (ra ++ rb)
          (a.setRem r1 r2 (a.from1 + ra.length) (a.from2 + rb.length)) := by
    rw [View.pushAll_append, hb, e1, View.pushAll_setRem, View.pushAll_setRem]
    congr 1
  rw [hV]
  exact congrArg Except.ok (View.vars_flip _)

theorem mergeStep_view (pos len : Nat) (print : Bool) (a : View) (x y : Line)
    (r1 r2 : List Line) (h1 : a.rem1 = x :: r1) (h2 : a.rem2 = y :: r2)
    (hx : InB pos x) (hy : InB pos y) :
    mergeStep pos len print a.vars =
      .ok (if keyLe pos len x y = true
        then View.push print x (a.setRem r1 a.rem2 (a.from1 + 1) a.from2)
        else View.push print y (a.setRem a.rem1 r2 a.from1 (a.from2 + 1))).vars := by
  have hh1 : headLine a.vars.q1 = .ok x := by simp [View.vars, h1, headLine, Fifo.headQ]
  have hh2 : headLine a.vars.q2 = .ok y := by simp [View.vars, h2, headLine, Fifo.headQ]
  unfold mergeStep
  simp only [hh1, hh2, compareLines_of_inB len hx hy, bind, Except.bind]
  by_cases hle : keyCmp pos len x y ≤ 0
  · have hk : keyLe pos len x y = true := by simp [keyLe, hle]
    have hv : keyCmp pos len x y < 0 ∨ keyCmp pos len x y = 0 := by omega
    rw [if_pos hk]
    simp only [hv, if_true, moveFromQ1_view print a x r1 h1, pure, Except.pure]
    congr 1
    unfold View.push View.setRem; simp only; split_ifs <;> rfl
  · have hk : ¬ keyLe pos len x y = true := by simp [keyLe, hle]
    have hv : ¬ (keyCmp pos len x y < 0 ∨ keyCmp pos len x y = 0) := by omega
    have hv' : keyCmp pos len x y > 0 := by omega
    rw [if_neg hk]
    simp only [hv, hv', if_true, if_false, moveFromQ2_view print a y r2 h2, pure, Except.pure]
    congr 1
    unfold View.push View.setRem; simp only; split_ifs <;> rfl

theorem mergeLoop_view (pos len : Nat) (g : Int) (print : Bool) (ra : List Line) :
    ∀ (rb : List Line) (a : View) (r1 r2 : List Line) (fuel : Nat),
      a.rem1 = ra ++ r1 → a.rem2 = rb ++ r2 →
      a.from1 + ra.length ≤ g → (a.from1 + ra.length = g ∨ r1 = []) →
      a.from2 + rb.length ≤ g → (a.from2 + rb.length = g ∨ r2 = []) →
      (∀ l ∈ ra, InB pos l) → (∀ l ∈ rb, InB pos l) → ra.length + rb.length ≤ fuel →
      (mergeLoop pos len g print fuel a.vars >>= groupTail g print) =
        .ok (View.pushAll print (List.merge ra rb (keyLe pos len))
          (a.setRem r1 r2 (a.from1 + ra.length) (a.from2 + rb.length))).flip.vars := by
  induction ra with
  | nil =>
    intro rb a r1 r2 fuel h1 h2 hle1 hor1 hle2 hor2 _ _ _
    have hc : mergeCond g a.vars = false := by
      rcases hor1 with h | h
      · simp [mergeCond, View.vars] at h ⊢; intro _ _ h3; omega
      · subst h; simp [mergeCond, View.vars, h1]
    unfold mergeLoop
    simp only [hc, Bool.false_eq_true, if_false, pure, Except.pure, bind, Except.bind]
    rw [groupTail_view g print [] rb a r1 r2 h1 h2 hle1 hor1 hle2 hor2]
    simp
  | cons x ra iha =>
    intro rb
    induction rb with
    | nil =>
      intro a r1 r2 fuel h1 h2 hle1 hor1 hle2 hor2 _ _ _
      have hc : mergeCond g a.vars = false := by
        rcases hor2 with h | h
        · simp [mergeCond, View.vars] at h ⊢; intro _ _ _ h3; omega
        · subst h; simp [mergeCond, View.vars, h2]
      unfold mergeLoop
      simp only [hc, Bool.false_eq_true, if_false, pure, Except.pure, bind, Except.bind]
      rw [groupTail_view g print (x :: ra) [] a r1 r2 h1 h2 hle1 hor1 hle2 hor2]
      simp
    | cons y rb ihb =>
      intro a r1 r2 fuel h1 h2 hle1 hor1 hle2 hor2 hin1 hin2 hfuel
      simp only [List.length_cons, Nat.cast_add, Nat.cast_one] at hle1 hor1 hle2 hor2 hfuel
      have h1' : a.rem1 = x :: (ra ++ r1) := by simpa using h1
      have h2' : a.rem2 = y :: (rb ++ r2) := by simpa using h2
      have hc : mergeCond g a.vars = true := by
        simp [mergeCond, View.vars, h1', h2', Fifo.isEmptyQ]; omega
      cases fuel with
      | zero => omega
      | succ fuel =>
        rw [mergeLoop]
        simp only [hc, if_true]
        rw [mergeStep_view pos len print a x y (ra ++ r1) (rb ++ r2) h1' h2'
          (hin1 x (List.mem_cons_self _ _)) (hin2 y (List.mem_cons_self _ _))]
        simp only [bind, Except.bind]
        by_cases hk : keyLe pos len x y = true
        · simp only [hk, if_true]
          have := iha (y :: rb) (View.push print x (a.setRem (ra ++ r1) a.rem2 (a.from1 + 1) a.from2))
            r1 r2 fuel (by simp [View.setRem]) (by simp [View.setRem, h2])
            (by simp [View.setRem]; omega)
            (by rcases hor1 with h | h
                · left; simp [View.setRem]; omega
                · right; exact h)
            (by simp [View.setRem]; omega)
            (by rcases hor2 with h | h
                · left; simp [View.setRem]; omega
                · right; exact h)
            (fun l hl => hin1 l (List.mem_cons_of_mem _ hl)) hin2 (by simp only [List.length_cons]; omega)
          simp only [bind, Except.bind] at this
          rw [this, List.cons_merge_cons_pos _ _ _ hk]
          simp only [View.pushAll, View.push_setRem, View.push_from1, View.push_from2]
          congr 3
          simp only [View.setRem, List.length_cons, Nat.cast_add, Nat.cast_one]
          rw [show a.from1 + 1 + (ra.length : Int) = a.from1 + (ra.length + 1) by omega]
        · simp only [hk, Bool.false_eq_true, if_false]
          have := ihb (View.push print y (a.setRem a.rem1 (rb ++ r2) a.from1 (a.from2 + 1)))
            r1 r2 fuel (by simp [View.setRem, h1]) (by simp [View.setRem])
            (by simp [View.setRem]; omega)
            (by rcases hor1 with h | h
                · left; simp [View.setRem]; omega
                · right; exact h)
            (by simp [View.setRem]; omega)
            (by rcases hor2 with h | h
                · left; simp [View.setRem]; omega
                · right; exact h)
            hin1 (fun l hl => hin2 l (List.mem_cons_of_mem _ hl)) (by simp only [List.length_cons]; omega)
          simp only [bind, Except.bind] at this
          rw [this, List.cons_merge_cons_neg _ _ _ hk]
          simp only [View.pushAll, View.push_setRem, View.push_from1, View.push_from2]
          congr 3
          simp only [View.setRem, List.length_cons, Nat.cast_add, Nat.cast_one]
          rw [show a.from2 + 1 + (rb.length : Int) = a.from2 + (rb.length + 1) by omega]

theorem mergePass_eq (pos len : Nat) (g : Int) (print : Bool) (v : Vars) :
    mergePass pos len g print v =
      (groupLoop pos len g print (v.q1Size + v.q2Size).toNat
        { v with addQueue1 := true, q1Left := v.q1Size, q2Left := v.q2Size,
                 fromQueue1 := 0, fromQueue2 := 0 }) >>= passTail print := rfl

theorem groupStep_view (pos len : Nat) (g : Int) (print : Bool) (ra rb : List Line) (a : View)
    (r1 r2 : List Line) (h1 : a.rem1 = ra ++ r1) (h2 : a.rem2 = rb ++ r2)
    (hle1 : (ra.length : Int) ≤ g) (hor1 : (ra.length : Int) = g ∨ r1 = [])
    (hle2 : (rb.length : Int) ≤ g) (hor2 : (rb.length : Int) = g ∨ r2 = [])
    (hin1 : ∀ l ∈ ra, InB pos l) (hin2 : ∀ l ∈ rb, InB pos l) :
    groupStep pos len g print a.vars =
      .ok (View.pushAll print (List.merge ra rb (keyLe pos len))
        (a.setRem r1 r2 ra.length rb.length)).flip.vars := by
  rw [groupStep_eq]
  have e : ({ a.vars with fromQueue1 := 0, fromQueue2 := 0 } : Vars)
      = (a.setRem a.rem1 a.rem2 0 0).vars := rfl
  rw [e]
  have := mergeLoop_view pos len g print ra rb (a.setRem a.rem1 a.rem2 0 0) r1 r2
    (a.vars.q1Left + a.vars.q2Left).toNat h1 h2 (by simpa [View.setRem] using hle1)
    (by simpa [View.setRem] using hor1) (by simpa [View.setRem] using hle2)
    (by simpa [View.setRem] using hor2) hin1 hin2
    (by simp [View.vars, h1, h2]; omega)
  rw [this]
  simp [View.setRem]

theorem leftover1_view (print : Bool) (ra : List Line) :
    ∀ (a : View) (fuel : Nat), a.rem1 = ra → ra.length ≤ fuel →
      leftover1 print fuel a.vars =
        .ok (View.pushAll print ra (a.setRem [] a.rem2 a.from1 a.from2)).vars := by
  induction ra with
  | nil =>
    intro a fuel h _
    unfold leftover1
    have hc : ¬ a.vars.q1Left > 0 := by simp [View.vars, h]
    simp only [hc, if_false, View.pushAll]
    have : a.setRem [] a.rem2 a.from1 a.from2 = a := by
      obtain ⟨rem1, rem2, new1, new2, s1, s2, from1, from2, flag, out⟩ := a
      simp at h; subst h; rfl
    rw [this]; rfl
  | cons x ra ih =>
    intro a fuel h hfuel
    cases fuel with
    | zero => simp at hfuel
    | succ fuel =>
      have hc : a.vars.q1Left > 0 := by simp [View.vars, h]
      have hh : headLine a.vars.q1 = .ok x := by simp [View.vars, h, headLine, Fifo.headQ]
      rw [leftover1]
      simp only [hc, if_true, hh, moveFromQ1_view print a x ra h, bind, Except.bind]
      rw [ih _ fuel (by simp) (by simpa using hfuel)]
      congr 2
      simp only [View.pushAll, View.push_rem2, View.push_from1, View.push_from2]
      congr 1
      unfold View.push View.setRem; simp only; split_ifs <;> rfl

theorem leftover2_view (print : Bool) (rb : List Line) :
    ∀ (a : View) (fuel : Nat), a.rem2 = rb → rb.length ≤ fuel →
      leftover2 print fuel a.vars =
        .ok (View.pushAll print rb (a.setRem a.rem1 [] a.from1 a.from2)).vars := by
  induction rb with
  | nil =>
    intro a fuel h _
    unfold leftover2
    have hc : ¬ a.vars.q2Left > 0 := by simp [View.vars, h]
    simp only [hc, if_false, View.pushAll]
    have : a.setRem a.rem1 [] a.from1 a.from2 = a := by
      obtain ⟨rem1, rem2, new1, new2, s1, s2, from1, from2, flag, out⟩ := a
      simp at h; subst h; rfl
    rw [this]; rfl
  | cons x rb ih =>
    intro a fuel h hfuel
    cases fuel with
    | zero => simp at hfuel
    | succ fuel =>
      have hc : a.vars.q2Left > 0 := by simp [View.vars, h]
      have hh : headLine a.vars.q2 = .ok x := by simp [View.vars, h, headLine, Fifo.headQ]
      rw [leftover2]
      simp only [hc, if_true, hh, moveFromQ2_view print a x rb h, bind, Except.bind]
      rw [ih _ fuel (by simp) (by simpa using hfuel)]
      congr 2
      simp only [View.pushAll, View.push_rem1, View.push_from1, View.push_from2]
      congr 1
      unfold View.push View.setRem; simp only; split_ifs <;> rfl

theorem passTail_view (print : Bool) (a : View) :
    passTail print a.vars =
      .ok (View.pushAll print (a.rem1 ++ a.rem2) (a.setRem [] [] a.from1 a.from2)).vars := by
  unfold passTail
  rw [leftover1_view print a.rem1 a _ rfl (by simp [View.vars])]
  simp only [bind, Except.bind]
  rw [leftover2_view print a.rem2 _ _ (by simp [View.setRem]) (by simp [View.vars, View.setRem])]
  simp only [View.pushAll_append, View.pushAll_setRem]
  simp [View.setRem]

theorem RunShape.head {α : Type} {g : Nat} {r : List α} {rest : List (List α)}
    (h : RunShape g (r :: rest)) (hg : 0 < g) :
    0 < r.length ∧ r.length ≤ g ∧ (r.length = g ∨ rest = []) := by
  cases rest with
  | nil => exact ⟨h.1, h.2, Or.inr rfl⟩
  | cons r' rest => exact ⟨by rw [h.1]; exact hg, by rw [h.1], Or.inl h.1⟩

theorem RunShape.tail {α : Type} {g : Nat} {r : List α} {rest : List (List α)}
    (h : RunShape g (r :: rest)) : RunShape g rest := by
  cases rest with
  | nil => trivial
  | cons r' rest => exact h.2

@[simp] theorem View.flip_rem1 (a : View) : a.flip.rem1 = a.rem1 := rfl

@[simp] theorem View.flip_rem2 (a : View) : a.flip.rem2 = a.rem2 := rfl

theorem groupLoop_view (pos len : Nat) (g : Nat) (hg : 0 < g) (print : Bool) :
    ∀ (runs : List (List Line)) (a : View) (fuel : Nat), RunShape g runs →
      a.rem1 = evensJoin runs → a.rem2 = oddsJoin runs →
      (∀ r ∈ runs, ∀ l ∈ r, InB pos l) → a.rem1.length + a.rem2.length ≤ fuel →
      (groupLoop pos len g print fuel a.vars >>= passTail print) =
        .ok (View.afterRuns (keyLe pos len) print runs a).vars
  | [], a, fuel, _, h1, h2, _, _ => by
    have hc : ¬ (a.vars.q1Left > 0 ∧ a.vars.q2Left > 0) := by
      simp [View.vars, h1, evensJoin]
    unfold groupLoop
    simp only [hc, if_false, pure, Except.pure, bind, Except.bind]
    rw [passTail_view, h1, h2]
    simp only [evensJoin, oddsJoin, List.append_nil, View.pushAll, View.afterRuns]
    congr 2
    obtain ⟨rem1, rem2, new1, new2, s1, s2, from1, from2, flag, out⟩ := a
    simp [evensJoin, oddsJoin] at h1 h2
    subst h1 h2
    rfl
  | [r], a, fuel, _, h1, h2, _, _ => by
    have hc : ¬ (a.vars.q1Left > 0 ∧ a.vars.q2Left > 0) := by
      simp [View.vars, h2, oddsJoin]
    unfold groupLoop
    simp only [hc, if_false, pure, Except.pure, bind, Except.bind]
    rw [passTail_view, h1, h2]
    simp only [evensJoin, oddsJoin, List.append_nil, View.afterRuns]
  | r :: r' :: rest, a, fuel, hs, h1, h2, hin, hfuel => by
    have hr := hs.1
    have hr' := (RunShape.tail hs).head hg
    simp only [evensJoin, oddsJoin] at h1 h2
    have hc : a.vars.q1Left > 0 ∧ a.vars.q2Left > 0 := by
      simp [View.vars, h1, h2]; omega
    rw [h1, h2] at hfuel
    simp only [List.length_append] at hfuel
    cases fuel with
    | zero => omega
    | succ fuel =>
      rw [groupLoop]
      simp only [hc, and_self, if_true]
      rw [groupStep_view pos len g print r r' a (evensJoin rest) (oddsJoin rest) h1 h2
        (by omega) (Or.inl (by omega)) (by omega)
        (by rcases hr'.2.2 with h | h
            · left; omega
            · right; subst h; rfl)
        (hin r (List.mem_cons_self _ _))
        (hin r' (List.mem_cons_of_mem _ (List.mem_cons_self _ _)))]
      simp only [bind, Except.bind]
      have := groupLoop_view pos len g hg print rest
        (View.pushAll print (List.merge r r' (keyLe pos len))
          (a.setRem (evensJoin rest) (oddsJoin rest) r.length r'.length)).flip fuel
        (RunShape.tail (RunShape.tail hs)) (by simp [View.setRem]) (by simp [View.setRem])
        (fun s hs' => hin s (List.mem_cons_of_mem _ (List.mem_cons_of_mem _ hs')))
        (by simp [View.setRem]; omega)
      simp only [bind, Except.bind] at this
      rw [this]
      rfl

theorem View.pushAll_print (xs : List Line) :
    ∀ a : View, (View.pushAll true xs a).out = a.out ++ xs ∧
      (View.pushAll true xs a).new1 = a.new1 ∧ (View.pushAll true xs a).new2 = a.new2 := by
  induction xs with
  | nil => intro a; simp [View.pushAll]
  | cons x xs ih =>
    intro a
    obtain ⟨h1, h2, h3⟩ := ih (a.push true x)
    simp only [View.pushAll, h1, h2, h3]
    unfold View.push; simp only [if_true]; split_ifs <;> simp

theorem View.pushAll_queue (xs : List Line) :
    ∀ a : View, (View.pushAll false xs a).out = a.out ∧
      (View.pushAll false xs a).new1 = a.new1 ++ (if a.flag then xs else []) ∧
      (View.pushAll false xs a).new2 = a.new2 ++ (if a.flag then [] else xs) := by
  induction xs with
  | nil => intro a; simp [View.pushAll]
  | cons x xs ih =>
    intro a
    obtain ⟨h1, h2, h3⟩ := ih (a.push false x)
    simp only [View.pushAll, h1, h2, h3, View.push_flag]
    unfold View.push; simp only [Bool.false_eq_true, if_false]; split_ifs <;> simp

theorem View.pushAll_sizes (p : Bool) (xs : List Line) :
    ∀ a : View,
      (View.pushAll p xs a).s1 = a.s1 + (if a.flag then (xs.length : Int) else 0) ∧
      (View.pushAll p xs a).s2 = a.s2 + (if a.flag then 0 else (xs.length : Int)) := by
  induction xs with
  | nil => intro a; simp [View.pushAll]
  | cons x xs ih =>
    intro a
    obtain ⟨h1, h2⟩ := ih (a.push p x)
    simp only [View.pushAll, h1, h2, View.push_flag]
    unfold View.push; split_ifs <;> simp <;> omega

theorem oddsJoin_cons {α : Type} (x : List α) : ∀ xs : List (List α),
    oddsJoin (x :: xs) = evensJoin xs
  | [] => rfl
  | [z] => by simp [oddsJoin, evensJoin]
  | z :: w :: r => by
    simp only [oddsJoin, evensJoin]
    rw [oddsJoin_cons w r]

theorem evensJoin_cons {α : Type} (x : List α) (xs : List (List α)) :
    evensJoin (x :: xs) = x ++ oddsJoin xs := by
  cases xs with
  | nil => simp [evensJoin, oddsJoin]
  | cons y r => simp only [evensJoin, oddsJoin_cons]

@[simp] theorem View.flip_flag (a : View) : a.flip.flag = !a.flag := rfl

theorem View.afterRuns_queue (le : Line → Line → Bool) :
    ∀ (runs : List (List Line)) (a : View),
      (View.afterRuns le false runs a).out = a.out ∧
      (View.afterRuns le false runs a).new1 =
        a.new1 ++ (if a.flag then evensJoin (mergePairs le runs) else oddsJoin (mergePairs le runs)) ∧
      (View.afterRuns le false runs a).new2 =
        a.new2 ++ (if a.flag then oddsJoin (mergePairs le runs) else evensJoin (mergePairs le runs))
  | [], a => by simp [View.afterRuns, mergePairs, evensJoin, oddsJoin]
  | [r], a => by
    obtain ⟨h1, h2, h3⟩ := View.pushAll_queue r (a.setRem [] [] a.from1 a.from2)
    simp only [View.afterRuns, mergePairs, evensJoin, oddsJoin, h1, h2, h3]
    simp [View.setRem]
  | r :: r' :: rest, a => by
    obtain ⟨h1, h2, h3⟩ := View.afterRuns_queue le rest
      (View.pushAll false (List.merge r r' le)
        (a.setRem (evensJoin rest) (oddsJoin rest) r.length r'.length)).flip
    obtain ⟨k1, k2, k3⟩ := View.pushAll_queue (List.merge r r' le)
      (a.setRem (evensJoin rest) (oddsJoin rest) r.length r'.length)
    simp only [View.afterRuns, mergePairs, h1, h2, h3, evensJoin_cons, oddsJoin_cons]
    simp only [View.flip, k1, k2, k3, View.pushAll_flag]
    cases hf : a.flag <;> simp [View.setRem, hf]

theorem View.afterRuns_print (le : Line → Line → Bool) :
    ∀ (runs : List (List Line)) (a : View),
      (View.afterRuns le true runs a).out = a.out ++ (mergePairs le runs).flatten ∧
      (View.afterRuns le true runs a).new1 = a.new1 ∧
      (View.afterRuns le true runs a).new2 = a.new2
  | [], a => by simp [View.afterRuns, mergePairs]
  | [r], a => by
    obtain ⟨h1, h2, h3⟩ := View.pushAll_print r (a.setRem [] [] a.from1 a.from2)
    simp only [View.afterRuns, mergePairs, h1, h2, h3]
    simp [View.setRem]
  | r :: r' :: rest, a => by
    obtain ⟨h1, h2, h3⟩ := View.afterRuns_print le rest
      (View.pushAll true (List.merge r r' le)
        (a.setRem (evensJoin rest) (oddsJoin rest) r.length r'.length)).flip
    obtain ⟨k1, k2, k3⟩ := View.pushAll_print (List.merge r r' le)
      (a.setRem (evensJoin rest) (oddsJoin rest) r.length r'.length)
    simp only [View.afterRuns, mergePairs, h1, h2, h3]
    simp only [View.flip, k1, k2, k3]
    simp [View.setRem]

theorem View.afterRuns_sizes (le : Line → Line → Bool) (p : Bool) :
    ∀ (runs : List (List Line)) (a : View),
      (View.afterRuns le p runs a).s1 = a.s1 +
        ((if a.flag then evensJoin (mergePairs le runs)
          else oddsJoin (mergePairs le runs)).length : Int) ∧
      (View.afterRuns le p runs a).s2 = a.s2 +
        ((if a.flag then oddsJoin (mergePairs le runs)
          else evensJoin (mergePairs le runs)).length : Int)
  | [], a => by simp [View.afterRuns, mergePairs, evensJoin, oddsJoin]
  | [r], a => by
    obtain ⟨h1, h2⟩ := View.pushAll_sizes p r (a.setRem [] [] a.from1 a.from2)
    simp only [View.afterRuns, mergePairs, evensJoin, oddsJoin, h1, h2]
    cases hf : a.flag <;> simp [View.setRem, hf]
  | r :: r' :: rest, a => by
    obtain ⟨h1, h2⟩ := View.afterRuns_sizes le p rest
      (View.pushAll p (List.merge r r' le)
        (a.setRem (evensJoin rest) (oddsJoin rest) r.length r'.length)).flip
    obtain ⟨k1, k2⟩ := View.pushAll_sizes p (List.merge r r' le)
      (a.setRem (evensJoin rest) (oddsJoin rest) r.length r'.length)
    simp only [View.afterRuns, mergePairs, h1, h2, evensJoin_cons, oddsJoin_cons]
    simp only [View.flip, k1, k2, View.pushAll_flag]
    cases hf : a.flag <;> simp [View.setRem, hf] <;> omega

theorem View.afterRuns_rem (le : Line → Line → Bool) (p : Bool) :
    ∀ (runs : List (List Line)) (a : View), a.rem1 = evensJoin runs → a.rem2 = oddsJoin runs →
      (View.afterRuns le p runs a).rem1 = [] ∧ (View.afterRuns le p runs a).rem2 = []
  | [], a, h1, h2 => by simpa [View.afterRuns, evensJoin, oddsJoin] using And.intro h1 h2
  | [r], a, _, _ => by simp [View.afterRuns, View.setRem]
  | r :: r' :: rest, a, _, _ => by
    simp only [View.afterRuns]
    exact View.afterRuns_rem le p rest _ (by simp [View.setRem]) (by simp [View.setRem])

/-- A merge pass over queues that hold the runs `runs`: what it leaves in the
queues, in the counters and on standard output. -/
theorem mergePass_runs (pos len : Nat) (g : Nat) (hg : 0 < g) (print : Bool)
    (runs : List (List Line)) (v : Vars) (hs : RunShape g runs)
    (hq1 : v.q1 = evensJoin runs) (hq2 : v.q2 = oddsJoin runs)
    (hs1 : v.q1Size = v.q1.length) (hs2 : v.q2Size = v.q2.length)
    (hin : ∀ r ∈ runs, ∀ l ∈ r, InB pos l) :
    ∃ v', mergePass pos len g print v = .ok v' ∧
      (print = false →
        v'.q1 = evensJoin (mergePairs (keyLe pos len) runs) ∧
        v'.q2 = oddsJoin (mergePairs (keyLe pos len) runs) ∧
        v'.q1Size = v'.q1.length ∧ v'.q2Size = v'.q2.length ∧ v'.out = v.out) ∧
      (print = true →
        v'.out = v.out ++ (mergePairs (keyLe pos len) runs).flatten ∧ v'.q1 = [] ∧ v'.q2 = []) := by
  let a : View := ⟨v.q1, v.q2, [], [], 0, 0, 0, 0, true, v.out⟩
  have e : ({ v with addQueue1 := true, q1Left := v.q1Size, q2Left := v.q2Size,
                     fromQueue1 := 0, fromQueue2 := 0 } : Vars) = a.vars := by
    obtain ⟨q1, q2, q1Size, q2Size, q1Left, q2Left, f1, f2, flag, out⟩ := v
    simp only at hs1 hs2
    simp [a, View.vars, hs1, hs2]
  have hrun := groupLoop_view pos len g hg print runs a (v.q1Size + v.q2Size).toNat hs hq1 hq2 hin
    (by simp only [a, hs1, hs2]; omega)
  rw [← e] at hrun
  refine ⟨_, by rw [mergePass_eq]; exact hrun, ?_, ?_⟩
  · intro hp
    subst hp
    obtain ⟨h1, h2, h3⟩ := View.afterRuns_queue (keyLe pos len) runs a
    obtain ⟨k1, k2⟩ := View.afterRuns_sizes (keyLe pos len) false runs a
    obtain ⟨r1, r2⟩ := View.afterRuns_rem (keyLe pos len) false runs a hq1 hq2
    simp only [View.vars, h1, h2, h3, k1, k2, r1, r2]
    simp [a]
  · intro hp
    subst hp
    obtain ⟨h1, h2, h3⟩ := View.afterRuns_print (keyLe pos len) runs a
    obtain ⟨r1, r2⟩ := View.afterRuns_rem (keyLe pos len) true runs a hq1 hq2
    simp only [View.vars, h1, h2, h3, r1, r2]
    simp [a]

/-! ## Runs across the passes -/

theorem joinPairs_flatten {α : Type} : ∀ bs : List (List α), (joinPairs bs).flatten = bs.flatten
  | [] => rfl
  | [b] => rfl
  | b :: b' :: rest => by simp [joinPairs, joinPairs_flatten rest]

theorem runShape_mergePairs {α : Type} (le : α → α → Bool) {g : Nat} (hg : 0 < g) :
    ∀ runs : List (List α), RunShape g runs → RunShape (2 * g) (mergePairs le runs)
  | [], _ => trivial
  | [r], h => ⟨h.1, by have := h.2; omega⟩
  | [r, r'], h => by
    have h' := (RunShape.tail h).head hg
    have := h.1
    simp only [Merge16.mergePairs, RunShape, List.length_merge]
    omega
  | r :: r' :: r'' :: rest, h => by
    have h1 := h.1
    have h2 := h.2.1
    have ih := runShape_mergePairs le hg (r'' :: rest) h.2.2
    cases hm : Merge16.mergePairs le (r'' :: rest) with
    | nil => cases rest <;> simp [Merge16.mergePairs] at hm
    | cons m ms =>
      rw [hm] at ih
      simp only [Merge16.mergePairs, hm, RunShape, List.length_merge]
      exact ⟨by omega, ih⟩

theorem forall₂_mergePairs {α : Type} {le : α → α → Bool}
    (trans : ∀ a b c, le a b = true → le b c = true → le a c = true)
    (total : ∀ a b, (le a b || le b a) = true) :
    ∀ (blocks runs : List (List α)), List.Forall₂ (StableSortOf le) blocks runs →
      List.Forall₂ (StableSortOf le) (joinPairs blocks) (mergePairs le runs)
  | [], _, h => by cases h; exact List.Forall₂.nil
  | [b], _, h => by
    cases h with
    | cons h1 h2 => cases h2; exact List.Forall₂.cons h1 List.Forall₂.nil
  | b :: b' :: rest, _, h => by
    cases h with
    | cons h1 h2 =>
      cases h2 with
      | cons h2 h3 =>
        exact List.Forall₂.cons (StableSortOf.merge trans total h1 h2)
          (forall₂_mergePairs trans total rest _ h3)

theorem runsOf_mergePairs {α : Type} {le : α → α → Bool}
    (trans : ∀ a b c, le a b = true → le b c = true → le a c = true)
    (total : ∀ a b, (le a b || le b a) = true)
    {g : Nat} (hg : 0 < g) {l : List α} {runs : List (List α)} (h : RunsOf le g l runs) :
    RunsOf le (2 * g) l (Merge16.mergePairs le runs) := by
  obtain ⟨blocks, hb, hs, hf⟩ := h
  exact ⟨joinPairs blocks, by rw [joinPairs_flatten, hb], runShape_mergePairs le hg runs hs,
    forall₂_mergePairs trans total blocks runs hf⟩

theorem forall₂_flatten_perm {α : Type} {le : α → α → Bool} :
    ∀ (blocks runs : List (List α)), List.Forall₂ (StableSortOf le) blocks runs →
      runs.flatten.Perm blocks.flatten
  | _, _, List.Forall₂.nil => List.Perm.refl _
  | _, _, List.Forall₂.cons h1 h2 => by
    simp only [List.flatten_cons]
    exact h1.1.append (forall₂_flatten_perm _ _ h2)

theorem RunsOf.perm {α : Type} {le : α → α → Bool} {g : Nat} {l : List α}
    {runs : List (List α)} (h : RunsOf le g l runs) : runs.flatten.Perm l := by
  obtain ⟨blocks, hb, _, hf⟩ := h
  rw [← hb]
  exact forall₂_flatten_perm blocks runs hf

theorem RunsOf.mem {α : Type} {le : α → α → Bool} {g : Nat} {l : List α}
    {runs : List (List α)} (h : RunsOf le g l runs) {r : List α} (hr : r ∈ runs) {x : α}
    (hx : x ∈ r) : x ∈ l :=
  h.perm.subset (List.mem_flatten.2 ⟨r, hr, hx⟩)

theorem RunShape.singleton {α : Type} {g : Nat} (hg : 0 < g) :
    ∀ runs : List (List α), RunShape g runs → runs.flatten.length ≤ g →
      runs = [] ∨ ∃ r, runs = [r]
  | [], _, _ => Or.inl rfl
  | [r], _, _ => Or.inr ⟨r, rfl⟩
  | r :: r' :: rest, h, hl => by
    have h' := (RunShape.tail h).head hg
    have := h.1
    simp only [List.flatten_cons, List.length_append] at hl
    omega

theorem RunsOf.single {α : Type} {le : α → α → Bool} {g : Nat} {l : List α} {r : List α}
    (h : RunsOf le g l [r]) : StableSortOf le l r := by
  obtain ⟨blocks, hb, _, hf⟩ := h
  cases hf with
  | cons h1 h2 =>
    cases h2
    simp only [List.flatten_cons, List.flatten_nil, List.append_nil] at hb
    rw [← hb]; exact h1

theorem RunsOf.shape {α : Type} {le : α → α → Bool} {g : Nat} {l : List α}
    {runs : List (List α)} (h : RunsOf le g l runs) : RunShape g runs := by
  obtain ⟨_, _, hs, _⟩ := h
  exact hs

/-- The merge passes on queues that hold the sorted runs of `g` lines of `l`:
they end, and what they write is the stable sort of `l`. -/
theorem passLoop_runs (pos len : Nat) (l : List Line) (hin : ∀ x ∈ l, InB pos x) :
    ∀ (fuel g : Nat) (runs : List (List Line)) (v : Vars), 0 < g →
      RunsOf (keyLe pos len) g l runs →
      v.q1 = evensJoin runs → v.q2 = oddsJoin runs →
      v.q1Size = v.q1.length → v.q2Size = v.q2.length → v.out = [] →
      l.length ≤ g + fuel → g < l.length →
      ∃ v', passLoop pos len l.length fuel g false v = .ok v' ∧
        StableSortOf (keyLe pos len) l v'.out := by
  intro fuel
  induction fuel with
  | zero => intro g runs v _ _ _ _ _ _ _ h1 h2; omega
  | succ fuel ih =>
    intro g runs v hg hr hq1 hq2 hs1 hs2 hout hfuel hlt
    have hc : (g : Int) < (l.length : Int) := by exact_mod_cast hlt
    have hin' : ∀ r ∈ runs, ∀ x ∈ r, InB pos x := fun r hr' x hx => hin x (hr.mem hr' hx)
    have hr2 := runsOf_mergePairs (keyLe_trans pos len) (keyLe_total pos len) hg hr
    rw [passLoop]
    simp only [hc, if_true]
    by_cases hp : (2 : Int) * g ≥ l.length
    · simp only [hp, if_true]
      obtain ⟨v', hv', _, hpr⟩ := mergePass_runs pos len g hg true runs v hr.shape
        hq1 hq2 hs1 hs2 hin'
      obtain ⟨ho, _, _⟩ := hpr rfl
      simp only [hv', bind, Except.bind]
      have hc2 : ¬ ((g : Int) * 2 < (l.length : Int)) := by omega
      refine ⟨v', by unfold passLoop; simp only [hc2, if_false]; rfl, ?_⟩
      rw [ho, hout, List.nil_append]
      have hlen : (mergePairs (keyLe pos len) runs).flatten.length ≤ 2 * g := by
        rw [hr2.perm.length_eq]; omega
      have hsh := hr2.shape
      rcases RunShape.singleton (by omega) _ hsh hlen with h0 | ⟨r, h1⟩
      · have := hr2.perm.length_eq
        rw [h0] at this
        simp at this
        omega
      · rw [h1] at hr2 ⊢
        simpa using hr2.single
    · have hp' : ¬ ((2 : Int) * g ≥ l.length) := hp
      simp only [hp', if_false]
      obtain ⟨v', hv', hq, _⟩ := mergePass_runs pos len g hg false runs v hr.shape
        hq1 hq2 hs1 hs2 hin'
      obtain ⟨k1, k2, k3, k4, k5⟩ := hq rfl
      simp only [hv', bind, Except.bind]
      have := ih (2 * g) _ v' (by omega) hr2 k1 k2 k3 k4 (by rw [k5, hout]) (by omega) (by omega)
      have e : ((2 * g : Nat) : Int) = (g : Int) * 2 := by push_cast; omega
      rw [e] at this
      exact this

/-! ## The distribution pass -/

theorem pairLoop_eq (pos len : Nat) :
    ∀ (xs : List Line) (d : Dist) (fuel : Nat), xs.length ≤ 2 * fuel + 1 →
      pairLoop pos len fuel (getLine xs).1 (getLine (getLine xs).2).1
          (getLine (getLine xs).2).2 d =
        (pairsOf pos len xs d) >>= fun r => pure (r.1, none, r.2)
  | [], d, fuel, _ => by
    cases fuel <;> simp [getLine, pairLoop, pairsOf]
  | [a], d, fuel, _ => by
    cases fuel <;> simp [getLine, pairLoop, pairsOf]
  | a :: b :: rest, d, fuel, h => by
    cases fuel with
    | zero => simp at h
    | succ fuel =>
      simp only [getLine, pairLoop, pairsOf, bind_assoc]
      congr 1
      funext d'
      exact pairLoop_eq pos len rest d' fuel (by simp at h; omega)

theorem pairsOf_append (pos len : Nat) (ys : List Line) :
    ∀ (xs : List Line) (d : Dist),
      pairsOf pos len (xs ++ ys) d =
        (pairsOf pos len xs d) >>= fun r => pairsOf pos len (r.1.toList ++ ys) r.2
  | [], d => by simp [pairsOf]
  | [a], d => by simp [pairsOf]
  | a :: b :: rest, d => by
    simp only [List.cons_append, pairsOf, bind_assoc]
    congr 1
    funext d'
    exact pairsOf_append pos len ys rest d'

theorem fileLoop_eq (pos len : Nat) :
    ∀ (files : List (List Line)) (line : Option Line) (cont : Bool) (d : Dist),
      (cont = true → files ≠ [] ∧ line ≠ none) →
      fileLoop pos len files line cont d =
        distList pos len ((if cont then line.toList else []) ++ files.flatten) d
  | [], line, cont, d, h => by
    have hc : cont = false := by
      cases cont with
      | false => rfl
      | true => exact absurd rfl (h rfl).1
    subst hc
    simp [fileLoop, distList, pairsOf, finishDist]
  | file :: files, line, cont, d, h => by
    have key : ∀ (o : Option Line) (d' : Dist),
        (match o, (none : Option Line) with
          | some l, none =>
            if files = [] then fileLoop pos len files o false (addLast d' l)
            else fileLoop pos len files o true d'
          | _, _ => fileLoop pos len files o false d') =
        distList pos len (o.toList ++ files.flatten) d' := by
      intro o d'
      cases o with
      | none =>
        simp only
        rw [fileLoop_eq pos len files none false d' (by simp)]
        simp
      | some l =>
        simp only
        by_cases hf : files = []
        · subst hf
          simp [fileLoop, distList, pairsOf, finishDist]
        · simp only [hf, if_false]
          rw [fileLoop_eq pos len files (some l) true d' (by simp [hf])]
          simp
    have hx : ∃ xs : List Line, xs = (if cont then line.toList else []) ++ file ∧
        (if !cont then getLine file else (line, file)) = getLine xs := by
      refine ⟨_, rfl, ?_⟩
      cases cont with
      | false => simp
      | true =>
        obtain ⟨_, hl⟩ := h rfl
        cases line with
        | none => exact absurd rfl hl
        | some l => simp [getLine]
    obtain ⟨xs, hxs, hget⟩ := hx
    have hlen : xs.length ≤ 2 * ((getLine (getLine xs).2).2.length + 1) + 1 := by
      rcases xs with _ | ⟨a, _ | ⟨b, rest⟩⟩ <;> simp [getLine]
    rw [fileLoop]
    simp only [hget]
    rw [pairLoop_eq pos len xs d _ hlen]
    simp only [List.flatten_cons, ← List.append_assoc, ← hxs]
    rw [distList, pairsOf_append, bind_assoc, bind_assoc]
    congr 1
    funext r
    obtain ⟨o, d'⟩ := r
    simp only [pure_bind]
    rw [key o d']
    rfl

theorem pairStep_of_inB (pos len : Nat) (a b : Line) (d : Dist)
    (ha : InB pos (trim a)) (hb : InB pos (trim b)) :
    pairStep pos len a b d =
      .ok { (if keyLe pos len (trim a) (trim b) = true then addPair d (trim a) (trim b)
             else addPair d (trim b) (trim a)) with
            totalLines := d.totalLines + 2, addQueue1 := !d.addQueue1 } := by
  unfold pairStep
  simp only [compareLines_of_inB len ha hb, bind, Except.bind, pure, Except.pure]
  by_cases hle : keyCmp pos len (trim a) (trim b) ≤ 0
  · have hk : keyLe pos len (trim a) (trim b) = true := by simp [keyLe, hle]
    have hv : keyCmp pos len (trim a) (trim b) < 0 ∨ keyCmp pos len (trim a) (trim b) = 0 := by
      omega
    simp only [hv, hk, if_true]
    unfold addPair; split_ifs <;> rfl
  · have hk : ¬ keyLe pos len (trim a) (trim b) = true := by simp [keyLe, hle]
    have hv : ¬ (keyCmp pos len (trim a) (trim b) < 0 ∨ keyCmp pos len (trim a) (trim b) = 0) := by
      omega
    have hv' : keyCmp pos len (trim a) (trim b) > 0 := by omega
    rw [if_neg hk]
    simp only [hv, hv', if_true, if_false]
    unfold addPair; split_ifs <;> rfl

/-- The distribution pass on a sequence of lines that the key offset stays
inside: it ends, the sorted pairs go to the two queues in turn, and the
counters count them. -/
theorem distList_runs (pos len : Nat) :
    ∀ (xs : List Line) (d : Dist), (∀ x ∈ xs, InB pos (trim x)) →
      ∃ d', distList pos len xs d = .ok d' ∧
        d'.q1 = d.q1 ++ (if d.addQueue1 then evensJoin (pairRuns (keyLe pos len) (xs.map trim))
                         else oddsJoin (pairRuns (keyLe pos len) (xs.map trim))) ∧
        d'.q2 = d.q2 ++ (if d.addQueue1 then oddsJoin (pairRuns (keyLe pos len) (xs.map trim))
                         else evensJoin (pairRuns (keyLe pos len) (xs.map trim))) ∧
        d'.q1Size = d.q1Size + (d'.q1.length - d.q1.length : Int) ∧
        d'.q2Size = d.q2Size + (d'.q2.length - d.q2.length : Int) ∧
        d'.totalLines = d.totalLines + xs.length
  | [], d, _ => by
    refine ⟨d, rfl, ?_⟩
    simp [pairRuns, evensJoin, oddsJoin]
  | [a], d, _ => by
    refine ⟨addLast d a, rfl, ?_⟩
    unfold addLast
    cases hf : d.addQueue1 <;> simp [pairRuns, evensJoin, oddsJoin, Fifo.addQ, hf]
  | a :: b :: rest, d, h => by
    have ha := h a (by simp)
    have hb := h b (by simp)
    obtain ⟨d', hd', h1, h2, h3, h4, h5⟩ := distList_runs pos len rest
      { (if keyLe pos len (trim a) (trim b) = true then addPair d (trim a) (trim b)
         else addPair d (trim b) (trim a)) with
        totalLines := d.totalLines + 2, addQueue1 := !d.addQueue1 }
      (fun x hx => h x (by simp [hx]))
    refine ⟨d', ?_, ?_⟩
    · simp only [distList, pairsOf, pairStep_of_inB pos len a b d ha hb, bind_assoc] at hd' ⊢
      exact hd'
    · simp only [List.map_cons, pairRuns, evensJoin_cons, oddsJoin_cons]
      rw [h1, h2, h3, h4, h5]
      simp only [h1, h2]
      by_cases hk : keyLe pos len (trim a) (trim b) = true <;>
        cases hf : d.addQueue1 <;>
        simp [hk, hf, addPair, Fifo.addQ] <;> omega

theorem pairBlocks_flatten {α : Type} : ∀ l : List α, (pairBlocks l).flatten = l
  | [] => rfl
  | [a] => rfl
  | a :: b :: rest => by simp [pairBlocks, pairBlocks_flatten rest]

theorem runShape_pairRuns {α : Type} (le : α → α → Bool) : ∀ l : List α, RunShape 2 (pairRuns le l)
  | [] => trivial
  | [a] => by simp [pairRuns, RunShape]
  | [a, b] => by simp only [pairRuns, RunShape]; split_ifs <;> simp
  | a :: b :: c :: rest => by
    have ih := runShape_pairRuns le (c :: rest)
    cases hm : pairRuns le (c :: rest) with
    | nil => cases rest <;> simp [pairRuns] at hm
    | cons m ms =>
      rw [hm] at ih
      simp only [pairRuns, hm, RunShape]
      exact ⟨by split_ifs <;> rfl, ih⟩

theorem StableSortOf.refl {α : Type} (le : α → α → Bool) (a : α) : StableSortOf le [a] [a] :=
  ⟨List.Perm.refl _, List.pairwise_singleton _ _, fun _ => rfl⟩

theorem forall₂_pairRuns {α : Type} {le : α → α → Bool}
    (trans : ∀ a b c, le a b = true → le b c = true → le a c = true)
    (total : ∀ a b, (le a b || le b a) = true) :
    ∀ l : List α, List.Forall₂ (StableSortOf le) (pairBlocks l) (pairRuns le l)
  | [] => List.Forall₂.nil
  | [a] => List.Forall₂.cons (StableSortOf.refl le a) List.Forall₂.nil
  | a :: b :: rest => by
    refine List.Forall₂.cons ?_ (forall₂_pairRuns trans total rest)
    have h := StableSortOf.merge trans total (StableSortOf.refl le a) (StableSortOf.refl le b)
    by_cases hab : le a b = true
    · rw [List.cons_merge_cons_pos _ _ _ hab] at h
      simpa [hab] using h
    · rw [List.cons_merge_cons_neg _ _ _ hab] at h
      simpa [hab] using h

theorem runsOf_pairRuns {α : Type} {le : α → α → Bool}
    (trans : ∀ a b c, le a b = true → le b c = true → le a c = true)
    (total : ∀ a b, (le a b || le b a) = true) (l : List α) :
    RunsOf le 2 l (pairRuns le l) :=
  ⟨pairBlocks l, pairBlocks_flatten l, runShape_pairRuns le l, forall₂_pairRuns trans total l⟩

theorem smallDrain_eq : ∀ (q : Fifo) (line : Line) (out : List Line),
    smallDrain q.length q line out = .ok (out ++ q)
  | [], line, out => by simp [smallDrain, Fifo.isEmptyQ]; rfl
  | x :: q, line, out => by
    simp only [List.length_cons, smallDrain, Fifo.isEmptyQ, Fifo.removeQ]
    simp only [List.isEmpty_cons, Bool.not_false, if_true]
    rw [smallDrain_eq q x (out ++ [x])]
    simp

theorem distribute_eq (files : List (List Line)) (pos len : Nat) :
    distribute files pos len = distList pos len files.flatten {} := by
  unfold distribute
  rw [fileLoop_eq pos len files none false {} (by simp)]
  simp

/-- When the key offset stays inside every line, `main` ends and writes the
stable sort of the lines it read. -/
theorem main_sorts (files : List (List Line)) (pos len : Nat)
    (h : ∀ x ∈ files.flatten, InB pos (trim x)) :
    ∃ out, main files pos len = .ok out ∧
      StableSortOf (keyLe pos len) (files.flatten.map trim) out := by
  obtain ⟨d, hd, h1, h2, h3, h4, h5⟩ := distList_runs pos len files.flatten {} h
  have hr := runsOf_pairRuns (keyLe_trans pos len) (keyLe_total pos len) (files.flatten.map trim)
  set l := files.flatten.map trim with hl
  set runs := pairRuns (keyLe pos len) l with hruns
  dsimp only at h1 h2 h3 h4 h5
  simp only [List.nil_append, if_true] at h1 h2
  have hlen : (l.length : Int) = d.totalLines := by rw [h5, hl, List.length_map]; omega
  have hs1 : d.q1Size = d.q1.length := by rw [h3]; simp
  have hs2 : d.q2Size = d.q2.length := by rw [h4]; simp
  have hin : ∀ x ∈ l, InB pos x := by
    intro x hx
    obtain ⟨y, hy, rfl⟩ := List.mem_map.1 hx
    exact h y hy
  unfold main
  rw [distribute_eq, hd]
  simp only [bind, Except.bind, mergeAll]
  by_cases hsmall : d.totalLines = 1 ∨ d.totalLines = 2
  · simp only [hsmall, if_true]
    have hle : runs.flatten.length ≤ 2 := by
      rw [hr.perm.length_eq]; omega
    rcases RunShape.singleton (by omega) runs hr.shape hle with h0 | ⟨r, hr1⟩
    · have := hr.perm.length_eq
      rw [h0] at this
      simp at this
      omega
    · rw [hr1] at hr
      rw [hr1] at h1
      simp only [evensJoin] at h1
      rw [h1, smallDrain_eq]
      exact ⟨_, rfl, by simpa using hr.single⟩
  · simp only [hsmall, if_false]
    by_cases h0 : l.length = 0
    · have hl0 : l = [] := List.length_eq_zero.1 h0
      have ht : d.totalLines = 0 := by rw [← hlen, h0]; rfl
      rw [ht]
      refine ⟨[], ?_, ?_⟩
      · unfold passLoop
        simp [Dist.vars, pure, Except.pure]
      · rw [hl0]; exact ⟨List.Perm.refl _, List.Pairwise.nil, fun _ => rfl⟩
    · have h3' : 2 < l.length := by omega
      obtain ⟨v', hv', hsort⟩ := passLoop_runs pos len l hin l.length 2 runs d.vars (by omega) hr
        (by simp [Dist.vars, h1]) (by simp [Dist.vars, h2]) (by simp [Dist.vars, hs1])
        (by simp [Dist.vars, hs2]) rfl (by omega) h3'
      rw [← hlen]
      simp only [Int.toNat_ofNat]
      have e : ((2 : Nat) : Int) = 2 := rfl
      rw [e] at hv'
      rw [hv']
      exact ⟨_, rfl, hsort⟩

/-! ## `compareLines` and the key of the specification -/

theorem strncmp_sign_lex : ∀ (s t : List Nat) (n : Nat), 0 ∉ s → 0 ∉ t →
    signOf (strncmp s t n) = lexCompare (s.take n) (t.take n)
  | [], [], n, _, _ => by simp [strncmp, lexCompare, signOf]
  | [], c :: t, n, _, ht => by
    have hc : c ≠ 0 := fun h => ht (by simp [h])
    cases n with
    | zero => simp [strncmp, lexCompare, signOf]
    | succ n =>
      simp only [strncmp, List.take_nil, List.take_succ_cons, lexCompare, signOf]
      have : (0 : Int) - (c : Int) < 0 := by omega
      simp [this, hc]
  | c :: s, [], n, hs, _ => by
    have hc : c ≠ 0 := fun h => hs (by simp [h])
    cases n with
    | zero => simp [strncmp, lexCompare, signOf]
    | succ n =>
      simp only [strncmp, List.take_nil, List.take_succ_cons, lexCompare, signOf]
      have h1 : ¬ ((c : Int) < 0) := by omega
      have h2 : ¬ ((c : Int) = 0) := by omega
      simp [h1, h2]
  | c :: s, d :: t, n, hs, ht => by
    have hc : c ≠ 0 := fun h => hs (by simp [h])
    cases n with
    | zero => simp [strncmp, lexCompare, signOf]
    | succ n =>
      simp only [strncmp, List.take_succ_cons, lexCompare, Nat.add_sub_cancel]
      by_cases hcd : c = d
      · subst hcd
        simp only [if_true, hc, if_false, Nat.lt_irrefl, Nat.succ_ne_zero]
        exact strncmp_sign_lex s t n (fun h => hs (List.mem_cons_of_mem _ h))
          (fun h => ht (List.mem_cons_of_mem _ h))
      · simp only [hcd, if_false, Nat.succ_ne_zero, signOf]
        by_cases hlt : c < d
        · have : (c : Int) - (d : Int) < 0 := by omega
          simp [hlt, this]
        · have hgt : d < c := by omega
          have h1 : ¬ ((c : Int) - (d : Int) < 0) := by omega
          have h2 : ¬ ((c : Int) - (d : Int) = 0) := by omega
          simp [hlt, hgt, h1, h2]

/-- Inside the lines `compareLines` has the sign of the lexicographic
comparison of the keys of the specification. -/
theorem compareLines_sign_key (a b : Line) (pos len : Nat) (ha : InB pos a) (hb : InB pos b)
    (ha0 : 0 ∉ a) (hb0 : 0 ∉ b) :
    ∃ v, compareLines a b pos len = .ok v ∧
      signOf v = lexCompare (specKey a pos len) (specKey b pos len) := by
  refine ⟨_, compareLines_of_inB len ha hb, ?_⟩
  exact strncmp_sign_lex _ _ _ (fun h => ha0 (List.mem_of_mem_drop h))
    (fun h => hb0 (List.mem_of_mem_drop h))

/-! ## What `main` writes -/

theorem inOrder_of_inB {pos len : Nat} {x y : Line} (hx : InB pos x) (hy : InB pos y) :
    inOrder pos len x y = keyLe pos len x y := by
  simp [inOrder, keyLe, compareLines_of_inB len hx hy]

theorem sameKey_of_inB {pos len : Nat} {x y : Line} (hx : InB pos x) (hy : InB pos y) :
    sameKey pos len x y = decide (keyCmp pos len x y = 0) := by
  simp [sameKey, compareLines_of_inB len hx hy]

theorem eqv_keyLe (pos len : Nat) (x y : Line) :
    eqv (keyLe pos len) x y = decide (keyCmp pos len x y = 0) := by
  have h := strncmp_swap (x.drop pos) (y.drop pos) len
  simp only [eqv, keyLe, keyCmp]
  rw [Bool.eq_iff_iff]
  simp only [Bool.and_eq_true, decide_eq_true_eq]
  omega

/-- Inside the lines, the output of `main` is a permutation of the trimmed input. -/
theorem main_perm_of_inB (files : List (List Line)) (pos len : Nat)
    (h : ∀ x ∈ files.flatten, InB pos (trim x)) :
    ∃ out, main files pos len = .ok out ∧ out.Perm (files.flatten.map trim) := by
  obtain ⟨out, h1, h2⟩ := main_sorts files pos len h
  exact ⟨out, h1, h2.1⟩

/-- Inside the lines, the output of `main` is in non-decreasing key order. -/
theorem main_sorted_of_inB (files : List (List Line)) (pos len : Nat)
    (h : ∀ x ∈ files.flatten, InB pos (trim x)) :
    ∃ out, main files pos len = .ok out ∧
      out.Chain' (fun x y => inOrder pos len x y = true) := by
  obtain ⟨out, h1, h2⟩ := main_sorts files pos len h
  refine ⟨out, h1, ?_⟩
  have hin : ∀ x ∈ out, InB pos x := by
    intro x hx
    obtain ⟨y, hy, rfl⟩ := List.mem_map.1 (h2.1.subset hx)
    exact h y hy
  have hp : out.Pairwise (fun x y => inOrder pos len x y = true) := by
    refine List.Pairwise.imp_of_mem ?_ h2.2.1
    intro x y hx hy hxy
    rw [inOrder_of_inB (hin x hx) (hin y hy)]
    exact hxy
  exact List.Pairwise.chain' hp

/-- Inside the lines, `main` is stable: lines with equal keys leave in the
order in which they came. -/
theorem main_stable_of_inB (files : List (List Line)) (pos len : Nat)
    (h : ∀ x ∈ files.flatten, InB pos (trim x)) :
    ∃ out, main files pos len = .ok out ∧
      (∀ x, out.filter (fun y => decide (keyCmp pos len x y = 0)) =
        (files.flatten.map trim).filter (fun y => decide (keyCmp pos len x y = 0))) ∧
      (∀ x y, [x, y].Sublist (files.flatten.map trim) → sameKey pos len x y = true →
        [x, y].Sublist out) := by
  obtain ⟨out, h1, h2⟩ := main_sorts files pos len h
  have hf : ∀ x, out.filter (fun y => decide (keyCmp pos len x y = 0)) =
      (files.flatten.map trim).filter (fun y => decide (keyCmp pos len x y = 0)) := by
    intro x
    have := h2.2.2 x
    have e : eqv (keyLe pos len) x = fun y => decide (keyCmp pos len x y = 0) :=
      funext (eqv_keyLe pos len x)
    rw [e] at this
    exact this
  refine ⟨out, h1, hf, ?_⟩
  intro x y hs hk
  have hx : InB pos x := by
    have hm : x ∈ files.flatten.map trim := hs.subset (List.mem_cons_self _ _)
    obtain ⟨z, hz, rfl⟩ := List.mem_map.1 hm
    exact h z hz
  have hy : InB pos y := by
    have hm : y ∈ files.flatten.map trim :=
      hs.subset (List.mem_cons_of_mem _ (List.mem_cons_self _ _))
    obtain ⟨z, hz, rfl⟩ := List.mem_map.1 hm
    exact h z hz
  rw [sameKey_of_inB hx hy] at hk
  have hxx : decide (keyCmp pos len x x = 0) = true := by
    simp [keyCmp, strncmp_self]
  have h3 := hs.filter (fun y => decide (keyCmp pos len x y = 0))
  rw [← hf x] at h3
  have e : [x, y].filter (fun y => decide (keyCmp pos len x y = 0)) = [x, y] := by
    simp only [List.filter_cons, hxx, hk, if_true, List.filter_nil]
  rw [e] at h3
  exact h3.trans (List.filter_sublist _)

/-! ## The claims about `main` and `compareLines` -/

/-- C1 (the output is a permutation of the trimmed input, for every `pos`):
fails when `pos` lies beyond the end of a line.  For the lines `ab`, `cd` and
`pos = 2000000000` the first comparison reads `line + pos` outside both
lines, and `main` writes nothing. -/
theorem main_faults_beyond_line_end :
    main [[[97, 98, 10], [99, 100, 10]]] 2000000000 2147483647 = .error .outOfBounds := by
  decide!

/-- C2 (the output is in key order, for every `pos`): fails when `pos` lies
beyond the end of a line.  For the lines `b`, `a`, `c` and `pos = 1000` the
comparison of `b` and `a` leaves both lines, and no sorted output is written. -/
theorem main_faults_three_lines :
    main [[[98, 10], [97, 10], [99, 10]]] 1000 2147483647 = .error .outOfBounds ∧
      inOrder 1000 2147483647 [98] [97] = false := by
  decide!

/-- C3 (stability, for every `pos`): fails when `pos` lies beyond the end of a
line.  For the sources `apple` and `ant` and the key `-100000,1` both keys are
empty by the header comment, so `apple`, `ant` is the stable output; `main`
leaves both lines in the comparison and writes nothing. -/
theorem main_faults_two_sources :
    main [[[97, 112, 112, 108, 101, 10]], [[97, 110, 116, 10]]] 100000 1 =
        .error .outOfBounds ∧
      specKey [97, 112, 112, 108, 101] 100000 1 = [] ∧ specKey [97, 110, 116] 100000 1 = [] := by
  decide!

/-- C5: several sources are read as one stream: the output, and the queues
and counters after the distribution pass, are those of the single source that
holds the lines of all sources in order. -/
theorem sources_as_one_stream (files : List (List Line)) (pos len : Nat) :
    main files pos len = main [files.flatten] pos len ∧
      distribute files pos len = distribute [files.flatten] pos len := by
  have h : distribute files pos len = distribute [files.flatten] pos len := by
    rw [distribute_eq, distribute_eq]; simp
  exact ⟨by unfold main; rw [h], h⟩

/-- C6 (the key is empty when `pos` is at or beyond the length of the line):
fails when `pos` lies beyond the end of a non-empty line.  For `ab`, `cd`,
`pos = 1000`, `len = 3` both keys of the specification are empty and compare
equal; `compareLines` offsets both lines past their end. -/
theorem compareLines_faults_beyond_line_end :
    compareLines [97, 98] [99, 100] 1000 3 = .error .outOfBounds ∧
      lexCompare (specKey [97, 98] 1000 3) (specKey [99, 100] 1000 3) = .eq := by
  decide

/-- C10: with no line in any source the distribution pass leaves both queues
empty and all three counters zero, the loop of the merge passes does not run
its body, and nothing is written. -/
theorem no_lines_no_output (files : List (List Line)) (pos len : Nat)
    (h : files.flatten = []) :
    distribute files pos len =
        .ok { q1 := [], q2 := [], totalLines := 0, q1Size := 0, q2Size := 0, addQueue1 := true } ∧
      (∀ (fuel : Nat) (v : Vars), passLoop pos len 0 fuel 2 false v = .ok v) ∧
      main files pos len = .ok [] := by
  have hd : distribute files pos len = .ok {} := by
    rw [distribute_eq, h]; rfl
  refine ⟨hd, ?_, ?_⟩
  · intro fuel v
    unfold passLoop
    simp; rfl
  · unfold main
    rw [hd]
    rfl

/-- C10 at three empty sources. -/
theorem no_lines_no_output_witness :
    distribute [[], [], []] 4 2 =
        .ok { q1 := [], q2 := [], totalLines := 0, q1Size := 0, q2Size := 0, addQueue1 := true } ∧
      (∀ (fuel : Nat) (v : Vars), passLoop 4 2 0 fuel 2 false v = .ok v) ∧
      main [[], [], []] 4 2 = .ok [] :=
  no_lines_no_output [[], [], []] 4 2 (by decide)

theorem Heap.read_lt {h : Heap} {a : Nat} {n : Node} (hr : h.read a = some n) : a < h.length := by
  unfold Heap.read at hr
  by_contra hlt
  rw [List.getElem?_eq_none (by omega)] at hr
  simp at hr

theorem Heap.read_write_same {h : Heap} {a : Nat} (n : Node) (ha : a < h.length) :
    (h.write a n).read a = some n := by
  simp [Heap.read, Heap.write, ha]

theorem Heap.read_write_ne {h : Heap} {a b : Nat} (n : Node) (hab : a ≠ b) :
    (h.write a n).read b = h.read b := by
  simp [Heap.read, Heap.write, hab]

theorem Heap.read_release_ne {h : Heap} {a b : Nat} (hab : a ≠ b) :
    (h.release a).read b = h.read b := by
  simp [Heap.read, Heap.release, hab]

theorem Heap.read_append {h : Heap} {b : Nat} (x : Option Node) (hb : b < h.length) :
    (h ++ [x]).read b = h.read b := by
  simp [Heap.read, List.getElem?_append_left hb]

theorem Heap.length_write (h : Heap) (a : Nat) (n : Node) : (h.write a n).length = h.length := by
  simp [Heap.write]

theorem Heap.length_release (h : Heap) (a : Nat) : (h.release a).length = h.length := by
  simp [Heap.release]

theorem firstAddr_append (xs ys : List (Nat × Line)) (e : Nat) :
    firstAddr (xs ++ ys) e = firstAddr xs (firstAddr ys e) := by
  cases xs <;> rfl

theorem Chain.append {h : Heap} : ∀ (xs ys : List (Nat × Line)) (e : Nat),
    Chain h (xs ++ ys) e ↔ Chain h xs (firstAddr ys e) ∧ Chain h ys e
  | [], ys, e => by simp [Chain]
  | c :: xs, ys, e => by
    show (h.read c.1 = some ⟨c.2, firstAddr (xs ++ ys) e⟩ ∧ Chain h (xs ++ ys) e) ↔ _
    rw [firstAddr_append, Chain.append xs ys e]
    simp only [Chain, and_assoc]

theorem Chain.lt {h : Heap} : ∀ (cells : List (Nat × Line)) (e : Nat), Chain h cells e →
    ∀ a ∈ cells.map Prod.fst, a < h.length
  | [], _, _ => by simp
  | c :: rest, e, hc => by
    intro a ha
    simp only [List.map_cons, List.mem_cons] at ha
    rcases ha with rfl | ha
    · exact Heap.read_lt hc.1
    · exact Chain.lt rest e hc.2 a ha

theorem Chain.frame {h h' : Heap} : ∀ (cells : List (Nat × Line)) (e : Nat),
    (∀ a ∈ cells.map Prod.fst, h'.read a = h.read a) → Chain h cells e → Chain h' cells e
  | [], _, _, _ => trivial
  | c :: rest, e, hf, hc =>
    ⟨by rw [hf c.1 (by simp)]; exact hc.1,
     Chain.frame rest e (fun a ha => hf a (by simp only [List.map_cons]; exact List.mem_cons_of_mem _ ha)) hc.2⟩

theorem Rep.nil_iff {h : Heap} {q : Queue} (hr : Rep h q []) : q = none := by
  cases q with
  | none => rfl
  | some last =>
    obtain ⟨cells, hv, _, hl, _⟩ := hr
    have : cells = [] := by simpa using hv
    subst this
    simp at hl

theorem Rep.of_none {h : Heap} {vs : List Line} (hr : Rep h none vs) : vs = [] := hr

/-- `addQ` succeeds on a well-formed queue and appends the value at the tail. -/
theorem addQ_rep {h : Heap} {q : Queue} {vs : List Line} (hr : Rep h q vs) (s : Line) :
    ∃ h' nxt, addQ h q s = some (true, h', some nxt) ∧ Rep h' (some nxt) (vs ++ [s]) ∧
      h.length ≤ h'.length := by
  cases q with
  | none =>
    have hv : vs = [] := hr
    subst hv
    refine ⟨(h ++ [some (Node.mk [] 0)]).write h.length ⟨s, h.length⟩, h.length, ?_, ?_, ?_⟩
    · simp [addQ, malloc, isEmptyQ]
    · refine ⟨[(h.length, s)], rfl, by simp, rfl, ?_, trivial⟩
      exact Heap.read_write_same _ (by simp)
    · simp [Heap.write]
  | some last =>
    obtain ⟨cells, hv, hnd, hl, hc⟩ := hr
    obtain ⟨c, hc1, hc2⟩ := Option.map_eq_some'.1 hl
    obtain ⟨init, rfl⟩ := List.getLast?_eq_some_iff.1 hc1
    obtain ⟨la, vl⟩ := c
    simp only at hc2
    subst hc2
    set e0 := firstAddr (init ++ [(la, vl)]) 0 with he0
    have hlt := Chain.lt _ _ hc
    obtain ⟨hci, hcl, _⟩ := (Chain.append init [(la, vl)] e0).1 hc
    simp only [firstAddr] at hcl hci
    have hla : la < h.length := Heap.read_lt hcl
    set h1 : Heap := h ++ [some (Node.mk [] 0)] with hh1
    set h2 : Heap := h1.write h.length ⟨s, e0⟩ with hh2
    set h3 : Heap := h2.write la ⟨vl, h.length⟩ with hh3
    have hne : h.length ≠ la := by omega
    have hr1 : h1.read la = some ⟨vl, e0⟩ := by rw [hh1, Heap.read_append _ hla]; exact hcl
    refine ⟨h3, h.length, ?_, ?_, ?_⟩
    · simp only [addQ, malloc, isEmptyQ]
      simp [← hh1, hr1, bind, Option.bind, ← hh2, ← hh3]
    · have hnd' : (init.map Prod.fst).Nodup ∧ la ∉ init.map Prod.fst := by
        rw [List.map_append, List.nodup_append] at hnd
        refine ⟨hnd.1, fun hm => ?_⟩
        exact hnd.2.2 hm (by simp)
      refine ⟨init ++ [(la, vl), (h.length, s)], ?_, ?_, ?_, ?_⟩
      · rw [← hv]; simp
      · rw [List.map_append, List.nodup_append]
        refine ⟨hnd'.1, ?_, ?_⟩
        · simp [hne.symm]
        · intro a ha hb
          simp only [List.map_cons, List.map_nil, List.mem_cons, List.mem_singleton,
            List.not_mem_nil, or_false] at hb
          rcases hb with h1 | h1
          · exact hnd'.2 (h1 ▸ ha)
          · have := hlt a (by rw [List.map_append]; exact List.mem_append_left _ ha)
            omega
      · simp
      · have he : firstAddr (init ++ [(la, vl), (h.length, s)]) 0 = e0 := by
          rw [he0]; cases init <;> rfl
        rw [he]
        refine (Chain.append init _ e0).2 ⟨?_, ?_, ?_, trivial⟩
        · refine Chain.frame init _ ?_ hci
          intro a ha
          have halt : a < h.length :=
            hlt a (by rw [List.map_append]; exact List.mem_append_left _ ha)
          have hane : a ≠ la := fun hx => hnd'.2 (hx ▸ ha)
          rw [hh3, Heap.read_write_ne _ (Ne.symm hane), hh2,
            Heap.read_write_ne _ (by omega), hh1, Heap.read_append _ halt]
        · show h3.read la = some ⟨vl, h.length⟩
          rw [hh3]
          exact Heap.read_write_same _ (by simp [hh2, hh1, Heap.write]; omega)
        · show h3.read h.length = some ⟨s, e0⟩
          rw [hh3, Heap.read_write_ne _ (Ne.symm hne), hh2]
          exact Heap.read_write_same _ (by simp [hh1])
    · simp [hh3, hh2, hh1, Heap.write]

/-- The shape of a well-formed queue that holds at least one value. -/
theorem Rep.cons_cells {h : Heap} {q : Queue} {v : Line} {vs : List Line}
    (hr : Rep h q (v :: vs)) :
    ∃ (last a0 : Nat) (rest : List (Nat × Line)) (vl : Line),
      q = some last ∧ rest.map Prod.snd = vs ∧ (a0 :: rest.map Prod.fst).Nodup ∧
      (((a0, v) :: rest).getLast?).map Prod.fst = some last ∧
      h.read a0 = some ⟨v, firstAddr rest a0⟩ ∧ Chain h rest a0 ∧
      h.read last = some ⟨vl, a0⟩ ∧ (rest = [] → vl = v) ∧
      (∀ init c, rest = init ++ [c] → c = (last, vl)) := by
  cases q with
  | none => exact absurd hr (by simp [Rep])
  | some last =>
    obtain ⟨cells, hv, hnd, hl, hc⟩ := hr
    cases cells with
    | nil => simp at hv
    | cons c0 rest =>
      obtain ⟨a0, v0⟩ := c0
      simp only [List.map_cons, List.cons.injEq] at hv
      obtain ⟨rfl, hvs⟩ := hv
      simp only [firstAddr] at hc
      obtain ⟨c, hc1, hc2⟩ := Option.map_eq_some'.1 hl
      obtain ⟨init, hinit⟩ := List.getLast?_eq_some_iff.1 hc1
      obtain ⟨la, vl⟩ := c
      simp only at hc2
      subst hc2
      have hlast : h.read la = some ⟨vl, a0⟩ := by
        have hc' := hc
        rw [show ((a0, v0) :: rest) = init ++ [(la, vl)] from hinit] at hc'
        exact ((Chain.append init [(la, vl)] a0).1 hc').2.1
      refine ⟨la, a0, rest, vl, rfl, hvs, hnd, hl, hc.1, hc.2, hlast, ?_, ?_⟩
      · intro hrest
        subst hrest
        cases init with
        | nil => simp at hinit; exact hinit.2.symm
        | cons x xs =>
          have := congrArg List.length hinit
          simp at this
      · intro init' c hrest
        rw [hrest] at hinit
        have h1 : ((a0, v0) :: init') ++ [c] = init ++ [(la, vl)] := by simpa using hinit
        exact (List.append_inj' h1 rfl).2 |> List.singleton_inj.1

/-- `headQ` on a well-formed non-empty queue delivers the oldest value. -/
theorem headQ_rep {h : Heap} {q : Queue} {v : Line} {vs : List Line}
    (hr : Rep h q (v :: vs)) (s : Line) : headQ h q s = some (true, v) := by
  obtain ⟨last, a0, rest, vl, rfl, _, _, _, h0, _, hl, _, _⟩ := hr.cons_cells
  simp [headQ, isEmptyQ, bind, Option.bind, hl, h0]

/-- `removeQ` on a well-formed non-empty queue delivers the oldest value and
leaves the queue of the values that follow it. -/
theorem removeQ_rep {h : Heap} {q : Queue} {v : Line} {vs : List Line}
    (hr : Rep h q (v :: vs)) (s : Line) :
    ∃ h' q', removeQ h q s = some (true, h', q', v) ∧ Rep h' q' vs ∧ h'.length = h.length := by
  have hhead := headQ_rep hr s
  obtain ⟨last, a0, rest, vl, rfl, hvs, hnd, hgl, h0, hc, hl, hvl, hlastc⟩ := hr.cons_cells
  have hnd' := List.nodup_cons.1 hnd
  by_cases heq : a0 = last
  · subst heq
    have hrest : rest = [] := by
      cases rest with
      | nil => rfl
      | cons c1 rest' =>
        exfalso
        rw [List.getLast?_cons_cons] at hgl
        obtain ⟨c, hc1, hc2⟩ := Option.map_eq_some'.1 hgl
        have hm : c ∈ c1 :: rest' := List.mem_of_getLast?_eq_some hc1
        exact hnd'.1 (hc2 ▸ List.mem_map_of_mem Prod.fst hm)
    subst hrest
    refine ⟨h.release a0, none, ?_, ?_, Heap.length_release _ _⟩
    · simp [removeQ, isEmptyQ, hhead, bind, Option.bind, hl]
    · simpa [Rep] using hvs.symm
  · obtain ⟨init, c, hrc⟩ : ∃ init c, rest = init ++ [c] := by
      rcases List.eq_nil_or_concat rest with h1 | ⟨init, c, h1⟩
      · subst h1
        simp at hgl
        exact absurd hgl heq
      · exact ⟨init, c, by simpa using h1⟩
    have hcl := hlastc init c hrc
    subst hcl
    have hla : last < h.length := Heap.read_lt hl
    have hfirst : ∀ e, firstAddr rest e = firstAddr rest 0 := by
      intro e; rw [hrc]; cases init <;> rfl
    refine ⟨(h.write last ⟨vl, firstAddr rest a0⟩).release a0, some last, ?_, ?_, ?_⟩
    · simp [removeQ, isEmptyQ, hhead, bind, Option.bind, hl, heq, h0]
    · refine ⟨rest, hvs, hnd'.2, ?_, ?_⟩
      · rw [hrc]; simp
      · rw [← hfirst a0]
        have hc' := hc
        rw [hrc] at hc' hnd' ⊢
        obtain ⟨hci, _, _⟩ := (Chain.append init [(last, vl)] a0).1 hc'
        rw [List.map_append, List.nodup_append] at hnd'
        refine (Chain.append init [(last, vl)] _).2 ⟨?_, ?_, trivial⟩
        · refine Chain.frame init _ ?_ hci
          intro a ha
          have hane : a ≠ last := fun hx => hnd'.2.2.2 ha (by simp [hx])
          have hane0 : a ≠ a0 := fun hx =>
            hnd'.1 (List.mem_append_left _ (hx ▸ ha))
          rw [Heap.read_release_ne (Ne.symm hane0), Heap.read_write_ne _ (Ne.symm hane)]
        · show Heap.read _ last = _
          rw [Heap.read_release_ne heq]
          exact Heap.read_write_same _ hla
    · simp [Heap.release, Heap.write]

theorem Rep.length_le {h : Heap} {q : Queue} {vs : List Line} (hr : Rep h q vs) :
    vs.length ≤ h.length := by
  cases q with
  | none =>
    have : vs = [] := hr
    subst this
    exact Nat.zero_le _
  | some last =>
    obtain ⟨cells, hv, hnd, _, hc⟩ := hr
    have hlt := Chain.lt _ _ hc
    have hsub : (cells.map Prod.fst).toFinset ⊆ Finset.range h.length := by
      intro a ha
      exact Finset.mem_range.2 (hlt a (List.mem_toFinset.1 ha))
    have hcard := Finset.card_le_card hsub
    rw [List.toFinset_card_of_nodup hnd, Finset.card_range] at hcard
    rw [← hv]
    simpa using hcard

theorem destroyLoop_rep : ∀ (vs : List Line) (h : Heap) (q : Queue) (fuel : Nat),
    Rep h q vs → vs.length ≤ fuel → ∃ h', destroyLoop fuel h q = some (h', none)
  | [], h, q, fuel, hr, _ => by
    have hq := hr.nil_iff
    subst hq
    exact ⟨h, by unfold destroyLoop; simp [isEmptyQ]⟩
  | v :: vs, h, q, fuel, hr, hf => by
    obtain ⟨h', q', hrm, hr', _⟩ := removeQ_rep hr [120]
    have hq : isEmptyQ q = false := by
      cases q with
      | none => exact absurd hr (by simp [Rep])
      | some _ => simp [isEmptyQ]
    cases fuel with
    | zero => simp at hf
    | succ fuel =>
      obtain ⟨h'', hd⟩ := destroyLoop_rep vs h' q' fuel hr' (by simpa using hf)
      exact ⟨h'', by rw [destroyLoop]; simp [hq, hrm, hd]⟩

/-- `destroyQ` on a well-formed queue returns true and leaves the empty queue. -/
theorem destroyQ_rep {h : Heap} {q : Queue} {vs : List Line} (hr : Rep h q vs) :
    ∃ h', destroyQ h q = some (true, h', none) := by
  obtain ⟨h', hd⟩ := destroyLoop_rep vs h q h.length hr hr.length_le
  exact ⟨h', by simp [destroyQ, hd]⟩

/-- Queue.c implements the sequences against which Merge16.c is verified: on a
well-formed queue that holds `vs`, each function of Queue.c does what the
function of the same name does to the sequence `vs`. -/
theorem queue_refines_fifo {h : Heap} {q : Queue} {vs : List Line} (hr : Rep h q vs)
    (s v : Line) :
    isEmptyQ q = Fifo.isEmptyQ vs ∧
    (∃ h' q', addQ h q v = some (true, h', q') ∧ Rep h' q' (Fifo.addQ vs v)) ∧
    (∀ x, Fifo.headQ vs = some x → headQ h q s = some (true, x)) ∧
    (Fifo.headQ vs = none → headQ h q s = some (false, s)) ∧
    (∀ x vs', Fifo.removeQ vs = some (x, vs') →
      ∃ h' q', removeQ h q s = some (true, h', q', x) ∧ Rep h' q' vs') ∧
    (Fifo.removeQ vs = none → removeQ h q s = some (false, h, q, s)) := by
  obtain ⟨h1, nxt, ha, hr1, _⟩ := addQ_rep hr v
  cases vs with
  | nil =>
    have hq := hr.nil_iff
    subst hq
    refine ⟨rfl, ⟨h1, some nxt, ha, hr1⟩, ?_, ?_, ?_, ?_⟩
    · intro x hx; simp [Fifo.headQ] at hx
    · intro _; simp [headQ, isEmptyQ]
    · intro x vs' hx; simp [Fifo.removeQ] at hx
    · intro _; simp [removeQ, isEmptyQ]
  | cons a vs =>
    have hq : isEmptyQ q = false := by
      cases q with
      | none => exact absurd hr (by simp [Rep])
      | some _ => simp [isEmptyQ]
    refine ⟨by simp [hq, Fifo.isEmptyQ], ⟨h1, some nxt, ha, hr1⟩, ?_, ?_, ?_, ?_⟩
    · intro x hx
      simp only [Fifo.headQ, List.head?_cons, Option.some.injEq] at hx
      subst hx
      exact headQ_rep hr s
    · intro hx; simp [Fifo.headQ] at hx
    · intro x vs' hx
      simp only [Fifo.removeQ, Option.some.injEq, Prod.mk.injEq] at hx
      obtain ⟨rfl, rfl⟩ := hx
      obtain ⟨h', q', hrm, hr', _⟩ := removeQ_rep hr s
      exact ⟨h', q', hrm, hr'⟩
    · intro hx; simp [Fifo.removeQ] at hx

/-- A run of calls on a well-formed queue never leaves the allocated nodes,
leaves a well-formed queue, and what it holds at the end after what it
delivered is what it held at the start before what was added. -/
theorem runOps_rep : ∀ (ops : List Op) (h : Heap) (q : Queue) (vs : List Line) (s : Line),
    Rep h q vs →
    ∃ h' q' rets vs', runOps ops h q s = some (h', q', rets) ∧ Rep h' q' vs' ∧
      vs ++ addedValues ops = removedValues rets ++ vs'
  | [], h, q, vs, s, hr => ⟨h, q, [], vs, rfl, hr, by simp [addedValues, removedValues]⟩
  | Op.add v :: ops, h, q, vs, s, hr => by
    obtain ⟨h1, nxt, ha, hr1, _⟩ := addQ_rep hr v
    obtain ⟨h', q', rets, vs', hrun, hr', he⟩ := runOps_rep ops h1 (some nxt) (vs ++ [v]) s hr1
    refine ⟨h', q', Ret.add true :: rets, vs', by simp [runOps, ha, hrun], hr', ?_⟩
    simpa [addedValues, removedValues] using he
  | Op.remove :: ops, h, q, vs, s, hr => by
    cases vs with
    | nil =>
      have hq := hr.nil_iff
      subst hq
      obtain ⟨h', q', rets, vs', hrun, hr', he⟩ := runOps_rep ops h none [] s hr
      refine ⟨h', q', Ret.remove false s :: rets, vs', ?_, hr', ?_⟩
      · simp [runOps, removeQ, isEmptyQ, hrun]
      · simpa [addedValues, removedValues] using he
    | cons v vs =>
      obtain ⟨h1, q1, hrm, hr1, _⟩ := removeQ_rep hr s
      obtain ⟨h', q', rets, vs', hrun, hr', he⟩ := runOps_rep ops h1 q1 vs v hr1
      refine ⟨h', q', Ret.remove true v :: rets, vs', by simp [runOps, hrm, hrun], hr', ?_⟩
      simpa [addedValues, removedValues] using he

/-- Removing as many values as a well-formed queue holds delivers them in
order and leaves the empty queue. -/
theorem drain_rep : ∀ (vs : List Line) (h : Heap) (q : Queue) (s : Line), Rep h q vs →
    ∃ h' rets, runOps (List.replicate vs.length Op.remove) h q s = some (h', none, rets) ∧
      removedValues rets = vs
  | [], h, q, s, hr => by
    have hq := hr.nil_iff
    subst hq
    exact ⟨h, [], rfl, rfl⟩
  | v :: vs, h, q, s, hr => by
    obtain ⟨h1, q1, hrm, hr1, _⟩ := removeQ_rep hr s
    obtain ⟨h', rets, hrun, hv⟩ := drain_rep vs h1 q1 v hr1
    refine ⟨h', Ret.remove true v :: rets, ?_, ?_⟩
    · simp [List.replicate, runOps, hrm, hrun]
    · simp [removedValues, hv]

/-- C8: the queue of Queue.c is first-in first-out.  After `createQ` and any
sequence of `addQ` and `removeQ` calls (in any store) no call has left the
allocated nodes, and the queue holds a sequence `held` of values such that the
values passed to `addQ`, in call order, are exactly the values that the
successful `removeQ` calls have delivered, in call order, followed by `held`:
nothing is lost, added or reordered.  The queue is empty exactly when `held`
is; when it is not, `headQ` delivers the first value of `held`, the oldest
value not yet removed, and the next `removeQ` delivers the same value and
leaves the rest of `held` (`headQ` returns no store and no queue: it writes
neither); and as many further `removeQ` calls as `held` has values deliver
`held` in order and leave the empty queue. -/
theorem queue_is_fifo (h0 : Heap) (s0 : Line) (ops : List Op) :
    ∃ h q rets held, runOps ops h0 createQ.2 s0 = some (h, q, rets) ∧
      addedValues ops = removedValues rets ++ held ∧
      (isEmptyQ q = true ↔ held = []) ∧
      (∀ s v rest, held = v :: rest →
        headQ h q s = some (true, v) ∧
        ∃ h' q' h'' rets', removeQ h q s = some (true, h', q', v) ∧
          runOps (List.replicate rest.length Op.remove) h' q' v = some (h'', none, rets') ∧
          removedValues rets' = rest) ∧
      ∃ h' rets', runOps (List.replicate held.length Op.remove) h q s0 = some (h', none, rets') ∧
        removedValues rets' = held := by
  obtain ⟨h, q, rets, held, hrun, hr, he⟩ := runOps_rep ops h0 none [] s0 rfl
  simp only [List.nil_append] at he
  refine ⟨h, q, rets, held, hrun, he, ?_, ?_, drain_rep held h q s0 hr⟩
  · constructor
    · intro hq
      cases held with
      | nil => rfl
      | cons v vs =>
        obtain ⟨_, _, hrm, _, _⟩ := removeQ_rep hr s0
        simp [removeQ, hq] at hrm
    · intro hh
      subst hh
      have := hr.nil_iff
      subst this
      rfl
  · intro s v rest hh
    subst hh
    obtain ⟨h', q', hrm, hr', _⟩ := removeQ_rep hr s
    obtain ⟨h'', rets', hd, hv⟩ := drain_rep rest h' q' v hr'
    exact ⟨headQ_rep hr s, h', q', h'', rets', hrm, hd, hv⟩

/-- Two values through the queue: `addQ` of `a` and of `b` and then two
`removeQ` calls deliver `a` and then `b` and leave the empty queue. -/
theorem queue_two_values :
    (runOps [Op.add [97], Op.add [98], Op.remove, Op.remove] [] createQ.2 []).map
        (fun r => (r.2.1, r.2.2)) =
      some (none, [Ret.add true, Ret.add true, Ret.remove true [97], Ret.remove true [98]]) := by
  decide

/-- C9: `headQ` and `removeQ` fail exactly on the empty queue.  `createQ`
returns true and leaves an empty queue; after any sequence of `addQ` and
`removeQ` calls, `headQ` and `removeQ` return false exactly when `isEmptyQ`
holds, and then leave the store, the queue and `*s` as they were; `addQ`
returns true and leaves a queue that is not empty; `destroyQ` returns true and
leaves an empty queue. -/
theorem queue_fails_exactly_when_empty (h0 : Heap) (s0 : Line) (ops : List Op) :
    createQ.1 = true ∧ isEmptyQ createQ.2 = true ∧
    ∃ h q rets, runOps ops h0 createQ.2 s0 = some (h, q, rets) ∧
      (∀ s, ∃ b s', headQ h q s = some (b, s') ∧ (b = false ↔ isEmptyQ q = true) ∧
        (b = false → s' = s)) ∧
      (∀ s, ∃ b h' q' s', removeQ h q s = some (b, h', q', s') ∧
        (b = false ↔ isEmptyQ q = true) ∧ (b = false → h' = h ∧ q' = q ∧ s' = s)) ∧
      (∀ v, ∃ h' q', addQ h q v = some (true, h', q') ∧ isEmptyQ q' = false) ∧
      (∃ h' q', destroyQ h q = some (true, h', q') ∧ isEmptyQ q' = true) := by
  refine ⟨rfl, rfl, ?_⟩
  obtain ⟨h, q, rets, vs', hrun, hr, _⟩ := runOps_rep ops h0 none [] s0 rfl
  refine ⟨h, q, rets, hrun, ?_, ?_, ?_, ?_⟩
  · intro s
    cases vs' with
    | nil =>
      have := hr.nil_iff
      subst this
      exact ⟨false, s, by simp [headQ, isEmptyQ], by simp [isEmptyQ], fun _ => rfl⟩
    | cons v vs =>
      refine ⟨true, v, headQ_rep hr s, ?_, by simp⟩
      cases q with
      | none => exact absurd hr (by simp [Rep])
      | some _ => simp [isEmptyQ]
  · intro s
    cases vs' with
    | nil =>
      have := hr.nil_iff
      subst this
      exact ⟨false, h, none, s, by simp [removeQ, isEmptyQ], by simp [isEmptyQ],
        fun _ => ⟨rfl, rfl, rfl⟩⟩
    | cons v vs =>
      obtain ⟨h', q', hrm, _, _⟩ := removeQ_rep hr s
      refine ⟨true, h', q', v, hrm, ?_, by simp⟩
      cases q with
      | none => exact absurd hr (by simp [Rep])
      | some _ => simp [isEmptyQ]
  · intro v
    obtain ⟨h', nxt, ha, _, _⟩ := addQ_rep hr v
    exact ⟨h', some nxt, ha, by simp [isEmptyQ]⟩
  · obtain ⟨h', hd⟩ := destroyQ_rep hr
    exact ⟨h', none, hd, rfl⟩

/-! ## `trim` -/

theorem compareLines_eq (a b : Line) (pos len : Nat) :
    compareLines a b pos len =
      if InB pos a ∧ InB pos b then .ok (keyCmp pos len a b) else .error .outOfBounds := by
  by_cases h : InB pos a ∧ InB pos b
  · rw [if_pos h, compareLines_of_inB len h.1 h.2]
  · rw [if_neg h]
    unfold InB at h
    unfold compareLines offset
    by_cases ha : a = [] <;> by_cases hb : b = []
    · exact absurd ⟨Or.inl ha, Or.inl hb⟩ h
    · have : ¬ pos ≤ b.length := fun hp => h ⟨Or.inl ha, Or.inr hp⟩
      simp [ha, hb, this, bind, Except.bind]
    · have : ¬ pos ≤ a.length := fun hp => h ⟨Or.inr hp, Or.inl hb⟩
      simp [ha, hb, this, bind, Except.bind]
    · by_cases hpa : pos ≤ a.length
      · have : ¬ pos ≤ b.length := fun hp => h ⟨Or.inr hpa, Or.inr hp⟩
        simp [ha, hb, hpa, this, bind, Except.bind]
      · simp [ha, hb, hpa, bind, Except.bind]

/-- Where no offset leaves a line, `compareLines` is a total preorder. -/
theorem compareLines_preorder_of_inB (pos len : Nat) (a b c : Line)
    (ha : InB pos a) (hb : InB pos b) (hc : InB pos c) :
    compareLines a a pos len = .ok 0 ∧
      (∃ v w, compareLines a b pos len = .ok v ∧ compareLines b a pos len = .ok w ∧
        (v < 0 ↔ w > 0) ∧ (v = 0 ↔ w = 0)) ∧
      (inOrder pos len a b = true → inOrder pos len b c = true → inOrder pos len a c = true) := by
  refine ⟨?_, ⟨keyCmp pos len a b, keyCmp pos len b a, compareLines_of_inB len ha hb,
    compareLines_of_inB len hb ha, ?_, ?_⟩, ?_⟩
  · rw [compareLines_of_inB len ha ha, keyCmp, strncmp_self]
  · have := strncmp_swap (a.drop pos) (b.drop pos) len
    unfold keyCmp; omega
  · have := strncmp_swap (a.drop pos) (b.drop pos) len
    unfold keyCmp; omega
  · intro h1 h2
    rw [inOrder_of_inB ha hb] at h1
    rw [inOrder_of_inB hb hc] at h2
    rw [inOrder_of_inB ha hc]
    exact keyLe_trans pos len a b c h1 h2

/-- C19 (`compareLines` is a total preorder for every `pos`): fails when `pos`
lies far beyond the end of a line.  For two lines `ab` and `pos = 1000`,
`len = 3` the comparison offsets both lines 1000 bytes, far beyond the end
of the strings, and has no value, so `compareLines(a, a)` is not 0; the same
holds for `a` against `bcd`, in both directions. -/
theorem compareLines_no_order_beyond_line_end :
    compareLines [97, 98] [97, 98] 1000 3 = .error .outOfBounds ∧
      compareLines [97] [98, 99, 100] 1000 3 = .error .outOfBounds ∧
      compareLines [98, 99, 100] [97] 1000 3 = .error .outOfBounds := by
  decide

/-! ## The key argument -/

theorem isdigit_iff (c : Nat) : isdigit c = true ↔ 48 ≤ c ∧ c ≤ 57 := by
  simp [isdigit]

theorem scanKey_none : ∀ (cs : List Nat) (index : Int) (hc : Bool) (comma : Int),
    scanKey cs index hc comma = none ↔
      ((∃ c ∈ cs, c ≠ 44 ∧ isdigit c = false) ∨ (hc = true ∧ 44 ∈ cs) ∨ 2 ≤ cs.count 44)
  | [], index, hc, comma => by simp [scanKey]
  | c :: cs, index, hc, comma => by
    unfold scanKey
    by_cases h1 : c ≠ 44 ∧ (c < 48 ∨ c > 57)
    · rw [if_pos h1]
      have hd : isdigit c = false := by
        rw [← Bool.not_eq_true, isdigit_iff]; omega
      simp only [true_iff]
      exact Or.inl ⟨c, List.mem_cons_self _ _, h1.1, hd⟩
    · rw [if_neg h1]
      by_cases h2 : c = 44
      · subst h2
        cases hc with
        | false =>
          simp only [true_and, and_self, if_true, Bool.false_eq_true, false_and, if_false]
          rw [scanKey_none cs (index + 1) true index]
          simp only [List.mem_cons, exists_eq_or_imp, ne_eq, not_true_eq_false, false_and,
            false_or, true_and, List.count_cons_self]
          constructor
          · rintro (h | h | h)
            · exact Or.inl h
            · right; have := List.count_pos_iff.2 h; omega
            · right; omega
          · rintro (h | h)
            · exact Or.inl h
            · right; left; exact List.count_pos_iff.1 (by omega)
        | true =>
          simp
      · have hd : isdigit c = true := by rw [isdigit_iff]; omega
        simp only [h2, false_and, if_false]
        rw [scanKey_none cs (index + 1) hc comma]
        have hne : (44 : Nat) ≠ c := fun e => h2 e.symm
        simp only [List.mem_cons, exists_eq_or_imp, hd, Bool.true_eq_false, and_false, false_or,
          hne]
        rw [List.count_cons_of_ne hne]

theorem scanKey_some : ∀ (cs : List Nat) (index : Int) (hc : Bool) (comma cm ix : Int),
    scanKey cs index hc comma = some (cm, ix) →
      ix = index + cs.length ∧ cm = if 44 ∈ cs then index + (cs.indexOf 44 : Int) else comma
  | [], index, hc, comma, cm, ix => by
    simp only [scanKey, Option.some.injEq, Prod.mk.injEq, List.length_nil, List.not_mem_nil,
      if_false]
    rintro ⟨rfl, rfl⟩; simp
  | c :: cs, index, hc, comma, cm, ix => by
    unfold scanKey
    by_cases h1 : c ≠ 44 ∧ (c < 48 ∨ c > 57)
    · rw [if_pos h1]; intro h; cases h
    · rw [if_neg h1]
      by_cases h2 : c = 44
      · subst h2
        cases hc with
        | false =>
          simp only [true_and, and_self, if_true, Bool.false_eq_true, false_and, if_false]
          intro h
          have hn : scanKey cs (index + 1) true index ≠ none := by rw [h]; simp
          rw [Ne, scanKey_none] at hn
          have h44 : 44 ∉ cs := fun hm => hn (Or.inr (Or.inl ⟨rfl, hm⟩))
          obtain ⟨e1, e2⟩ := scanKey_some cs (index + 1) true index cm ix h
          rw [if_neg h44] at e2
          simp only [List.mem_cons, true_or, if_true, List.length_cons, List.indexOf_cons_self]
          constructor
          · rw [e1]; push_cast; omega
          · rw [e2]; simp
        | true => simp
      · simp only [h2, false_and, if_false]
        intro h
        obtain ⟨e1, e2⟩ := scanKey_some cs (index + 1) hc comma cm ix h
        have hne : (44 : Nat) ≠ c := fun e => h2 e.symm
        simp only [List.mem_cons, hne, false_or, List.length_cons]
        constructor
        · rw [e1]; push_cast; omega
        · rw [e2]
          split_ifs with hm
          · rw [List.indexOf_cons_ne _ h2]; push_cast; omega
          · rfl
theorem indexOf_of_getLast? (t : List Nat) (hl : t.getLast? = some 44) (hc : t.count 44 ≤ 1) :
    t.indexOf 44 + 1 = t.length := by
  rcases List.eq_nil_or_concat t with rfl | ⟨s, c, rfl⟩
  · simp at hl
  · simp only [List.concat_eq_append, List.getLast?_append, List.getLast?_singleton,
      Option.or, Option.some.injEq] at hl
    subst hl
    simp only [List.concat_eq_append, List.count_append, List.count_singleton_self] at hc
    have hs : 44 ∉ s := fun hm => by have := List.count_pos_iff.2 hm; omega
    simp [List.indexOf_append_of_not_mem hs]

theorem getLast?_of_indexOf : ∀ (t : List Nat), 44 ∈ t → t.indexOf 44 + 1 = t.length →
    t.getLast? = some 44
  | [], h, _ => by simp at h
  | [c], h, _ => by simp at h; simp [h]
  | c :: d :: t, h, hi => by
    by_cases hc : c = 44
    · subst hc; simp at hi
    · rw [List.indexOf_cons_ne _ hc] at hi
      have hm : 44 ∈ d :: t := by
        rcases List.mem_cons.1 h with e | e
        · exact absurd e.symm hc
        · exact e
      have := getLast?_of_indexOf (d :: t) hm (by simpa using hi)
      rw [List.getLast?_cons_cons]; exact this

theorem digitsValue_eq : ∀ (s : List Nat) (acc : Nat), (∀ c ∈ s, c = 44 ∨ isdigit c = true) →
    digitsValue s acc = (s.takeWhile (fun c => decide (c ≠ 44))).foldl
      (fun acc c => acc * 10 + (c - 48)) acc
  | [], acc, _ => rfl
  | c :: s, acc, h => by
    rcases h c (List.mem_cons_self _ _) with e | e
    · subst e; simp [digitsValue, isdigit]
    · have hc : c ≠ 44 := by rw [isdigit_iff] at e; omega
      simp only [digitsValue, e, if_true, List.takeWhile_cons, hc, ne_eq, not_false_eq_true,
        decide_True, List.foldl_cons]
      exact digitsValue_eq s _ (fun x hx => h x (List.mem_cons_of_mem _ hx))

theorem strtol_of_key (s : List Nat) (h : ∀ c ∈ s, c = 44 ∨ isdigit c = true)
    (hh : s.head? ≠ some 44) :
    strtol s = min (decimalValue (s.takeWhile (fun c => decide (c ≠ 44))) : Int) LONG_MAX := by
  have hv := digitsValue_eq s 0 h
  have key : strtol s = if (digitsValue s 0 : Int) > LONG_MAX then LONG_MAX
      else (digitsValue s 0 : Int) := by
    cases s with
    | nil => rfl
    | cons c s =>
      have hd : isdigit c = true := by
        rcases h c (List.mem_cons_self _ _) with e | e
        · subst e; simp at hh
        · exact e
      rw [isdigit_iff] at hd
      have hsp : isspace c = false := by
        simp only [isspace, Bool.or_eq_false_iff, decide_eq_false_iff_not,
          Bool.and_eq_false_imp, decide_eq_true_eq]
        omega
      unfold strtol
      rw [List.dropWhile_cons_of_neg (by simp [hsp])]
      split
      · next heq => simp only [List.cons.injEq] at heq; omega
      · next heq => simp only [List.cons.injEq] at heq; omega
      · rfl
  rw [key, hv, decimalValue]
  split_ifs with hgt
  · rw [min_eq_right (le_of_lt hgt)]
  · rw [min_eq_left (by omega)]

theorem drop_indexOf_succ : ∀ (t : List Nat),
    t.drop (t.indexOf 44 + 1) = (t.dropWhile (fun c => decide (c ≠ 44))).drop 1
  | [] => rfl
  | c :: t => by
    by_cases hc : c = 44
    · subst hc; simp
    · rw [List.indexOf_cons_ne _ hc, List.dropWhile_cons_of_pos (by simp [hc])]
      simpa using drop_indexOf_succ t
theorem head?_eq_comma_iff (t : List Nat) : t.head? = some 44 ↔ 44 ∈ t ∧ t.indexOf 44 = 0 := by
  cases t with
  | nil => simp
  | cons c t =>
    by_cases hc : c = 44
    · subst hc; simp
    · have hne : ¬ (44 : Nat) = c := fun e => hc e.symm
      simp [hc, hne, List.indexOf_cons_ne _ hc]

theorem keyArg_none (t : List Nat) :
    keyArg (45 :: t) = none ↔
      ((∃ c ∈ t, c ≠ 44 ∧ isdigit c = false) ∨ 2 ≤ t.count 44 ∨ t.head? = some 44 ∨
        t.getLast? = some 44) := by
  unfold keyArg
  simp only [List.drop_succ_cons, List.drop_zero]
  cases hs : scanKey t 1 false (-1) with
  | none =>
    simp only [true_iff]
    rcases (scanKey_none t 1 false (-1)).1 hs with h | h | h
    · exact Or.inl h
    · simp at h
    · exact Or.inr (Or.inl h)
  | some p =>
    obtain ⟨cm, ix⟩ := p
    have hn : ¬ ((∃ c ∈ t, c ≠ 44 ∧ isdigit c = false) ∨ (false = true ∧ 44 ∈ t) ∨
        2 ≤ t.count 44) := by
      rw [← scanKey_none t 1 false (-1), hs]; simp
    obtain ⟨e1, e2⟩ := scanKey_some t 1 false (-1) cm ix hs
    have hbad : ¬ ∃ c ∈ t, c ≠ 44 ∧ isdigit c = false := fun h => hn (Or.inl h)
    have hcount : t.count 44 ≤ 1 := by
      by_contra h; exact hn (Or.inr (Or.inr (by omega)))
    simp only
    by_cases hm : 44 ∈ t
    · rw [if_pos hm] at e2
      constructor
      · intro h
        split_ifs at h with h1 h2
        · rcases h1 with h1 | h1
          · right; right; right
            exact getLast?_of_indexOf t hm (by omega)
          · right; right; left
            exact (head?_eq_comma_iff t).2 ⟨hm, by omega⟩
      · rintro (h | h | h | h)
        · exact absurd h hbad
        · omega
        · have := ((head?_eq_comma_iff t).1 h).2
          rw [if_pos (Or.inr (by omega))]
        · have := indexOf_of_getLast? t h hcount
          rw [if_pos (Or.inl (by omega))]
    · rw [if_neg hm] at e2
      have h1 : ¬ (cm = ix - 1 ∨ cm = 1) := by omega
      rw [if_neg h1, if_pos e2]
      simp only [false_iff, reduceCtorEq]
      rintro (h | h | h | h)
      · exact hbad h
      · omega
      · exact hm ((head?_eq_comma_iff t).1 h).1
      · exact hm (List.mem_of_mem_getLast? (by rw [h]; rfl))

theorem keyArg_some (t : List Nat) (h : keyArg (45 :: t) ≠ none) :
    keyArg (45 :: t) =
      some (min (decimalValue (t.takeWhile (fun c => decide (c ≠ 44))) : Int) LONG_MAX,
        if 44 ∈ t then
          min (decimalValue ((t.dropWhile (fun c => decide (c ≠ 44))).drop 1) : Int) LONG_MAX
        else INT_MAX) := by
  have hk := h
  rw [Ne, keyArg_none] at hk
  have hbad : ∀ c ∈ t, c = 44 ∨ isdigit c = true := by
    intro c hc
    by_contra hx
    push_neg at hx
    exact hk (Or.inl ⟨c, hc, hx.1, by simpa using hx.2⟩)
  have hcount : t.count 44 ≤ 1 := by
    by_contra hx; exact hk (Or.inr (Or.inl (by omega)))
  have hhead : t.head? ≠ some 44 := fun hx => hk (Or.inr (Or.inr (Or.inl hx)))
  have hpos := strtol_of_key t hbad hhead
  unfold keyArg at h ⊢
  simp only [List.drop_succ_cons, List.drop_zero] at h ⊢
  cases hs : scanKey t 1 false (-1) with
  | none => rw [hs] at h; exact absurd rfl h
  | some p =>
    obtain ⟨cm, ix⟩ := p
    rw [hs] at h
    obtain ⟨e1, e2⟩ := scanKey_some t 1 false (-1) cm ix hs
    simp only at h ⊢
    by_cases h1 : cm = ix - 1 ∨ cm = 1
    · rw [if_pos h1] at h; exact absurd rfl h
    · rw [if_neg h1]
      by_cases hm : 44 ∈ t
      · rw [if_pos hm] at e2 ⊢
        have h2 : ¬ cm = -1 := by omega
        rw [if_neg h2, hpos]
        have ed : (45 :: t).drop (cm + 1).toNat = t.drop (t.indexOf 44 + 1) := by
          have : (cm + 1).toNat = (t.indexOf 44 + 1) + 1 := by omega
          rw [this, List.drop_succ_cons]
        rw [ed, drop_indexOf_succ]
        set s := (t.dropWhile (fun c => decide (c ≠ 44))).drop 1 with hsdef
        have hsub : ∀ c ∈ s, c ∈ t := fun c hc =>
          (List.dropWhile_sublist _).subset (List.mem_of_mem_drop hc)
        have hno : 44 ∉ s := by
          intro hx
          have hcnt : t.count 44 = (t.takeWhile (fun c => decide (c ≠ 44))).count 44 +
              (t.dropWhile (fun c => decide (c ≠ 44))).count 44 := by
            rw [← List.count_append, List.takeWhile_append_dropWhile]
          cases hdw : t.dropWhile (fun c => decide (c ≠ 44)) with
          | nil => rw [hsdef, hdw] at hx; simp at hx
          | cons d ds =>
            have hd : d = 44 := by
              have := List.head?_dropWhile_not (fun c => decide (c ≠ 44)) t
              rw [hdw] at this
              simpa using this
            rw [hsdef, hdw] at hx
            simp only [List.drop_succ_cons, List.drop_zero] at hx
            rw [hdw, hd, List.count_cons_self] at hcnt
            have := List.count_pos_iff.2 hx
            omega
        have hs' : ∀ c ∈ s, c = 44 ∨ isdigit c = true := fun c hc => hbad c (hsub c hc)
        have hh' : s.head? ≠ some 44 := fun hx => hno (List.mem_of_mem_head? hx)
        have hlen := strtol_of_key s hs' hh'
        have htw : s.takeWhile (fun c => decide (c ≠ 44)) = s := by
          rw [List.takeWhile_eq_self_iff]
          intro c hc
          simp only [ne_eq, decide_not, Bool.not_eq_eq_eq_not, Bool.not_true,
            decide_eq_false_iff_not]
          exact fun e => hno (e ▸ hc)
        rw [hlen, htw]
      · rw [if_neg hm] at e2 ⊢
        rw [if_pos e2, hpos]
/-- C11, counterexample: the key argument `-9223372036854775808` before a file
argument is accepted, and `pos` is `LONG_MAX`, which is not the decimal value
of the digits: `strtol` stops at the largest `long`. -/
theorem key_value_beyond_long :
    parseArgs [45, 57, 50, 50, 51, 51, 55, 50, 48, 51, 54, 56, 53, 52, 55, 55, 53, 56, 48, 56]
        [[102]] = some (9223372036854775807, INT_MAX, true) ∧
      decimalValue [57, 50, 50, 51, 51, 55, 50, 48, 51, 54, 56, 53, 52, 55, 55, 53, 56, 48, 56]
        = 9223372036854775808 := by
  decide

/-- C11, amended: a first argument `-` followed by the text `t`, with at least
one argument after it, is rejected with `Invalid -POS,[LEN]` if and only if
`t` holds a byte that is neither a digit nor a comma, or holds two commas, or
starts or ends with a comma; otherwise it is accepted with `pos` the decimal
value before the comma and `len` the decimal value after the comma, each
capped at `LONG_MAX`, and `len = INT_MAX` when there is no comma. -/
theorem key_argument_validation (t : List Nat) (rest : List (List Nat)) (hrest : rest ≠ []) :
    (parseArgs (45 :: t) rest = none ↔
      ((∃ c ∈ t, c ≠ 44 ∧ isdigit c = false) ∨ 2 ≤ t.count 44 ∨ t.head? = some 44 ∨
        t.getLast? = some 44)) ∧
    (parseArgs (45 :: t) rest ≠ none →
      parseArgs (45 :: t) rest =
        some (min (decimalValue (t.takeWhile (fun c => decide (c ≠ 44))) : Int) LONG_MAX,
          if 44 ∈ t then
            min (decimalValue ((t.dropWhile (fun c => decide (c ≠ 44))).drop 1) : Int) LONG_MAX
          else INT_MAX, true)) := by
  have e : parseArgs (45 :: t) rest = (keyArg (45 :: t)).map (fun p => (p.1, p.2, true)) := by
    unfold parseArgs
    rw [if_neg (fun h => hrest h.1), if_pos (by simp)]
  rw [e]
  constructor
  · rw [Option.map_eq_none', keyArg_none]
  · intro h
    have hk : keyArg (45 :: t) ≠ none := fun hx => h (by rw [hx]; rfl)
    rw [keyArg_some t hk]
    rfl

theorem key_argument_validation_witness :
    ([[102]] : List (List Nat)) ≠ [] ∧
      parseArgs [45, 49, 50, 44, 51] [[102]] = some (12, 3, true) ∧
      (parseArgs [45, 49, 50, 44, 44] [[102]] = none ↔
        ((∃ c ∈ [49, 50, 44, 44], c ≠ 44 ∧ isdigit c = false) ∨
          2 ≤ ([49, 50, 44, 44] : List Nat).count 44 ∨
          ([49, 50, 44, 44] : List Nat).head? = some 44 ∨
          ([49, 50, 44, 44] : List Nat).getLast? = some 44)) :=
  ⟨by decide, by decide, (key_argument_validation [49, 50, 44, 44] [[102]] (by decide)).1⟩

/-! ## The passes when a comparison may leave a line -/

theorem pairStep_fault (pos len : Nat) (a b : Line) (d : Dist)
    (h : ¬ (InB pos (trim a) ∧ InB pos (trim b))) :
    pairStep pos len a b d = .error .outOfBounds := by
  unfold pairStep
  simp only [compareLines_eq, if_neg h, bind, Except.bind]

/-- The distribution pass on any sequence of lines: either a comparison leaves
a line, or the pass ends with the sorted pairs in the two queues in turn, the
counters counting them, and the offset inside every line of a pair. -/
theorem distList_safe (pos len : Nat) :
    ∀ (xs : List Line) (d : Dist),
      distList pos len xs d = .error .outOfBounds ∨
      ∃ d', distList pos len xs d = .ok d' ∧
        d'.q1 = d.q1 ++ (if d.addQueue1 then evensJoin (pairRuns (keyLe pos len) (xs.map trim))
                         else oddsJoin (pairRuns (keyLe pos len) (xs.map trim))) ∧
        d'.q2 = d.q2 ++ (if d.addQueue1 then oddsJoin (pairRuns (keyLe pos len) (xs.map trim))
                         else evensJoin (pairRuns (keyLe pos len) (xs.map trim))) ∧
        d'.q1Size = d.q1Size + (d'.q1.length - d.q1.length : Int) ∧
        d'.q2Size = d.q2Size + (d'.q2.length - d.q2.length : Int) ∧
        d'.totalLines = d.totalLines + xs.length ∧
        ∀ r ∈ pairRuns (keyLe pos len) (xs.map trim), 2 ≤ r.length → ∀ l ∈ r, InB pos l
  | [], d => by
    right
    refine ⟨d, rfl, ?_⟩
    simp [pairRuns, evensJoin, oddsJoin]
  | [a], d => by
    right
    refine ⟨addLast d a, rfl, ?_⟩
    unfold addLast
    cases hf : d.addQueue1 <;> simp [pairRuns, evensJoin, oddsJoin, Fifo.addQ, hf]
  | a :: b :: rest, d => by
    by_cases hab : InB pos (trim a) ∧ InB pos (trim b)
    · obtain ⟨ha, hb⟩ := hab
      rcases distList_safe pos len rest
        { (if keyLe pos len (trim a) (trim b) = true then addPair d (trim a) (trim b)
           else addPair d (trim b) (trim a)) with
          totalLines := d.totalLines + 2, addQueue1 := !d.addQueue1 } with he | hok
      · left
        simp only [distList, pairsOf, pairStep_of_inB pos len a b d ha hb, bind_assoc] at he ⊢
        exact he
      · right
        obtain ⟨d', hd', h1, h2, h3, h4, h5, h6⟩ := hok
        refine ⟨d', ?_, ?_⟩
        · simp only [distList, pairsOf, pairStep_of_inB pos len a b d ha hb, bind_assoc] at hd' ⊢
          exact hd'
        · simp only [List.map_cons, pairRuns, evensJoin_cons, oddsJoin_cons]
          rw [h1, h2, h3, h4, h5]
          simp only [h1, h2]
          refine ⟨?_, ?_, ?_, ?_, ?_, ?_⟩
          on_goal 6 =>
            intro r hr hl l hm
            rcases List.mem_cons.1 hr with e | e
            · subst e
              split_ifs at hm <;> simp only [List.mem_cons, List.mem_singleton,
                List.not_mem_nil, or_false] at hm <;> rcases hm with e | e <;> subst e <;>
                assumption
            · exact h6 r e hl l hm
          all_goals
            by_cases hk : keyLe pos len (trim a) (trim b) = true <;>
            cases hf : d.addQueue1 <;>
            simp [hk, hf, addPair, Fifo.addQ] <;> omega
    · left
      simp only [distList, pairsOf, pairStep_fault pos len a b d hab, bind, Except.bind]

theorem mergeStep_fault (pos len : Nat) (print : Bool) (v : Vars) (x y : Line)
    (r1 r2 : List Line) (h1 : v.q1 = x :: r1) (h2 : v.q2 = y :: r2)
    (h : ¬ (InB pos x ∧ InB pos y)) :
    mergeStep pos len print v = .error .outOfBounds := by
  have hh1 : headLine v.q1 = .ok x := by simp [h1, headLine, Fifo.headQ]
  have hh2 : headLine v.q2 = .ok y := by simp [h2, headLine, Fifo.headQ]
  unfold mergeStep
  simp only [hh1, hh2, compareLines_eq, if_neg h, bind, Except.bind]

theorem groupStep_fault (pos len : Nat) (g : Int) (hg : 0 < g) (print : Bool) (a : View)
    (x y : Line) (r1 r2 : List Line) (h1 : a.rem1 = x :: r1) (h2 : a.rem2 = y :: r2)
    (h : ¬ (InB pos x ∧ InB pos y)) :
    groupStep pos len g print a.vars = .error .outOfBounds := by
  unfold groupStep
  simp only
  have hf : ∃ n, (a.vars.q1Left + a.vars.q2Left).toNat = n + 1 := by
    refine ⟨r1.length + r2.length + 1, ?_⟩
    simp [View.vars, h1, h2]; omega
  obtain ⟨n, hn⟩ := hf
  rw [hn, mergeLoop]
  have hc : mergeCond g { a.vars with fromQueue1 := 0, fromQueue2 := 0 } = true := by
    simp [mergeCond, View.vars, h1, h2, Fifo.isEmptyQ, hg]
  simp only [hc, if_true]
  rw [mergeStep_fault pos len print _ x y (r1 ++ a.new1) (r2 ++ a.new2)
    (by simp [View.vars, h1]) (by simp [View.vars, h2]) h]
  rfl

theorem inB_of_head {pos : Nat} {x : Line} {r0 : List Line}
    (hl : 2 ≤ (x :: r0).length → ∀ l ∈ x :: r0, InB pos l) (hx : InB pos x) :
    ∀ l ∈ x :: r0, InB pos l := by
  cases r0 with
  | nil => intro l hm; simp only [List.mem_singleton] at hm; rw [hm]; exact hx
  | cons y r0 => exact hl (by simp)

theorem groupLoop_safe (pos len : Nat) (g : Nat) (hg : 0 < g) (print : Bool) :
    ∀ (runs : List (List Line)) (a : View) (fuel : Nat), RunShape g runs →
      a.rem1 = evensJoin runs → a.rem2 = oddsJoin runs →
      LongRunsInB pos runs → a.rem1.length + a.rem2.length ≤ fuel →
      (groupLoop pos len g print fuel a.vars >>= passTail print) = .error .outOfBounds ∨
      ((groupLoop pos len g print fuel a.vars >>= passTail print) =
          .ok (View.afterRuns (keyLe pos len) print runs a).vars ∧
        LongRunsInB pos (mergePairs (keyLe pos len) runs))
  | [], a, fuel, hs, h1, h2, _, hf => by
    right
    exact ⟨groupLoop_view pos len g hg print [] a fuel hs h1 h2 (by simp) hf,
      by simp [mergePairs, LongRunsInB]⟩
  | [r], a, fuel, _, h1, h2, hin, _ => by
    right
    refine ⟨?_, by simpa [mergePairs] using hin⟩
    have hc : ¬ (a.vars.q1Left > 0 ∧ a.vars.q2Left > 0) := by
      simp [View.vars, h2, oddsJoin]
    unfold groupLoop
    simp only [hc, if_false, pure, Except.pure, bind, Except.bind]
    rw [passTail_view, h1, h2]
    simp only [evensJoin, oddsJoin, List.append_nil, View.afterRuns]
  | r :: r' :: rest, a, fuel, hs, h1, h2, hin, hfuel => by
    have hr := hs.1
    have hr' := (RunShape.tail hs).head hg
    simp only [evensJoin, oddsJoin] at h1 h2
    have hc : a.vars.q1Left > 0 ∧ a.vars.q2Left > 0 := by
      simp [View.vars, h1, h2]; omega
    rw [h1, h2] at hfuel
    simp only [List.length_append] at hfuel
    cases fuel with
    | zero => omega
    | succ fuel =>
      rw [groupLoop]
      simp only [hc, and_self, if_true]
      cases r with
      | nil => simp at hr; omega
      | cons x r0 =>
      cases r' with
      | nil => simp at hr'
      | cons y r0' =>
      by_cases hxy : InB pos x ∧ InB pos y
      · have hin1 : ∀ l ∈ x :: r0, InB pos l :=
          inB_of_head (hin _ (List.mem_cons_self _ _)) hxy.1
        have hin2 : ∀ l ∈ y :: r0', InB pos l :=
          inB_of_head (hin _ (List.mem_cons_of_mem _ (List.mem_cons_self _ _))) hxy.2
        rw [groupStep_view pos len g print (x :: r0) (y :: r0') a (evensJoin rest) (oddsJoin rest)
          h1 h2 (by omega) (Or.inl (by omega)) (by omega)
          (by rcases hr'.2.2 with h | h
              · left; omega
              · right; subst h; rfl)
          hin1 hin2]
        have ih := groupLoop_safe pos len g hg print rest
          (View.pushAll print (List.merge (x :: r0) (y :: r0') (keyLe pos len))
            (a.setRem (evensJoin rest) (oddsJoin rest) (x :: r0).length (y :: r0').length)).flip fuel
          (RunShape.tail (RunShape.tail hs)) (by simp [View.setRem]) (by simp [View.setRem])
          (fun s hs' => hin s (List.mem_cons_of_mem _ (List.mem_cons_of_mem _ hs')))
          (by simp [View.setRem]; omega)
        rcases ih with he | ⟨hok, hl⟩
        · left; exact he
        · right
          refine ⟨hok, ?_⟩
          intro s hs' _ l hm
          simp only [mergePairs, List.mem_cons] at hs'
          rcases hs' with e | e
          · subst e
            rcases List.mem_append.1 ((List.merge_perm_append (keyLe pos len)).subset hm) with h | h
            · exact hin1 l h
            · exact hin2 l h
          · exact hl s e ‹_› l hm
      · left
        rw [groupStep_fault pos len g (by exact_mod_cast hg) print a x y
          (r0 ++ evensJoin rest) (r0' ++ oddsJoin rest) (by rw [h1]; rfl) (by rw [h2]; rfl) hxy]
        rfl

/-- A merge pass on queues that hold runs of `g` lines: either a comparison
leaves a line, or the pass ends with each pair of runs merged. -/
theorem mergePass_safe (pos len : Nat) (g : Nat) (hg : 0 < g) (print : Bool)
    (runs : List (List Line)) (v : Vars) (hs : RunShape g runs)
    (hq1 : v.q1 = evensJoin runs) (hq2 : v.q2 = oddsJoin runs)
    (hs1 : v.q1Size = v.q1.length) (hs2 : v.q2Size = v.q2.length)
    (hin : LongRunsInB pos runs) :
    mergePass pos len g print v = .error .outOfBounds ∨
    ∃ v', mergePass pos len g print v = .ok v' ∧
      LongRunsInB pos (mergePairs (keyLe pos len) runs) ∧
      (print = false →
        v'.q1 = evensJoin (mergePairs (keyLe pos len) runs) ∧
        v'.q2 = oddsJoin (mergePairs (keyLe pos len) runs) ∧
        v'.q1Size = v'.q1.length ∧ v'.q2Size = v'.q2.length ∧ v'.out = v.out) ∧
      (print = true →
        v'.out = v.out ++ (mergePairs (keyLe pos len) runs).flatten ∧ v'.q1 = [] ∧ v'.q2 = []) := by
  let a : View := ⟨v.q1, v.q2, [], [], 0, 0, 0, 0, true, v.out⟩
  have e : ({ v with addQueue1 := true, q1Left := v.q1Size, q2Left := v.q2Size,
                     fromQueue1 := 0, fromQueue2 := 0 } : Vars) = a.vars := by
    obtain ⟨q1, q2, q1Size, q2Size, q1Left, q2Left, f1, f2, flag, out⟩ := v
    simp only at hs1 hs2
    simp [a, View.vars, hs1, hs2]
  have hrun := groupLoop_safe pos len g hg print runs a (v.q1Size + v.q2Size).toNat hs hq1 hq2 hin
    (by simp only [a, hs1, hs2]; omega)
  rw [← e] at hrun
  rcases hrun with he | ⟨hrun, hl⟩
  · left; rw [mergePass_eq]; exact he
  right
  refine ⟨_, by rw [mergePass_eq]; exact hrun, hl, ?_, ?_⟩
  · intro hp
    subst hp
    obtain ⟨h1, h2, h3⟩ := View.afterRuns_queue (keyLe pos len) runs a
    obtain ⟨k1, k2⟩ := View.afterRuns_sizes (keyLe pos len) false runs a
    obtain ⟨r1, r2⟩ := View.afterRuns_rem (keyLe pos len) false runs a hq1 hq2
    simp only [View.vars, h1, h2, h3, k1, k2, r1, r2]
    simp [a]
  · intro hp
    subst hp
    obtain ⟨h1, h2, h3⟩ := View.afterRuns_print (keyLe pos len) runs a
    obtain ⟨r1, r2⟩ := View.afterRuns_rem (keyLe pos len) true runs a hq1 hq2
    simp only [View.vars, h1, h2, h3, r1, r2]
    simp [a]

theorem passStarts_done (pos len : Nat) (n : Int) (fuel : Nat) (g : Int) (p : Bool) (v : Vars)
    (h : ¬ g < n) : passStarts pos len n fuel g p v = [] := by
  unfold passStarts
  rw [if_neg h]

theorem passStarts_succ (pos len : Nat) (n : Int) (fuel : Nat) (g : Int) (p : Bool) (v : Vars)
    (h : g < n) :
    passStarts pos len n (fuel + 1) g p v =
      (g, (if 2 * g ≥ n then true else p), v) ::
        (match mergePass pos len g (if 2 * g ≥ n then true else p) v with
         | .ok v => passStarts pos len n fuel (g * 2) (if 2 * g ≥ n then true else p) v
         | .error _ => []) := by
  rw [passStarts, if_pos h]

theorem passStarts_inv (pos len : Nat) (l : List Line) :
    ∀ (fuel g : Nat) (v : Vars), 0 < g → PassInv pos len l g v →
      ∀ s ∈ passStarts pos len l.length fuel g false v,
        ∃ n : Nat, s.1 = (n : Int) ∧ g ≤ n ∧ n < l.length ∧
          (s.2.1 = true ↔ l.length ≤ 2 * n) ∧ PassInv pos len l n s.2.2 := by
  intro fuel
  induction fuel with
  | zero =>
    intro g v _ _ s hs
    unfold passStarts at hs
    split_ifs at hs <;> simp at hs
  | succ fuel ih =>
    intro g v hg hinv s hs
    by_cases hc : (g : Int) < (l.length : Int)
    · rw [passStarts_succ pos len _ fuel g false v hc] at hs
      have hlt : g < l.length := by exact_mod_cast hc
      rcases List.mem_cons.1 hs with e | hs
      · subst e
        refine ⟨g, rfl, le_refl g, hlt, ?_, hinv⟩
        simp only
        by_cases hp : (2 : Int) * g ≥ l.length
        · simp only [hp, if_true, true_iff]; omega
        · simp only [hp, if_false, Bool.false_eq_true, false_iff]; omega
      · by_cases hp : (2 : Int) * g ≥ l.length
        · simp only [hp, if_true] at hs
          cases hm : mergePass pos len g true v with
          | error e => rw [hm] at hs; simp at hs
          | ok v1 =>
            rw [hm] at hs
            simp only at hs
            rw [passStarts_done pos len _ fuel _ true v1 (by omega)] at hs
            simp at hs
        · simp only [hp, if_false] at hs
          obtain ⟨runs, hr, hl, hq1, hq2, hs1, hs2, hout⟩ := hinv
          cases hm : mergePass pos len g false v with
          | error e => rw [hm] at hs; simp at hs
          | ok v1 =>
            rw [hm] at hs
            simp only at hs
            rcases mergePass_safe pos len g hg false runs v hr.shape hq1 hq2 hs1 hs2 hl with
              he | ⟨v', hv', hl', hq, _⟩
            · rw [hm] at he; cases he
            · rw [hm] at hv'
              cases hv'
              obtain ⟨k1, k2, k3, k4, k5⟩ := hq rfl
              have hr2 := runsOf_mergePairs (keyLe_trans pos len) (keyLe_total pos len) hg hr
              have e : ((2 * g : Nat) : Int) = (g : Int) * 2 := by push_cast; omega
              rw [← e] at hs
              obtain ⟨n, e1, e2, e3⟩ := ih (2 * g) v1 (by omega)
                ⟨_, hr2, hl', k1, k2, k3, k4, by rw [k5, hout]⟩ s hs
              exact ⟨n, e1, by omega, e3⟩
    · rw [passStarts_done pos len _ _ _ _ _ hc] at hs
      simp at hs

theorem passLoop_done (pos len : Nat) (n : Int) (fuel : Nat) (g : Int) (p : Bool) (v : Vars)
    (h : ¬ g < n) : passLoop pos len n fuel g p v = .ok v := by
  unfold passLoop
  rw [if_neg h]
  rfl

theorem passLoop_succ (pos len : Nat) (n : Int) (fuel : Nat) (g : Int) (p : Bool) (v : Vars)
    (h : g < n) :
    passLoop pos len n (fuel + 1) g p v =
      (mergePass pos len g (if 2 * g ≥ n then true else p) v >>=
        passLoop pos len n fuel (g * 2) (if 2 * g ≥ n then true else p)) := by
  rw [passLoop, if_pos h]

theorem passLoop_zero (pos len : Nat) (n : Int) (g : Int) (p : Bool) (v : Vars)
    (h : g < n) : passLoop pos len n 0 g p v = .error .diverges := by
  rw [passLoop, if_pos h]

/-- When the loop over the passes returns, the passes it has started are some
passes that do not print and then one pass that prints, after which the loop
ends. -/
theorem passStarts_last (pos len : Nat) (n : Int) :
    ∀ (fuel : Nat) (g : Int) (v v' : Vars), g < n →
      passLoop pos len n fuel g false v = .ok v' →
      ∃ init last, passStarts pos len n fuel g false v = init ++ [last] ∧
        last.2.1 = true ∧ (∀ s ∈ init, s.2.1 = false) ∧
        mergePass pos len last.1 true last.2.2 = .ok v' := by
  intro fuel
  induction fuel with
  | zero =>
    intro g v v' hg h
    rw [passLoop_zero pos len n g false v hg] at h
    cases h
  | succ fuel ih =>
    intro g v v' hg h
    rw [passLoop_succ pos len n fuel g false v hg] at h
    rw [passStarts_succ pos len n fuel g false v hg]
    by_cases hp : 2 * g ≥ n
    · simp only [hp, if_true] at h ⊢
      cases hm : mergePass pos len g true v with
      | error e => rw [hm] at h; cases h
      | ok v1 =>
        rw [hm] at h
        simp only [bind, Except.bind] at h
        rw [passLoop_done pos len n fuel (g * 2) true v1 (by omega)] at h
        cases h
        simp only
        rw [passStarts_done pos len n fuel (g * 2) true _ (by omega)]
        exact ⟨[], (g, true, v), rfl, rfl, by simp, hm⟩
    · simp only [hp, if_false] at h ⊢
      cases hm : mergePass pos len g false v with
      | error e => rw [hm] at h; cases h
      | ok v1 =>
        rw [hm] at h
        simp only [bind, Except.bind] at h
        obtain ⟨init, last, e, h1, h2, h3⟩ := ih (g * 2) v1 v' (by omega) h
        simp only
        rw [e]
        refine ⟨(g, false, v) :: init, last, rfl, h1, ?_, h3⟩
        intro s hs
        rcases List.mem_cons.1 hs with e' | e'
        · rw [e']
        · exact h2 s e'

/-- When the loop over the passes returns, the number `k` of passes it has
started is the least with `n ≤ g * 2 ^ k`. -/
theorem passStarts_count (pos len : Nat) (n : Int) :
    ∀ (fuel : Nat) (g : Int) (p : Bool) (v v' : Vars),
      passLoop pos len n fuel g p v = .ok v' →
      n ≤ g * 2 ^ (passStarts pos len n fuel g p v).length ∧
        ∀ j < (passStarts pos len n fuel g p v).length, g * 2 ^ j < n := by
  intro fuel
  induction fuel with
  | zero =>
    intro g p v v' h
    by_cases hg : g < n
    · rw [passLoop_zero pos len n g p v hg] at h; cases h
    · rw [passStarts_done pos len n 0 g p v hg]
      simp only [List.length_nil, pow_zero, mul_one]
      exact ⟨by omega, fun j hj => by omega⟩
  | succ fuel ih =>
    intro g p v v' h
    by_cases hg : g < n
    · rw [passLoop_succ pos len n fuel g p v hg] at h
      rw [passStarts_succ pos len n fuel g p v hg]
      cases hm : mergePass pos len g (if 2 * g ≥ n then true else p) v with
      | error e => rw [hm] at h; cases h
      | ok v1 =>
        rw [hm] at h
        simp only [bind, Except.bind] at h
        obtain ⟨h1, h2⟩ := ih (g * 2) _ v1 v' h
        simp only [List.length_cons]
        refine ⟨by rw [pow_succ]; linarith, ?_⟩
        intro j hj
        cases j with
        | zero => simpa using hg
        | succ j =>
          have := h2 j (by omega)
          rw [pow_succ]; linarith
    · rw [passStarts_done pos len n _ g p v hg]
      simp only [List.length_nil, pow_zero, mul_one]
      exact ⟨by omega, fun j hj => by omega⟩

/-- The merge passes from a state that satisfies the invariant: either a
comparison leaves a line, or they end and what they write is the stable sort
of the lines. -/
theorem passLoop_safe (pos len : Nat) (l : List Line) :
    ∀ (fuel g : Nat) (v : Vars), 0 < g → PassInv pos len l g v →
      l.length ≤ g + fuel → g < l.length →
      passLoop pos len l.length fuel g false v = .error .outOfBounds ∨
      ∃ v', passLoop pos len l.length fuel g false v = .ok v' ∧
        StableSortOf (keyLe pos len) l v'.out ∧ v'.q1 = [] ∧ v'.q2 = [] := by
  intro fuel
  induction fuel with
  | zero => intro g v _ _ h1 h2; omega
  | succ fuel ih =>
    intro g v hg hinv hfuel hlt
    obtain ⟨runs, hr, hl, hq1, hq2, hs1, hs2, hout⟩ := hinv
    have hc : (g : Int) < (l.length : Int) := by exact_mod_cast hlt
    have hr2 := runsOf_mergePairs (keyLe_trans pos len) (keyLe_total pos len) hg hr
    rw [passLoop_succ pos len _ fuel g false v hc]
    by_cases hp : (2 : Int) * g ≥ l.length
    · simp only [hp, if_true]
      rcases mergePass_safe pos len g hg true runs v hr.shape hq1 hq2 hs1 hs2 hl with
        he | ⟨v', hv', _, _, hpr⟩
      · left; rw [he]; rfl
      · right
        obtain ⟨ho, e1, e2⟩ := hpr rfl
        rw [hv']
        simp only [bind, Except.bind]
        rw [passLoop_done pos len _ fuel _ true v' (by omega)]
        refine ⟨v', rfl, ?_, e1, e2⟩
        rw [ho, hout, List.nil_append]
        have hlen : (mergePairs (keyLe pos len) runs).flatten.length ≤ 2 * g := by
          rw [hr2.perm.length_eq]; omega
        have hsh := hr2.shape
        rcases RunShape.singleton (by omega) _ hsh hlen with h0 | ⟨r, h1⟩
        · have := hr2.perm.length_eq
          rw [h0] at this
          simp at this
          omega
        · rw [h1] at hr2 ⊢
          simpa using hr2.single
    · simp only [hp, if_false]
      rcases mergePass_safe pos len g hg false runs v hr.shape hq1 hq2 hs1 hs2 hl with
        he | ⟨v', hv', hl', hq, _⟩
      · left; rw [he]; rfl
      · obtain ⟨k1, k2, k3, k4, k5⟩ := hq rfl
        rw [hv']
        simp only [bind, Except.bind]
        have := ih (2 * g) v' (by omega) ⟨_, hr2, hl', k1, k2, k3, k4, by rw [k5, hout]⟩
          (by omega) (by omega)
        have e : ((2 * g : Nat) : Int) = (g : Int) * 2 := by push_cast; omega
        rw [e] at this
        exact this

/-- The distribution pass on any input: either a comparison leaves a line, or
it returns. -/
theorem distribute_safe (files : List (List Line)) (pos len : Nat) :
    distribute files pos len = .error .outOfBounds ∨ ∃ d, distribute files pos len = .ok d := by
  rw [distribute_eq]
  rcases distList_safe pos len files.flatten {} with h | ⟨d, h, _⟩
  · exact Or.inl h
  · exact Or.inr ⟨d, h⟩

/-- What the distribution pass leaves when it returns: the sorted pairs of the
lines in the two queues in turn, and counters that count them. -/
theorem distribute_inv (files : List (List Line)) (pos len : Nat) (d : Dist)
    (h : distribute files pos len = .ok d) :
    d.q1 = evensJoin (pairRuns (keyLe pos len) (files.flatten.map trim)) ∧
      d.q2 = oddsJoin (pairRuns (keyLe pos len) (files.flatten.map trim)) ∧
      d.q1Size = d.q1.length ∧ d.q2Size = d.q2.length ∧
      d.totalLines = (files.flatten.map trim).length ∧
      LongRunsInB pos (pairRuns (keyLe pos len) (files.flatten.map trim)) := by
  rw [distribute_eq] at h
  rcases distList_safe pos len files.flatten {} with he | ⟨d', hd, h1, h2, h3, h4, h5, h6⟩
  · rw [h] at he; cases he
  · rw [h] at hd
    cases hd
    dsimp only at h1 h2 h3 h4 h5
    simp only [List.nil_append, if_true] at h1 h2
    refine ⟨h1, h2, by rw [h3]; simp, by rw [h4]; simp, by rw [h5, List.length_map]; omega, h6⟩

theorem distribute_passInv (files : List (List Line)) (pos len : Nat) (d : Dist)
    (h : distribute files pos len = .ok d) :
    PassInv pos len (files.flatten.map trim) 2 d.vars := by
  obtain ⟨h1, h2, h3, h4, _, h6⟩ := distribute_inv files pos len d h
  exact ⟨_, runsOf_pairRuns (keyLe_trans pos len) (keyLe_total pos len) _, h6,
    by simp [Dist.vars, h1], by simp [Dist.vars, h2], by simp [Dist.vars, h3],
    by simp [Dist.vars, h4], rfl⟩

/-- What `main` does on any input: either a comparison leaves a line, or
`main` returns and has written the stable sort of the lines. -/
theorem main_safe (files : List (List Line)) (pos len : Nat) :
    main files pos len = .error .outOfBounds ∨
    ∃ out, main files pos len = .ok out ∧
      StableSortOf (keyLe pos len) (files.flatten.map trim) out := by
  unfold main
  rcases distribute_safe files pos len with he | ⟨d, hd⟩
  · left; rw [he]; rfl
  obtain ⟨h1, h2, hs1, hs2, hlen, hl⟩ := distribute_inv files pos len d hd
  have hinv := distribute_passInv files pos len d hd
  have hr := runsOf_pairRuns (keyLe_trans pos len) (keyLe_total pos len) (files.flatten.map trim)
  set l := files.flatten.map trim with hldef
  set runs := pairRuns (keyLe pos len) l with hruns
  rw [hd]
  simp only [bind, Except.bind, mergeAll]
  by_cases hsmall : d.totalLines = 1 ∨ d.totalLines = 2
  · right
    simp only [hsmall, if_true]
    have hle : runs.flatten.length ≤ 2 := by
      rw [hr.perm.length_eq]; omega
    rcases RunShape.singleton (by omega) runs hr.shape hle with h0 | ⟨r, hr1⟩
    · have := hr.perm.length_eq
      rw [h0] at this
      simp at this
      omega
    · rw [hr1] at hr
      rw [hr1] at h1
      simp only [evensJoin] at h1
      rw [h1, smallDrain_eq]
      exact ⟨_, rfl, by simpa using hr.single⟩
  · simp only [hsmall, if_false]
    by_cases h0 : l.length = 0
    · right
      have hl0 : l = [] := List.length_eq_zero.1 h0
      have ht : d.totalLines = 0 := by rw [hlen, h0]; rfl
      rw [ht]
      refine ⟨[], ?_, ?_⟩
      · unfold passLoop
        simp [Dist.vars, pure, Except.pure]
      · rw [hl0]; exact ⟨List.Perm.refl _, List.Pairwise.nil, fun _ => rfl⟩
    · have h3' : 2 < l.length := by omega
      rw [hlen]
      simp only [Int.toNat_ofNat]
      rcases passLoop_safe pos len l l.length 2 d.vars (by omega) hinv (by omega) h3' with
        he | ⟨v', hv', hsort, _⟩
      · left
        have e : ((2 : Nat) : Int) = 2 := rfl
        rw [e] at he
        rw [he]
      · right
        have e : ((2 : Nat) : Int) = 2 := rfl
        rw [e] at hv'
        rw [hv']
        exact ⟨_, rfl, hsort⟩

/-! ## The invariants in terms of `compareLines` -/

theorem inOrder_false_of_not_inB_left {pos len : Nat} {x : Line} (y : Line) (h : ¬ InB pos x) :
    inOrder pos len x y = false := by
  simp [inOrder, compareLines_eq, h]

theorem inOrder_false_of_not_inB_right {pos len : Nat} (x : Line) {y : Line} (h : ¬ InB pos y) :
    inOrder pos len x y = false := by
  simp [inOrder, compareLines_eq, h]

theorem stableSortOf_inOrder {pos len : Nat} {b r : List Line}
    (h : StableSortOf (keyLe pos len) b r) (hin : 2 ≤ r.length → ∀ x ∈ r, InB pos x) :
    StableSortOf (inOrder pos len) b r := by
  obtain ⟨hp, hs, hf⟩ := h
  by_cases hl : 2 ≤ r.length
  · have hr := hin hl
    have hb : ∀ x ∈ b, InB pos x := fun x hx => hr x (hp.symm.subset hx)
    refine ⟨hp, ?_, ?_⟩
    · refine hs.imp_of_mem ?_
      intro x y hx hy hxy
      rw [inOrder_of_inB (hr x hx) (hr y hy)]; exact hxy
    · intro x
      by_cases hx : InB pos x
      · have e1 : r.filter (eqv (inOrder pos len) x) = r.filter (eqv (keyLe pos len) x) :=
          List.filter_congr (fun y hy => by
            simp only [eqv, inOrder_of_inB hx (hr y hy), inOrder_of_inB (hr y hy) hx])
        have e2 : b.filter (eqv (inOrder pos len) x) = b.filter (eqv (keyLe pos len) x) :=
          List.filter_congr (fun y hy => by
            simp only [eqv, inOrder_of_inB hx (hb y hy), inOrder_of_inB (hb y hy) hx])
        rw [e1, e2, hf x]
      · have e : ∀ l : List Line, l.filter (eqv (inOrder pos len) x) = [] := by
          intro l
          rw [List.filter_eq_nil_iff]
          intro y _
          simp [eqv, inOrder_false_of_not_inB_left y hx]
        rw [e, e]
  · have hbr : r = b := by
      rcases r with _ | ⟨x, _ | ⟨y, r⟩⟩
      · exact (List.perm_nil.1 hp.symm).symm
      · exact (List.perm_singleton.1 hp.symm).symm
      · simp at hl
    subst hbr
    refine ⟨hp, ?_, fun _ => rfl⟩
    rcases r with _ | ⟨x, _ | ⟨y, r⟩⟩
    · exact List.Pairwise.nil
    · exact List.pairwise_singleton _ _
    · simp at hl

theorem forall₂_inOrder {pos len : Nat} :
    ∀ (blocks runs : List (List Line)), List.Forall₂ (StableSortOf (keyLe pos len)) blocks runs →
      LongRunsInB pos runs → List.Forall₂ (StableSortOf (inOrder pos len)) blocks runs
  | _, _, List.Forall₂.nil, _ => List.Forall₂.nil
  | _, _, List.Forall₂.cons h1 h2, hl =>
    List.Forall₂.cons (stableSortOf_inOrder h1 (hl _ (List.mem_cons_self _ _)))
      (forall₂_inOrder _ _ h2 (fun r hr => hl r (List.mem_cons_of_mem _ hr)))

theorem runsOf_inOrder {pos len g : Nat} {l : List Line} {runs : List (List Line)}
    (h : RunsOf (keyLe pos len) g l runs) (hl : LongRunsInB pos runs) :
    RunsOf (inOrder pos len) g l runs := by
  obtain ⟨blocks, hb, hs, hf⟩ := h
  exact ⟨blocks, hb, hs, forall₂_inOrder blocks runs hf hl⟩

theorem evens_odds_perm {α : Type} : ∀ runs : List (List α),
    (evensJoin runs ++ oddsJoin runs).Perm runs.flatten
  | [] => by simp [evensJoin, oddsJoin]
  | [r] => by simp [evensJoin, oddsJoin]
  | r :: r' :: rest => by
    simp only [evensJoin, oddsJoin, List.flatten_cons]
    have ih := evens_odds_perm rest
    have e : r ++ evensJoin rest ++ (r' ++ oddsJoin rest)
        = r ++ (evensJoin rest ++ r' ++ oddsJoin rest) := by simp
    rw [e]
    refine List.Perm.append_left _ ?_
    refine List.Perm.trans (List.Perm.append_right _ List.perm_append_comm) ?_
    rw [List.append_assoc]
    exact List.Perm.append_left _ ih

theorem runShape_two {α : Type} {g : Nat} (hg : 0 < g) :
    ∀ runs : List (List α), RunShape g runs → g < runs.flatten.length →
      runs.flatten.length ≤ 2 * g →
      ∃ r1 r2, runs = [r1, r2] ∧ r1.length = g ∧ 0 < r2.length ∧ r2.length ≤ g
  | [], _, h, _ => by simp at h
  | [r], hs, h, _ => by
    have := hs.2
    simp at h; omega
  | [r, r'], hs, _, _ => ⟨r, r', rfl, hs.1, hs.2.1, hs.2.2⟩
  | r :: r' :: r'' :: rest, hs, _, h => by
    have h1 := hs.1
    have h2 := hs.2.1
    have h3 := ((RunShape.tail (RunShape.tail hs)).head hg).1
    simp only [List.flatten_cons, List.length_append] at h
    omega

/-- The state at the start of each merge pass of `main`: the invariant of the
passes holds for the group size of the pass, which is at least 2 and less
than the number of lines, and `print` is set when twice the group size
reaches the number of lines. -/
theorem passStarts_main (files : List (List Line)) (pos len : Nat) (d : Dist)
    (hd : distribute files pos len = .ok d) (s : Int × Bool × Vars)
    (hs : s ∈ passStarts pos len d.totalLines d.totalLines.toNat 2 false d.vars) :
    ∃ n : Nat, s.1 = (n : Int) ∧ 2 ≤ n ∧ n < (files.flatten.map trim).length ∧
      (s.2.1 = true ↔ (files.flatten.map trim).length ≤ 2 * n) ∧
      PassInv pos len (files.flatten.map trim) n s.2.2 := by
  have hlen := (distribute_inv files pos len d hd).2.2.2.2.1
  have hinv := distribute_passInv files pos len d hd
  rw [hlen] at hs
  simp only [Int.toNat_ofNat] at hs
  exact passStarts_inv pos len (files.flatten.map trim) _ 2 d.vars (by omega) hinv s hs

/-! ## The claims about the passes of `main` -/

theorem exists_of_forall₂_right {α β : Type} {R : α → β → Prop} :
    ∀ {l₁ : List α} {l₂ : List β}, List.Forall₂ R l₁ l₂ → ∀ r ∈ l₂, ∃ b ∈ l₁, R b r
  | _, _, List.Forall₂.nil, r, hr => by simp at hr
  | _, _, List.Forall₂.cons h1 h2, r, hr => by
    rcases List.mem_cons.1 hr with e | e
    · subst e; exact ⟨_, List.mem_cons_self _ _, h1⟩
    · obtain ⟨b, hb, hR⟩ := exists_of_forall₂_right h2 r e
      exact ⟨b, List.mem_cons_of_mem _ hb, hR⟩

/-- The run invariant up to the printing pass.  Whenever the distribution pass
returns, at the start of each merge pass up to and with the printing pass
(`passStarts`), with group size `g`, the queues hold runs of exactly
`g` lines but for the last run of all, which holds between one and `g` lines;
the runs are the stable sorts under `compareLines` of the consecutive blocks
of the trimmed input lines, so every run is sorted under `compareLines`; and
`q1` holds the runs of the blocks 0, 2, 4, ... in order, `q2` the runs of the
blocks 1, 3, 5, ..., so each run of `q1` stands for a block that precedes the
block of its partner run of `q2`. -/
theorem run_invariant_to_print (files : List (List Line)) (pos len : Nat) (d : Dist)
    (hd : distribute files pos len = .ok d) (g : Int) (p : Bool) (v : Vars)
    (hs : (g, p, v) ∈ passStarts pos len d.totalLines d.totalLines.toNat 2 false d.vars) :
    ∃ (n : Nat) (blocks runs : List (List Line)), g = n ∧
      blocks.flatten = files.flatten.map trim ∧ RunShape n runs ∧
      List.Forall₂ (StableSortOf (inOrder pos len)) blocks runs ∧
      (∀ r ∈ runs, r.Pairwise (fun x y => inOrder pos len x y = true)) ∧
      v.q1 = evensJoin runs ∧ v.q2 = oddsJoin runs := by
  obtain ⟨n, e, _, _, _, runs, hr, hl, hq1, hq2, _⟩ :=
    passStarts_main files pos len d hd (g, p, v) hs
  obtain ⟨blocks, hb, hsh, hf⟩ := runsOf_inOrder hr hl
  refine ⟨n, blocks, runs, e, hb, hsh, hf, ?_, hq1, hq2⟩
  intro r hr'
  obtain ⟨b, _, hbr⟩ := exists_of_forall₂_right hf r hr'
  exact hbr.2.1

/-- The run invariant at the five lines `c`, `a`, `b`, `e`, `d`, at the start
of the second merge pass. -/
theorem run_invariant_to_print_example :
    distribute [[[99, 10], [97, 10], [98, 10], [101, 10], [100, 10]]] 0 2147483647 =
        .ok { q1 := [[97], [99], [100]], q2 := [[98], [101]], totalLines := 5, q1Size := 3,
              q2Size := 2, addQueue1 := true } ∧
      ∃ (n : Nat) (blocks runs : List (List Line)), (4 : Int) = n ∧
        blocks.flatten =
          ([[[99, 10], [97, 10], [98, 10], [101, 10], [100, 10]]] : List (List Line)).flatten.map
            trim ∧
        RunShape n runs ∧
        List.Forall₂ (StableSortOf (inOrder 0 2147483647)) blocks runs ∧
        (∀ r ∈ runs, r.Pairwise (fun x y => inOrder 0 2147483647 x y = true)) ∧
        ([[97], [98], [99], [101]] : List Line) = evensJoin runs ∧
        ([[100]] : List Line) = oddsJoin runs :=
  ⟨by decide!,
    run_invariant_to_print [[[99, 10], [97, 10], [98, 10], [101, 10], [100, 10]]] 0 2147483647
      { q1 := [[97], [99], [100]], q2 := [[98], [101]], totalLines := 5, q1Size := 3,
        q2Size := 2, addQueue1 := true } (by decide!) 4 true
      { q1 := [[97], [98], [99], [101]], q2 := [[100]], q1Size := 4, q2Size := 1, q1Left := 0,
        q2Left := 0, fromQueue1 := 2, fromQueue2 := 2, addQueue1 := false, out := [] }
      (by decide!)⟩

theorem passInv_sizes {pos len : Nat} {l : List Line} {n : Nat} {v : Vars}
    (h : PassInv pos len l n v) :
    v.q1Size = v.q1.length ∧ v.q2Size = v.q2.length ∧ v.q1Size + v.q2Size = l.length ∧
      (v.q1 ++ v.q2).Perm l := by
  obtain ⟨runs, hr, _, hq1, hq2, hs1, hs2, _⟩ := h
  have hp : (v.q1 ++ v.q2).Perm l := by
    rw [hq1, hq2]; exact (evens_odds_perm runs).trans hr.perm
  refine ⟨hs1, hs2, ?_, hp⟩
  have := hp.length_eq
  rw [List.length_append] at this
  rw [hs1, hs2]
  exact_mod_cast this

/-- After a merge pass that does not print and returns, the invariant of the
passes holds for the doubled group size. -/
theorem passInv_step {pos len : Nat} {l : List Line} {n : Nat} {v v' : Vars} (hn : 0 < n)
    (h : PassInv pos len l n v) (hm : mergePass pos len n false v = .ok v') :
    PassInv pos len l (2 * n) v' := by
  obtain ⟨runs, hr, hl, hq1, hq2, hs1, hs2, hout⟩ := h
  rcases mergePass_safe pos len n hn false runs v hr.shape hq1 hq2 hs1 hs2 hl with
    he | ⟨v1, hv1, hl', hq, _⟩
  · rw [hm] at he; cases he
  · rw [hm] at hv1
    cases hv1
    obtain ⟨k1, k2, k3, k4, k5⟩ := hq rfl
    exact ⟨_, runsOf_mergePairs (keyLe_trans pos len) (keyLe_total pos len) hn hr, hl',
      k1, k2, k3, k4, by rw [k5, hout]⟩

/-- The size bookkeeping up to the printing pass.  Whenever the distribution
pass returns, `q1Size` and `q2Size` are the numbers of lines in `q1` and `q2`
and add up to `totalLines`, the number of input lines; the same holds at the
start of every merge pass up to and with the printing pass (`passStarts`), and
after every merge pass that does not print. -/
theorem size_bookkeeping_to_print (files : List (List Line)) (pos len : Nat) (d : Dist)
    (hd : distribute files pos len = .ok d) :
    d.q1Size = d.q1.length ∧ d.q2Size = d.q2.length ∧ d.q1Size + d.q2Size = d.totalLines ∧
      d.totalLines = files.flatten.length ∧
      ∀ g p v, (g, p, v) ∈ passStarts pos len d.totalLines d.totalLines.toNat 2 false d.vars →
        v.q1Size = v.q1.length ∧ v.q2Size = v.q2.length ∧ v.q1Size + v.q2Size = d.totalLines ∧
        (p = false → ∀ v', mergePass pos len g p v = .ok v' →
          v'.q1Size = v'.q1.length ∧ v'.q2Size = v'.q2.length ∧
            v'.q1Size + v'.q2Size = d.totalLines) := by
  obtain ⟨_, _, h3, h4, hlen, _⟩ := distribute_inv files pos len d hd
  have h0 := passInv_sizes (distribute_passInv files pos len d hd)
  refine ⟨h3, h4, ?_, by rw [hlen, List.length_map], ?_⟩
  · rw [hlen]; exact h0.2.2.1
  · intro g p v hs
    obtain ⟨n, e, hn, _, _, hinv⟩ := passStarts_main files pos len d hd (g, p, v) hs
    obtain ⟨k1, k2, k3, _⟩ := passInv_sizes hinv
    refine ⟨k1, k2, by rw [hlen]; exact k3, ?_⟩
    intro hp v' hm
    simp only at e
    subst hp
    rw [e] at hm
    obtain ⟨j1, j2, j3, _⟩ := passInv_sizes (passInv_step (by omega) hinv hm)
    exact ⟨j1, j2, by rw [hlen]; exact j3⟩

/-- The size bookkeeping at the five lines `c`, `a`, `b`, `e`, `d`: after the
distribution pass, at the start of the first merge pass and after it, and at the start of
the second merge pass. -/
theorem size_bookkeeping_to_print_example :
    distribute fiveLines 0 2147483647 = .ok fiveLinesDist ∧
      fiveLinesDist.q1Size = fiveLinesDist.q1.length ∧
      fiveLinesDist.q1Size + fiveLinesDist.q2Size = fiveLinesDist.totalLines ∧
      mergePass 0 2147483647 2 false fiveLinesDist.vars = .ok fiveLinesSecond ∧
      (fiveLinesSecond.q1Size = fiveLinesSecond.q1.length ∧
        fiveLinesSecond.q2Size = fiveLinesSecond.q2.length ∧
        fiveLinesSecond.q1Size + fiveLinesSecond.q2Size = fiveLinesDist.totalLines) ∧
      fiveLinesSecond.q1Size + fiveLinesSecond.q2Size = fiveLinesDist.totalLines :=
  have hd : distribute fiveLines 0 2147483647 = .ok fiveLinesDist := by decide!
  have hm : mergePass 0 2147483647 2 false fiveLinesDist.vars = .ok fiveLinesSecond := by decide!
  have h := size_bookkeeping_to_print fiveLines 0 2147483647 fiveLinesDist hd
  ⟨hd, h.1, h.2.2.1, hm,
    (h.2.2.2.2 2 false fiveLinesDist.vars (by decide!)).2.2.2 rfl fiveLinesSecond hm,
    (h.2.2.2.2 4 true fiveLinesSecond (by decide!)).2.2.1⟩

/-- After a merge pass that prints and returns, the merged runs have been
written, which are all the lines, and the queues are empty. -/
theorem passInv_print {pos len : Nat} {l : List Line} {n : Nat} {v v' : Vars} (hn : 0 < n)
    (h : PassInv pos len l n v) (hm : mergePass pos len n true v = .ok v') :
    ∃ runs, RunsOf (keyLe pos len) n l runs ∧ LongRunsInB pos runs ∧
      v.q1 = evensJoin runs ∧ v.q2 = oddsJoin runs ∧
      RunsOf (keyLe pos len) (2 * n) l (mergePairs (keyLe pos len) runs) ∧
      LongRunsInB pos (mergePairs (keyLe pos len) runs) ∧
      v'.out = (mergePairs (keyLe pos len) runs).flatten ∧ v'.out.Perm l ∧
      v'.q1 = [] ∧ v'.q2 = [] := by
  obtain ⟨runs, hr, hl, hq1, hq2, hs1, hs2, hout⟩ := h
  rcases mergePass_safe pos len n hn true runs v hr.shape hq1 hq2 hs1 hs2 hl with
    he | ⟨v1, hv1, hl', _, hq⟩
  · rw [hm] at he; cases he
  · rw [hm] at hv1
    cases hv1
    obtain ⟨k1, k2, k3⟩ := hq rfl
    rw [hout, List.nil_append] at k1
    have hr2 := runsOf_mergePairs (keyLe_trans pos len) (keyLe_total pos len) hn hr
    exact ⟨runs, hr, hl, hq1, hq2, hr2, hl', k1, by rw [k1]; exact hr2.perm, k2, k3⟩

/-- The flag `print` up to the printing pass.  Whenever the distribution pass
returns, a merge pass up to and with the printing pass (`passStarts`) has
`print` set if and only if its group size is at least half of `totalLines`; a
pass with `print` not set starts and ends with nothing written and keeps the
lines in the queues, a pass with `print` set writes every line and leaves the
queues empty; and when the loop taken up to the printing pass (`passLoop`)
returns for more than two lines, exactly the last of these passes has `print`
set. -/
theorem print_flag_to_print (files : List (List Line)) (pos len : Nat) (d : Dist)
    (hd : distribute files pos len = .ok d) :
    (∀ g p v, (g, p, v) ∈ passStarts pos len d.totalLines d.totalLines.toNat 2 false d.vars →
      (p = true ↔ 2 * g ≥ d.totalLines) ∧ g < d.totalLines ∧ v.out = [] ∧
      ∀ v', mergePass pos len g p v = .ok v' →
        (p = false → v'.out = [] ∧ (v'.q1 ++ v'.q2).Perm (v.q1 ++ v.q2)) ∧
        (p = true → v'.out.Perm (files.flatten.map trim) ∧ v'.q1 = [] ∧ v'.q2 = [])) ∧
    (2 < d.totalLines → ∀ v',
      passLoop pos len d.totalLines d.totalLines.toNat 2 false d.vars = .ok v' →
      ∃ init last,
        passStarts pos len d.totalLines d.totalLines.toNat 2 false d.vars = init ++ [last] ∧
        last.2.1 = true ∧ (∀ s ∈ init, s.2.1 = false) ∧
        mergePass pos len last.1 true last.2.2 = .ok v') := by
  have hlen := (distribute_inv files pos len d hd).2.2.2.2.1
  constructor
  · intro g p v hs
    obtain ⟨n, e, hn, hlt, hp, hinv⟩ := passStarts_main files pos len d hd (g, p, v) hs
    simp only at e hp hinv
    have hout : v.out = [] := by
      obtain ⟨_, _, _, _, _, _, _, ho⟩ := hinv
      exact ho
    refine ⟨?_, by rw [hlen, e]; exact_mod_cast hlt, hout, ?_⟩
    · rw [hp, hlen, e]
      constructor
      · intro h; have : ((List.map trim files.flatten).length : Int) ≤ 2 * n := by exact_mod_cast h
        omega
      · intro h; exact_mod_cast h
    · intro v' hm
      rw [e] at hm
      constructor
      · intro hpf
        subst hpf
        have hstep := passInv_step (by omega) hinv hm
        have hperm := (passInv_sizes hstep).2.2.2.trans (passInv_sizes hinv).2.2.2.symm
        obtain ⟨_, _, _, _, _, _, _, ho⟩ := hstep
        exact ⟨ho, hperm⟩
      · intro hpt
        subst hpt
        obtain ⟨_, _, _, _, _, _, _, _, k1, k2, k3⟩ := passInv_print (by omega) hinv hm
        exact ⟨k1, k2, k3⟩
  · intro h2 v' hv'
    exact passStarts_last pos len d.totalLines _ 2 d.vars v' (by omega) hv'

/-- The flag `print` at the five lines `c`, `a`, `b`, `e`, `d`: of the two
passes the second one prints. -/
theorem print_flag_to_print_example :
    distribute fiveLines 0 2147483647 = .ok fiveLinesDist ∧
      passStarts 0 2147483647 5 5 2 false fiveLinesDist.vars =
        [(2, false, fiveLinesDist.vars), (4, true, fiveLinesSecond)] ∧
      ((true = true ↔ 2 * (4 : Int) ≥ fiveLinesDist.totalLines) ∧
        (4 : Int) < fiveLinesDist.totalLines ∧ fiveLinesSecond.out = [] ∧
        ∀ v', mergePass 0 2147483647 4 true fiveLinesSecond = .ok v' →
          (true = false → v'.out = [] ∧
            (v'.q1 ++ v'.q2).Perm (fiveLinesSecond.q1 ++ fiveLinesSecond.q2)) ∧
          (true = true → v'.out.Perm (fiveLines.flatten.map trim) ∧ v'.q1 = [] ∧ v'.q2 = [])) :=
  have hd : distribute fiveLines 0 2147483647 = .ok fiveLinesDist := by decide!
  ⟨hd, by decide!,
    (print_flag_to_print fiveLines 0 2147483647 fiveLinesDist hd).1 4 true fiveLinesSecond
      (by decide!)⟩


/-- No empty queue is met up to the end of the printing pass.  For every input
`main`, which is the run up to there, either returns or stops in a comparison
that leaves a line; so up to there no `removeQ` of `addRemove` fails, no
`headQ` of the merging, run and leftover loops leaves its line without a
value, and no loop runs out of steps.  In the drain for one or two lines
`removeQ` follows the test `!isEmptyQ`, after which `headQ` and `removeQ`
deliver a line. -/
theorem no_empty_queue_to_print (files : List (List Line)) (pos len : Nat) :
    main files pos len ≠ .error .removeQFailed ∧ main files pos len ≠ .error .uninitialised ∧
      main files pos len ≠ .error .diverges ∧
      (main files pos len = .error .outOfBounds ∨ ∃ out, main files pos len = .ok out) ∧
      ∀ q : Fifo, Fifo.isEmptyQ q = false →
        ∃ line q', Fifo.headQ q = some line ∧ Fifo.removeQ q = some (line, q') := by
  have hq : ∀ q : Fifo, Fifo.isEmptyQ q = false →
      ∃ line q', Fifo.headQ q = some line ∧ Fifo.removeQ q = some (line, q') := by
    intro q h
    cases q with
    | nil => simp [Fifo.isEmptyQ] at h
    | cons x q => exact ⟨x, q, rfl, rfl⟩
  rcases main_safe files pos len with h | ⟨out, h, _⟩
  · rw [h]
    exact ⟨by simp, by simp, by simp, Or.inl rfl, hq⟩
  · rw [h]
    exact ⟨by simp, by simp, by simp, Or.inr ⟨out, rfl⟩, hq⟩

/-- The state at the start of the printing pass.  Whenever the distribution
pass returns, at the start of the first merge pass with `print` set, the last
pass of `passStarts`, `q1` holds exactly `groupsize` lines and `q2` holds the
other `totalLines - groupsize` lines, at least one and at most `groupsize`; each
queue is one run, sorted under `compareLines`; and the pass, unless its
comparison leaves a line, returns with the merge of the two queues written,
which is the stable sort under `compareLines` of all the lines, and with both
queues empty. -/
theorem printing_pass_state (files : List (List Line)) (pos len : Nat) (d : Dist)
    (hd : distribute files pos len = .ok d) (g : Int) (v : Vars)
    (hs : (g, true, v) ∈ passStarts pos len d.totalLines d.totalLines.toNat 2 false d.vars) :
    (v.q1.length : Int) = g ∧ (v.q2.length : Int) = d.totalLines - g ∧
      1 ≤ v.q2.length ∧ (v.q2.length : Int) ≤ g ∧
      v.q1.Pairwise (fun x y => inOrder pos len x y = true) ∧
      v.q2.Pairwise (fun x y => inOrder pos len x y = true) ∧
      (mergePass pos len g true v = .error .outOfBounds ∨
        ∃ v', mergePass pos len g true v = .ok v' ∧
          v'.out = List.merge v.q1 v.q2 (keyLe pos len) ∧
          StableSortOf (inOrder pos len) (files.flatten.map trim) v'.out ∧
          v'.q1 = [] ∧ v'.q2 = []) := by
  have hlen := (distribute_inv files pos len d hd).2.2.2.2.1
  obtain ⟨n, e, hn, hlt, hp, hinv⟩ := passStarts_main files pos len d hd (g, true, v) hs
  simp only at e hp hinv
  have h2n := hp.1 trivial
  obtain ⟨runs, hr, hl, hq1, hq2, hs1, hs2, hout⟩ := hinv
  have hfl := hr.perm.length_eq
  obtain ⟨r1, r2, hruns, k1, k2, k3⟩ := runShape_two (by omega) runs hr.shape
    (by rw [hfl]; exact hlt) (by rw [hfl]; exact h2n)
  subst hruns
  simp only [evensJoin, oddsJoin, List.append_nil] at hq1 hq2
  simp only [List.flatten_cons, List.flatten_nil, List.append_nil, List.length_append] at hfl
  obtain ⟨blocks, _, _, hf⟩ := runsOf_inOrder hr hl
  obtain ⟨_, _, hb1⟩ := exists_of_forall₂_right hf r1 (by simp)
  obtain ⟨_, _, hb2⟩ := exists_of_forall₂_right hf r2 (by simp)
  rw [e, hlen, hq1, hq2]
  refine ⟨by omega, by omega, by omega, by omega, hb1.2.1, hb2.2.1, ?_⟩
  rw [← hq1, ← hq2]
  rcases mergePass_safe pos len n (by omega) true [r1, r2] v hr.shape
      (by simp [evensJoin, hq1]) (by simp [oddsJoin, hq2]) hs1 hs2 hl with
    he | ⟨v', hv', hl', _, hq⟩
  · exact Or.inl he
  · right
    obtain ⟨j1, j2, j3⟩ := hq rfl
    simp only [mergePairs, List.flatten_cons, List.flatten_nil, List.append_nil] at j1 hl'
    rw [hout, List.nil_append] at j1
    have hr2 := runsOf_mergePairs (keyLe_trans pos len) (keyLe_total pos len)
      (by omega : 0 < n) hr
    simp only [mergePairs] at hr2
    refine ⟨v', hv', by rw [j1, hq1, hq2], ?_, j2, j3⟩
    rw [j1]
    exact stableSortOf_inOrder hr2.single (hl' _ (by simp))

/-- The printing pass at the five lines `c`, `a`, `b`, `e`, `d`, the second
merge pass: four lines in `q1`, one in `q2`, and the pass writes the five
lines in order. -/
theorem printing_pass_state_example :
    distribute fiveLines 0 2147483647 = .ok fiveLinesDist ∧
      ((4 : Int), true, fiveLinesSecond) ∈
        passStarts 0 2147483647 fiveLinesDist.totalLines fiveLinesDist.totalLines.toNat 2 false
          fiveLinesDist.vars ∧
      (fiveLinesSecond.q1.length : Int) = 4 ∧
      (fiveLinesSecond.q2.length : Int) = fiveLinesDist.totalLines - 4 ∧
      (mergePass 0 2147483647 4 true fiveLinesSecond).map (fun v => v.out) =
        .ok [[97], [98], [99], [100], [101]] :=
  have hd : distribute fiveLines 0 2147483647 = .ok fiveLinesDist := by decide!
  have hs : ((4 : Int), true, fiveLinesSecond) ∈
      passStarts 0 2147483647 fiveLinesDist.totalLines fiveLinesDist.totalLines.toNat 2 false
        fiveLinesDist.vars := by decide!
  have h := printing_pass_state fiveLines 0 2147483647 fiveLinesDist hd 4 fiveLinesSecond hs
  ⟨hd, hs, h.1, h.2.1, by decide!⟩

/-- The loop over the passes returns when the offset is inside every line. -/
theorem passLoop_returns (files : List (List Line)) (pos len : Nat) (d : Dist)
    (hd : distribute files pos len = .ok d) (hin : ∀ x ∈ files.flatten, InB pos (trim x))
    (h2 : 2 < d.totalLines) :
    ∃ v', passLoop pos len d.totalLines d.totalLines.toNat 2 false d.vars = .ok v' := by
  have hlen := (distribute_inv files pos len d hd).2.2.2.2.1
  have hin' : ∀ x ∈ files.flatten.map trim, InB pos x := by
    intro x hx
    obtain ⟨y, hy, rfl⟩ := List.mem_map.1 hx
    exact hin y hy
  obtain ⟨runs, hr, _, hq1, hq2, hs1, hs2, hout⟩ := distribute_passInv files pos len d hd
  rw [hlen] at h2 ⊢
  simp only [Int.toNat_ofNat]
  obtain ⟨v', hv', _⟩ := passLoop_runs pos len _ hin' (files.flatten.map trim).length 2 runs
    d.vars (by omega) hr hq1 hq2 hs1 hs2 hout (by omega) (by exact_mod_cast h2)
  have e : ((2 : Nat) : Int) = 2 := rfl
  rw [e] at hv'
  exact ⟨v', hv'⟩

/-- When the loop over the passes returns, it has started, and finished, a
pass for every double of the first group size that is less than the number of
lines. -/
theorem passStarts_mem_of_lt (pos len : Nat) (n : Int) :
    ∀ (j fuel : Nat) (g : Int) (p : Bool) (v v' : Vars), 0 < g →
      passLoop pos len n fuel g p v = .ok v' → g * 2 ^ j < n →
      ∃ p' v1 v2, (g * 2 ^ j, p', v1) ∈ passStarts pos len n fuel g p v ∧
        mergePass pos len (g * 2 ^ j) p' v1 = .ok v2 := by
  intro j
  induction j with
  | zero =>
    intro fuel g p v v' hg h hlt
    simp only [pow_zero, mul_one] at hlt ⊢
    cases fuel with
    | zero => rw [passLoop_zero pos len n g p v hlt] at h; cases h
    | succ fuel =>
      rw [passLoop_succ pos len n fuel g p v hlt] at h
      rw [passStarts_succ pos len n fuel g p v hlt]
      cases hm : mergePass pos len g (if 2 * g ≥ n then true else p) v with
      | error e => rw [hm] at h; cases h
      | ok v1 => exact ⟨_, v, v1, List.mem_cons_self _ _, hm⟩
  | succ j ih =>
    intro fuel g p v v' hg h hlt
    have hpow : (0 : Int) < 2 ^ j := by positivity
    have e : g * 2 ^ (j + 1) = g * 2 * 2 ^ j := by rw [pow_succ]; ring
    have hg' : g < n := by
      rw [e] at hlt
      have : g * 2 * 1 ≤ g * 2 * 2 ^ j := by
        apply mul_le_mul_of_nonneg_left _ (by omega)
        omega
      omega
    cases fuel with
    | zero => rw [passLoop_zero pos len n g p v hg'] at h; cases h
    | succ fuel =>
      rw [passLoop_succ pos len n fuel g p v hg'] at h
      rw [passStarts_succ pos len n fuel g p v hg']
      cases hm : mergePass pos len g (if 2 * g ≥ n then true else p) v with
      | error e => rw [hm] at h; cases h
      | ok v1 =>
        rw [hm] at h
        simp only [bind, Except.bind] at h
        obtain ⟨p', w1, w2, hmem, hw⟩ := ih fuel (g * 2) _ v1 v' (by omega) h (by rw [← e]; exact hlt)
        rw [e]
        exact ⟨p', w1, w2, List.mem_cons_of_mem _ hmem, hw⟩

theorem doubleGroupsize_eq (g : Int) (h0 : 0 ≤ g) :
    doubleGroupsize g = if g * 2 ≤ INT_MAX then some (g * 2) else none := by
  unfold doubleGroupsize
  have : INT_MIN ≤ g * 2 := by unfold INT_MIN; omega
  simp only [this, true_and]

theorem groupsizes_done (n : Int) (fuel : Nat) (g : Int) (h : ¬ g < n) :
    groupsizes n fuel g = .ok [] := by
  unfold groupsizes
  rw [if_neg h]
  rfl

theorem groupsizes_succ (n : Int) (fuel : Nat) (g : Int) (h : g < n) :
    groupsizes n (fuel + 1) g =
      match doubleGroupsize g with
      | none => .error .overflow
      | some doubled => (groupsizes n fuel doubled).map (fun rest => g :: rest) := by
  rw [groupsizes, if_pos h]
  cases doubleGroupsize g with
  | none => rfl
  | some doubled =>
    simp only
    cases groupsizes n fuel doubled <;> rfl

/-- The counter loop and the loop of `main`: when the loop of `main` returns,
the counter loop yields the group sizes of its passes if the double of each is
an `int`, and overflows if the double of one of them is not. -/
theorem groupsizes_of_passLoop (pos len : Nat) (n : Int) :
    ∀ (fuel : Nat) (g : Int) (p : Bool) (v v' : Vars), 0 ≤ g →
      passLoop pos len n fuel g p v = .ok v' →
      ((∀ s ∈ passStarts pos len n fuel g p v, s.1 * 2 ≤ INT_MAX) →
        groupsizes n fuel g = .ok ((passStarts pos len n fuel g p v).map (fun s => s.1))) ∧
      ((∃ s ∈ passStarts pos len n fuel g p v, INT_MAX < s.1 * 2) →
        groupsizes n fuel g = .error .overflow) := by
  intro fuel
  induction fuel with
  | zero =>
    intro g p v v' _ h
    by_cases hg : g < n
    · rw [passLoop_zero pos len n g p v hg] at h; cases h
    · rw [passStarts_done pos len n 0 g p v hg, groupsizes_done n 0 g hg]
      exact ⟨fun _ => rfl, fun ⟨s, hs, _⟩ => by simp at hs⟩
  | succ fuel ih =>
    intro g p v v' h0 h
    by_cases hg : g < n
    · rw [passLoop_succ pos len n fuel g p v hg] at h
      rw [passStarts_succ pos len n fuel g p v hg, groupsizes_succ n fuel g hg,
        doubleGroupsize_eq g h0]
      cases hm : mergePass pos len g (if 2 * g ≥ n then true else p) v with
      | error e => rw [hm] at h; cases h
      | ok v1 =>
        rw [hm] at h
        simp only [bind, Except.bind] at h
        obtain ⟨ih1, ih2⟩ := ih (g * 2) _ v1 v' (by omega) h
        simp only
        constructor
        · intro hall
          have hhead : g * 2 ≤ INT_MAX := hall _ (List.mem_cons_self _ _)
          rw [if_pos hhead]
          simp only
          rw [ih1 (fun s hs => hall s (List.mem_cons_of_mem _ hs))]
          rfl
        · rintro ⟨s, hs, hgt⟩
          by_cases hhead : g * 2 ≤ INT_MAX
          · rw [if_pos hhead]
            simp only
            rcases List.mem_cons.1 hs with e | e
            · rw [e] at hgt; simp only at hgt; omega
            · rw [ih2 ⟨s, e, hgt⟩]
              rfl
          · rw [if_neg hhead]
    · rw [passStarts_done pos len n _ g p v hg, groupsizes_done n _ g hg]
      exact ⟨fun _ => rfl, fun ⟨s, hs, _⟩ => by simp at hs⟩

/-- Up to `2^30` lines no `groupsize *= 2` of `main` leaves `int`: at every
pass start the double of `groupsize` is an `int`, and after a pass with
`print` set the guard `groupsize < totalLines` fails on the double. -/
theorem groupsize_in_int (files : List (List Line)) (pos len : Nat) (d : Dist)
    (hd : distribute files pos len = .ok d) (hn : d.totalLines ≤ 1073741824)
    (g : Int) (p : Bool) (v : Vars)
    (hs : (g, p, v) ∈ passStarts pos len d.totalLines d.totalLines.toNat 2 false d.vars) :
    doubleGroupsize g = some (g * 2) ∧ g * 2 ≤ INT_MAX ∧ (p = true → ¬ g * 2 < d.totalLines) := by
  have hlen := (distribute_inv files pos len d hd).2.2.2.2.1
  obtain ⟨n, e, h2, hlt, hp, _⟩ := passStarts_main files pos len d hd (g, p, v) hs
  simp only at e hp
  rw [hlen] at hn ⊢
  have hlt' : (n : Int) < ((files.flatten.map trim).length : Int) := by exact_mod_cast hlt
  have hmax : g * 2 ≤ INT_MAX := by unfold INT_MAX; omega
  refine ⟨?_, hmax, ?_⟩
  · rw [doubleGroupsize_eq g (by omega), if_pos hmax]
  · intro hpt
    have := hp.1 hpt
    have : ((files.flatten.map trim).length : Int) ≤ 2 * n := by exact_mod_cast this
    omega

/-- A merge pass on an empty `q1` that `q1Size` counts as not empty, `q2Size`
being zero: the loop `while (q1Left > 0)` takes the head of an empty queue. -/
theorem mergePass_on_empty (pos len : Nat) (g : Int) (print : Bool) (v : Vars)
    (hq : v.q1 = []) (h1 : 0 < v.q1Size) (h2 : v.q2Size ≤ 0) :
    mergePass pos len g print v = .error .uninitialised := by
  rw [mergePass_eq]
  have hc : ¬ (v.q1Size > 0 ∧ v.q2Size > 0) := by omega
  obtain ⟨n, hn⟩ : ∃ n, v.q1Size.toNat = n + 1 := ⟨v.q1Size.toNat - 1, by omega⟩
  unfold groupLoop
  simp only [hc, if_false, pure, Except.pure, bind, Except.bind, passTail]
  rw [hn, leftover1]
  simp only [gt_iff_lt, h1, if_true, hq, headLine, Fifo.headQ, List.head?_nil, bind, Except.bind]

/-- The counters after a merge pass that prints and returns: `q1Size` and
`q2Size` count the lines of the merged runs of even and of odd index. -/
theorem mergePass_print_sizes (pos len : Nat) (g : Nat) (hg : 0 < g)
    (runs : List (List Line)) (v v' : Vars) (hs : RunShape g runs)
    (hq1 : v.q1 = evensJoin runs) (hq2 : v.q2 = oddsJoin runs)
    (hs1 : v.q1Size = v.q1.length) (hs2 : v.q2Size = v.q2.length)
    (hin : LongRunsInB pos runs) (hm : mergePass pos len g true v = .ok v') :
    v'.q1Size = (evensJoin (mergePairs (keyLe pos len) runs)).length ∧
      v'.q2Size = (oddsJoin (mergePairs (keyLe pos len) runs)).length := by
  let a : View := ⟨v.q1, v.q2, [], [], 0, 0, 0, 0, true, v.out⟩
  have e : ({ v with addQueue1 := true, q1Left := v.q1Size, q2Left := v.q2Size,
                     fromQueue1 := 0, fromQueue2 := 0 } : Vars) = a.vars := by
    obtain ⟨q1, q2, q1Size, q2Size, q1Left, q2Left, f1, f2, flag, out⟩ := v
    simp only at hs1 hs2
    simp [a, View.vars, hs1, hs2]
  have hrun := groupLoop_safe pos len g hg true runs a (v.q1Size + v.q2Size).toNat hs hq1 hq2 hin
    (by simp only [a, hs1, hs2]; omega)
  rw [← e, ← mergePass_eq, hm] at hrun
  rcases hrun with he | ⟨hrun, _⟩
  · cases he
  · cases hrun
    obtain ⟨k1, k2⟩ := View.afterRuns_sizes (keyLe pos len) true runs a
    obtain ⟨r1, r2⟩ := View.afterRuns_rem (keyLe pos len) true runs a hq1 hq2
    simp only [View.vars, k1, k2, r1, r2]
    simp [a]

/-- A file of more than `2^30` and at most `INT_MAX` empty lines: the
distribution pass returns, the loop of `main` reaches the pass with group size
`2^30`, which prints and returns with empty queues and all lines counted for
`q1`, and the counter loop overflows; a further pass, as the guard asks for
when `groupsize` wraps around, takes the head of the empty `q1`. -/
theorem emptyLines_overflow (m pos len : Nat) (h1 : 1073741824 < m) (h2 : m ≤ 2147483647) :
    ∃ d v v', distribute (emptyLines m) pos len = .ok d ∧ d.totalLines = (m : Int) ∧
      ((1073741824 : Int), true, v) ∈
        passStarts pos len d.totalLines d.totalLines.toNat 2 false d.vars ∧
      mergePass pos len 1073741824 true v = .ok v' ∧
      groupsizes d.totalLines d.totalLines.toNat 2 = .error .overflow ∧
      v'.q1 = [] ∧ v'.q1Size = (m : Int) ∧ v'.q2Size = 0 ∧
      mergePass pos len (wrapInt (1073741824 * 2)) true v' = .error .uninitialised := by
  have hin : ∀ x ∈ (emptyLines m).flatten, InB pos (trim x) := by
    intro x hx
    simp only [emptyLines, List.flatten_cons, List.flatten_nil, List.append_nil] at hx
    rw [List.eq_of_mem_replicate hx]
    exact Or.inl (by decide)
  obtain ⟨d, hd, _⟩ := distList_runs pos len (emptyLines m).flatten {} hin
  rw [← distribute_eq] at hd
  have hlen := (distribute_inv (emptyLines m) pos len d hd).2.2.2.2.1
  have hm : (List.map trim (emptyLines m).flatten).length = m := by
    simp [emptyLines]
  rw [hm] at hlen
  obtain ⟨vf, hvf⟩ := passLoop_returns (emptyLines m) pos len d hd hin (by rw [hlen]; omega)
  have e29 : (2 : Int) * 2 ^ 29 = 1073741824 := by norm_num
  obtain ⟨p', v1, v2, hmem, hpass⟩ := passStarts_mem_of_lt pos len d.totalLines 29
    d.totalLines.toNat 2 false d.vars vf (by omega) hvf (by rw [e29, hlen]; omega)
  rw [e29] at hmem hpass
  obtain ⟨n, e, _, _, hp, hinv⟩ := passStarts_main (emptyLines m) pos len d hd _ hmem
  simp only at e hp hinv
  rw [hm] at hp
  have hn : n = 1073741824 := by omega
  have hpt : p' = true := hp.2 (by omega)
  subst hpt
  have hover := (groupsizes_of_passLoop pos len d.totalLines d.totalLines.toNat 2 false d.vars vf
    (by omega) hvf).2 ⟨_, hmem, by unfold INT_MAX; norm_num⟩
  obtain ⟨runs, hr, hl, hq1, hq2, hs1, hs2, _⟩ := hinv
  have hfl := hr.perm.length_eq
  rw [hm] at hfl
  obtain ⟨r1, r2, hruns, k1, _, _⟩ := runShape_two (by omega) runs hr.shape
    (by rw [hfl]; omega) (by rw [hfl]; omega)
  subst hruns
  simp only [List.flatten_cons, List.flatten_nil, List.append_nil, List.length_append] at hfl
  have hpass' : mergePass pos len n true v1 = .ok v2 := by rw [← e]; exact hpass
  obtain ⟨z1, z2⟩ := mergePass_print_sizes pos len n (by omega) [r1, r2] v1 v2 hr.shape hq1 hq2
    hs1 hs2 hl hpass'
  simp only [mergePairs, evensJoin, oddsJoin, List.length_nil] at z1 z2
  have hlm : (List.merge r1 r2 (keyLe pos len)).length = m := by
    rw [(List.merge_perm_append (keyLe pos len)).length_eq, List.length_append]; exact hfl
  rw [hlm] at z1
  obtain ⟨_, _, _, _, _, _, _, _, _, y1, _⟩ := passInv_print (by omega)
    (⟨[r1, r2], hr, hl, hq1, hq2, hs1, hs2, ‹_›⟩ : PassInv pos len _ n v1) hpass'
  refine ⟨d, v1, v2, hd, hlen, hmem, hpass, hover, y1, z1, by exact_mod_cast z2, ?_⟩
  exact mergePass_on_empty pos len _ true v2 y1 (by rw [z1]; omega) (by rw [z2]; simp)

/-- C21 (no `groupsize *= 2` leaves `int` for a `totalLines` that is an
`int`): fails for more than `2^30` lines.  For a file of `2^30 + 1` empty
lines `totalLines = 1073741825` is an `int`, the loop of `main` reaches the
pass with `groupsize = 1073741824`, which prints and returns, and the
`groupsize *= 2` after it has the value `2147483648`, which is not an `int`;
on two's complement wrap-around `groupsize` becomes `-2147483648` and the
guard `groupsize < totalLines` holds again, so the loop does not exit after
the printing pass: the next pass takes the head of the empty `q1`. -/
theorem groupsize_overflows_beyond_2_30 :
    (∃ d v v', distribute (emptyLines 1073741825) 0 2147483647 = .ok d ∧
      d.totalLines = 1073741825 ∧ d.totalLines ≤ INT_MAX ∧
      ((1073741824 : Int), true, v) ∈
        passStarts 0 2147483647 d.totalLines d.totalLines.toNat 2 false d.vars ∧
      mergePass 0 2147483647 1073741824 true v = .ok v' ∧
      groupsizes d.totalLines d.totalLines.toNat 2 = .error .overflow ∧
      mergePass 0 2147483647 (wrapInt (1073741824 * 2)) true v' = .error .uninitialised) ∧
    doubleGroupsize 1073741824 = none ∧ INT_MAX < (1073741824 : Int) * 2 ∧
    groupsizes 1073741825 1073741825 2 = .error .overflow ∧
    wrapInt (1073741824 * 2) = -2147483648 ∧ wrapInt (1073741824 * 2) < 1073741825 := by
  refine ⟨?_, by decide, by decide, by decide, by decide, by decide⟩
  obtain ⟨d, v, v', hd, hlen, hmem, hpass, hover, _, _, _, hnext⟩ :=
    emptyLines_overflow 1073741825 0 2147483647 (by omega) (by omega)
  have hlen' : d.totalLines = 1073741825 := by rw [hlen]; rfl
  exact ⟨d, v, v', hd, hlen', by rw [hlen']; decide, hmem, hpass, hover, hnext⟩

/-! ## The loop over the passes with the `int` counter -/

theorem wrapInt_of_int (x : Int) (h1 : -2147483648 ≤ x) (h2 : x ≤ 2147483647) :
    wrapInt x = x := by
  unfold wrapInt
  omega

theorem passLoopInt_done (pos len : Nat) (n : Int) (fuel : Nat) (g : Int) (p : Bool) (v : Vars)
    (h : ¬ g < n) : passLoopInt pos len n fuel g p v = .ok v := by
  unfold passLoopInt
  rw [if_neg h]
  rfl

theorem passLoopInt_succ (pos len : Nat) (n : Int) (fuel : Nat) (g : Int) (p : Bool) (v : Vars)
    (h : g < n) :
    passLoopInt pos len n (fuel + 1) g p v =
      (mergePass pos len g (if 2 * g ≥ n then true else p) v >>=
        passLoopInt pos len n fuel (wrapInt (g * 2)) (if 2 * g ≥ n then true else p)) := by
  rw [passLoopInt, if_pos h]

theorem passStartsInt_done (pos len : Nat) (n : Int) (fuel : Nat) (g : Int) (p : Bool) (v : Vars)
    (h : ¬ g < n) : passStartsInt pos len n fuel g p v = [] := by
  unfold passStartsInt
  rw [if_neg h]

theorem passStartsInt_succ (pos len : Nat) (n : Int) (fuel : Nat) (g : Int) (p : Bool) (v : Vars)
    (h : g < n) :
    passStartsInt pos len n (fuel + 1) g p v =
      (g, (if 2 * g ≥ n then true else p), v) ::
        (match mergePass pos len g (if 2 * g ≥ n then true else p) v with
         | .ok v => passStartsInt pos len n fuel (wrapInt (g * 2)) (if 2 * g ≥ n then true else p) v
         | .error _ => []) := by
  rw [passStartsInt, if_pos h]

/-- Up to `2^30` lines no doubling wraps around: the loop with the `int`
counter is the loop with the counter as a number. -/
theorem passLoopInt_eq (pos len : Nat) (n : Int) (hn : n ≤ 1073741824) :
    ∀ (fuel : Nat) (g : Int) (p : Bool) (v : Vars), 0 ≤ g →
      passLoopInt pos len n fuel g p v = passLoop pos len n fuel g p v ∧
      passStartsInt pos len n fuel g p v = passStarts pos len n fuel g p v := by
  intro fuel
  induction fuel with
  | zero =>
    intro g p v _
    by_cases hg : g < n
    · constructor
      · rw [passLoop_zero pos len n g p v hg, passLoopInt, if_pos hg]
      · rw [passStarts, passStartsInt, if_pos hg]
    · rw [passLoop_done pos len n 0 g p v hg, passLoopInt_done pos len n 0 g p v hg,
        passStarts_done pos len n 0 g p v hg, passStartsInt_done pos len n 0 g p v hg]
      exact ⟨rfl, rfl⟩
  | succ fuel ih =>
    intro g p v h0
    by_cases hg : g < n
    · have hw : wrapInt (g * 2) = g * 2 := wrapInt_of_int _ (by omega) (by omega)
      rw [passLoop_succ pos len n fuel g p v hg, passLoopInt_succ pos len n fuel g p v hg,
        passStarts_succ pos len n fuel g p v hg, passStartsInt_succ pos len n fuel g p v hg, hw]
      constructor
      · congr 1
        funext v1
        exact (ih (g * 2) _ v1 (by omega)).1
      · congr 1
        cases mergePass pos len g (if 2 * g ≥ n then true else p) v with
        | error e => rfl
        | ok v1 => exact (ih (g * 2) _ v1 (by omega)).2
    · rw [passLoop_done pos len n _ g p v hg, passLoopInt_done pos len n _ g p v hg,
        passStarts_done pos len n _ g p v hg, passStartsInt_done pos len n _ g p v hg]
      exact ⟨rfl, rfl⟩

/-- The loop with the `int` counter seen from the loop through the printing
pass: when that loop returns `vf`, its last pass is the pass with group size
`g * 2 ^ k` that prints, the loop with the `int` counter starts the same
passes, and it goes on from `vf` with the doubled group size as an `int`. -/
theorem passStartsInt_split (pos len : Nat) (n : Int) (hn : n ≤ 2147483647) :
    ∀ (fuel : Nat) (g : Int) (p : Bool) (v vf : Vars), 0 < g → g < n →
      passLoop pos len n fuel g p v = .ok vf →
      ∃ (k : Nat) (vl : Vars),
        (g * 2 ^ k, true, vl) ∈ passStarts pos len n fuel g p v ∧
        mergePass pos len (g * 2 ^ k) true vl = .ok vf ∧
        g * 2 ^ k < n ∧ n ≤ 2 * (g * 2 ^ k) ∧
        (passStarts pos len n fuel g p v).length ≤ fuel ∧
        passStartsInt pos len n (fuel + 1) g p v =
          passStarts pos len n fuel g p v ++
            passStartsInt pos len n (fuel + 1 - (passStarts pos len n fuel g p v).length)
              (wrapInt (g * 2 ^ k * 2)) true vf ∧
        passLoopInt pos len n (fuel + 1) g p v =
          passLoopInt pos len n (fuel + 1 - (passStarts pos len n fuel g p v).length)
            (wrapInt (g * 2 ^ k * 2)) true vf := by
  intro fuel
  induction fuel with
  | zero =>
    intro g p v vf _ hg h
    rw [passLoop_zero pos len n g p v hg] at h
    cases h
  | succ fuel ih =>
    intro g p v vf h0 hg h
    rw [passLoop_succ pos len n fuel g p v hg] at h
    rw [passStarts_succ pos len n fuel g p v hg,
      passStartsInt_succ pos len n (fuel + 1) g p v hg,
      passLoopInt_succ pos len n (fuel + 1) g p v hg]
    by_cases hp : 2 * g ≥ n
    · have hp' : (if 2 * g ≥ n then true else p) = true := if_pos hp
      rw [hp'] at h ⊢
      cases hm : mergePass pos len g true v with
      | error e => rw [hm] at h; cases h
      | ok v1 =>
        rw [hm] at h
        simp only [bind, Except.bind] at h ⊢
        rw [passLoop_done pos len n fuel (g * 2) true v1 (by omega)] at h
        cases h
        rw [passStarts_done pos len n fuel (g * 2) true _ (by omega)]
        refine ⟨0, v, ?_, ?_, ?_, ?_, ?_, ?_, ?_⟩
        · simp
        · simpa using hm
        · simpa using hg
        · simp only [pow_zero, mul_one]; omega
        · simp
        · simp
        · simp
    · have hp' : (if 2 * g ≥ n then true else p) = p := if_neg hp
      rw [hp'] at h ⊢
      have hw : wrapInt (g * 2) = g * 2 := wrapInt_of_int _ (by omega) (by omega)
      rw [hw]
      cases hm : mergePass pos len g p v with
      | error e => rw [hm] at h; cases h
      | ok v1 =>
        rw [hm] at h
        simp only [bind, Except.bind] at h ⊢
        obtain ⟨k, vl, h1, h2, h3, h4, h5, h6, h7⟩ := ih (g * 2) p v1 vf (by omega) (by omega) h
        have e : g * 2 ^ (k + 1) = g * 2 * 2 ^ k := by rw [pow_succ]; ring
        refine ⟨k + 1, vl, ?_, ?_, ?_, ?_, ?_, ?_, ?_⟩
        · rw [e]; exact List.mem_cons_of_mem _ h1
        · rw [e]; exact h2
        · rw [e]; exact h3
        · rw [e]; exact h4
        · simp only [List.length_cons]; omega
        · rw [e, h6]
          simp only [List.length_cons, List.cons_append]
          rw [show fuel + 1 + 1 - ((passStarts pos len n fuel (g * 2) p v1).length + 1)
            = fuel + 1 - (passStarts pos len n fuel (g * 2) p v1).length by omega]
        · rw [e, h7]
          simp only [List.length_cons]
          rw [show fuel + 1 + 1 - ((passStarts pos len n fuel (g * 2) p v1).length + 1)
            = fuel + 1 - (passStarts pos len n fuel (g * 2) p v1).length by omega]

/-- The variables after the printing pass: both queues are empty, every line
has been written, and `q1Size` still counts every line. -/
theorem printing_pass_result {pos len : Nat} {l : List Line} {n : Nat} {v v' : Vars}
    (hn : 0 < n) (hlt : n < l.length) (hle : l.length ≤ 2 * n)
    (hinv : PassInv pos len l n v) (hm : mergePass pos len n true v = .ok v') :
    v'.q1 = [] ∧ v'.q2 = [] ∧ v'.q1Size = (l.length : Int) ∧ v'.q2Size = 0 ∧ v'.out.Perm l := by
  obtain ⟨_, _, _, _, _, _, _, _, yo, y1, y2⟩ := passInv_print hn hinv hm
  obtain ⟨runs, hr, hl, hq1, hq2, hs1, hs2, _⟩ := hinv
  have hfl := hr.perm.length_eq
  obtain ⟨r1, r2, hruns, _, _, _⟩ := runShape_two hn runs hr.shape
    (by rw [hfl]; exact hlt) (by rw [hfl]; exact hle)
  subst hruns
  simp only [List.flatten_cons, List.flatten_nil, List.append_nil, List.length_append] at hfl
  obtain ⟨z1, z2⟩ := mergePass_print_sizes pos len n hn [r1, r2] v v' hr.shape hq1 hq2
    hs1 hs2 hl hm
  simp only [mergePairs, evensJoin, oddsJoin, List.length_nil] at z1 z2
  have hlm : (List.merge r1 r2 (keyLe pos len)).length = l.length := by
    rw [(List.merge_perm_append (keyLe pos len)).length_eq, List.length_append]; exact hfl
  rw [hlm] at z1
  exact ⟨y1, y2, z1, by exact_mod_cast z2, yo⟩

/-- An input of more than `2^30` and at most `INT_MAX` lines in which the
offset is inside each line, with the counter `groupsize` an `int`: the loop
starts the pass with group size `2^30`, which prints and returns with every
line written, both queues empty and `q1Size` the number of lines; its
`groupsize *= 2` wraps around to `-2147483648`, the guard holds again, and the
loop starts one more pass, the last one, in which `while (q1Left > 0)` takes
the head of the empty `q1`. -/
theorem further_pass_beyond_2_30 (files : List (List Line)) (pos len : Nat) (d : Dist)
    (hd : distribute files pos len = .ok d) (hin : ∀ x ∈ files.flatten, InB pos (trim x))
    (h1 : 1073741824 < d.totalLines) (h2 : d.totalLines ≤ 2147483647) :
    ∃ v v', ((1073741824 : Int), true, v) ∈
        passStartsInt pos len d.totalLines d.totalLines.toNat 2 false d.vars ∧
      mergePass pos len 1073741824 true v = .ok v' ∧
      (passStartsInt pos len d.totalLines d.totalLines.toNat 2 false d.vars).getLast? =
        some ((-2147483648 : Int), true, v') ∧
      v'.q1 = [] ∧ v'.q2 = [] ∧ v'.q1Size = d.totalLines ∧ v'.q2Size = 0 ∧
      (v'.out.length : Int) = d.totalLines ∧
      mergePass pos len (-2147483648) true v' = .error .uninitialised ∧
      passLoopInt pos len d.totalLines d.totalLines.toNat 2 false d.vars =
        .error .uninitialised := by
  have hlen := (distribute_inv files pos len d hd).2.2.2.2.1
  have hinv := distribute_passInv files pos len d hd
  have hin' : ∀ x ∈ files.flatten.map trim, InB pos x := by
    intro x hx
    obtain ⟨y, hy, rfl⟩ := List.mem_map.1 hx
    exact hin y hy
  set l := files.flatten.map trim with hl
  rw [hlen] at h1 h2
  obtain ⟨f, hf⟩ : ∃ f, l.length = f + 1 := ⟨l.length - 1, by omega⟩
  have hloop : ∃ vf, passLoop pos len l.length f 2 false d.vars = .ok vf := by
    obtain ⟨runs, hr, _, hq1, hq2, hs1, hs2, hout⟩ := hinv
    obtain ⟨vf, hvf, _⟩ := passLoop_runs pos len l hin' f 2 runs d.vars (by omega) hr
      hq1 hq2 hs1 hs2 hout (by omega) (by omega)
    exact ⟨vf, hvf⟩
  obtain ⟨vf, hvf⟩ := hloop
  obtain ⟨k, vl, s1, s2, s3, s4, s5, s6, s7⟩ := passStartsInt_split pos len l.length (by omega)
    f 2 false d.vars vf (by omega) (by omega) hvf
  obtain ⟨n, e, _, _, _, hinvl⟩ := passStarts_inv pos len l f 2 d.vars (by omega) hinv _ s1
  simp only at e hinvl
  have hk : (2 : Int) * 2 ^ k = 1073741824 := by
    have a1 : (2 : Nat) ^ (k + 1) < 2 ^ 31 := by
      have : ((2 ^ (k + 1) : Nat) : Int) < (l.length : Int) := by
        push_cast; rw [pow_succ]; linarith
      have : 2 ^ (k + 1) < l.length := by exact_mod_cast this
      omega
    have a2 : (2 : Nat) ^ 30 < 2 ^ (k + 2) := by
      have : (l.length : Int) ≤ ((2 ^ (k + 2) : Nat) : Int) := by
        push_cast; rw [pow_succ, pow_succ]; linarith
      have : l.length ≤ 2 ^ (k + 2) := by exact_mod_cast this
      omega
    have b1 := (Nat.pow_lt_pow_iff_right (by norm_num : 1 < 2)).1 a1
    have b2 := (Nat.pow_lt_pow_iff_right (by norm_num : 1 < 2)).1 a2
    have : k = 29 := by omega
    rw [this]; norm_num
  rw [hk] at s1 s2 s3 s4 s6 s7 e
  have hw : wrapInt (1073741824 * 2) = -2147483648 := by decide
  rw [hw] at s6 s7
  have hn : n = 1073741824 := by omega
  obtain ⟨y1, y2, z1, z2, yo⟩ := printing_pass_result (by omega) (by omega) (by omega)
    hinvl (by rw [← e]; exact s2)
  have hfault : mergePass pos len (-2147483648) true vf = .error .uninitialised :=
    mergePass_on_empty pos len _ true vf y1 (by rw [z1]; omega) (by rw [z2])
  obtain ⟨r, hr⟩ : ∃ r, f + 1 - (passStarts pos len l.length f 2 false d.vars).length = r + 1 :=
    ⟨f - (passStarts pos len l.length f 2 false d.vars).length, by omega⟩
  rw [hr, passStartsInt_succ pos len _ r _ true vf (by omega)] at s6
  rw [hr, passLoopInt_succ pos len _ r _ true vf (by omega)] at s7
  simp only [ite_self] at s6 s7
  rw [hfault] at s6 s7
  have htot : d.totalLines.toNat = f + 1 := by rw [hlen]; omega
  rw [htot, hlen]
  refine ⟨vl, vf, ?_, s2, ?_, y1, y2, z1, z2, by rw [yo.length_eq], hfault, ?_⟩
  · rw [s6]; exact List.mem_append_left _ s1
  · rw [s6]; simp
  · rw [s7]; rfl

/-- The further pass for a file of more than `2^30` and at most `INT_MAX`
empty lines. -/
theorem emptyLines_further_pass (m pos len : Nat) (h1 : 1073741824 < m) (h2 : m ≤ 2147483647) :
    ∃ d v v', distribute (emptyLines m) pos len = .ok d ∧ d.totalLines = (m : Int) ∧
      ((1073741824 : Int), true, v) ∈
        passStartsInt pos len d.totalLines d.totalLines.toNat 2 false d.vars ∧
      mergePass pos len 1073741824 true v = .ok v' ∧
      (passStartsInt pos len d.totalLines d.totalLines.toNat 2 false d.vars).getLast? =
        some ((-2147483648 : Int), true, v') ∧
      v'.q1 = [] ∧ v'.q2 = [] ∧ v'.q1Size = (m : Int) ∧ v'.q2Size = 0 ∧ v'.out.length = m ∧
      mergePass pos len (-2147483648) true v' = .error .uninitialised ∧
      passLoopInt pos len d.totalLines d.totalLines.toNat 2 false d.vars =
        .error .uninitialised := by
  have hin : ∀ x ∈ (emptyLines m).flatten, InB pos (trim x) := by
    intro x hx
    simp only [emptyLines, List.flatten_cons, List.flatten_nil, List.append_nil] at hx
    rw [List.eq_of_mem_replicate hx]
    exact Or.inl (by decide)
  obtain ⟨d, hd, _⟩ := distList_runs pos len (emptyLines m).flatten {} hin
  rw [← distribute_eq] at hd
  have hlen := (distribute_inv (emptyLines m) pos len d hd).2.2.2.2.1
  have hm : (List.map trim (emptyLines m).flatten).length = m := by
    simp [emptyLines]
  rw [hm] at hlen
  obtain ⟨v, v', k1, k2, k3, k4, k5, k6, k7, k8, k9, k10⟩ :=
    further_pass_beyond_2_30 (emptyLines m) pos len d hd hin (by rw [hlen]; omega)
      (by rw [hlen]; omega)
  rw [hlen] at k6 k8
  exact ⟨d, v, v', hd, hlen, k1, k2, k3, k4, k5, k6, k7, by exact_mod_cast k8, k9, k10⟩

theorem emptyLines_trim_length (m : Nat) : ((emptyLines m).flatten.map trim).length = m := by
  simp [emptyLines]

/-- Empty queues hold no runs of a sequence that is not empty. -/
theorem no_runs_of_empty_queues {l : List Line} (hl : l ≠ []) {v : Vars}
    (h1 : v.q1 = []) (h2 : v.q2 = []) :
    ¬ ∃ runs : List (List Line), v.q1 = evensJoin runs ∧ v.q2 = oddsJoin runs ∧
      runs.flatten.Perm l := by
  rintro ⟨runs, e1, e2, hp⟩
  have hq := evens_odds_perm runs
  rw [← e1, ← e2, h1, h2] at hq
  have := (hq.trans hp).length_eq
  simp only [List.append_nil, List.length_nil] at this
  exact hl (List.length_eq_zero.1 this.symm)

/-- C12 (the run invariant holds at the start of every merge pass): fails for
more than `2^30` lines.  For a file of `2^30 + 1` empty lines the loop with
the `int` counter starts, after the printing pass, a pass with
`groupsize = -2147483648` on two empty queues: the queues are not made of runs
of the input lines there. -/
theorem run_invariant_fails_beyond_2_30 :
    ∃ d v, distribute (emptyLines 1073741825) 0 2147483647 = .ok d ∧
      d.totalLines = 1073741825 ∧
      (passStartsInt 0 2147483647 d.totalLines d.totalLines.toNat 2 false d.vars).getLast? =
        some ((-2147483648 : Int), true, v) ∧
      v.q1 = [] ∧ v.q2 = [] ∧
      ((emptyLines 1073741825).flatten.map trim).length = 1073741825 ∧
      ¬ ∃ runs : List (List Line), v.q1 = evensJoin runs ∧ v.q2 = oddsJoin runs ∧
        runs.flatten.Perm ((emptyLines 1073741825).flatten.map trim) := by
  obtain ⟨d, _, v', hd, hlen, _, _, hlast, y1, y2, _⟩ :=
    emptyLines_further_pass 1073741825 0 2147483647 (by omega) (by omega)
  have hl := emptyLines_trim_length 1073741825
  refine ⟨d, v', hd, by rw [hlen]; rfl, hlast, y1, y2, hl, ?_⟩
  apply no_runs_of_empty_queues _ y1 y2
  intro h
  rw [h] at hl
  exact absurd hl (by decide)

/-- C14 (`q1Size` is the number of lines in `q1` at the start of every merge
pass): fails for more than `2^30` lines.  For a file of `2^30 + 1` empty lines
the loop with the `int` counter starts, after the printing pass, a pass at
which `q1` is empty and `q1Size` is `totalLines`. -/
theorem size_bookkeeping_fails_beyond_2_30 :
    ∃ d v, distribute (emptyLines 1073741825) 0 2147483647 = .ok d ∧
      d.totalLines = 1073741825 ∧ d.totalLines ≤ INT_MAX ∧
      (passStartsInt 0 2147483647 d.totalLines d.totalLines.toNat 2 false d.vars).getLast? =
        some ((-2147483648 : Int), true, v) ∧
      v.q1 = [] ∧ v.q1Size = 1073741825 ∧ v.q1Size ≠ v.q1.length := by
  obtain ⟨d, _, v', hd, hlen, _, _, hlast, y1, _, z1, _⟩ :=
    emptyLines_further_pass 1073741825 0 2147483647 (by omega) (by omega)
  have hlen' : d.totalLines = 1073741825 := by rw [hlen]; rfl
  have z1' : v'.q1Size = 1073741825 := by rw [z1]; rfl
  refine ⟨d, v', hd, hlen', by rw [hlen']; decide, hlast, y1, z1', ?_⟩
  rw [z1', y1]
  decide

/-- C15 (the printing pass is the last pass, and `print` is set exactly when
`groupsize >= totalLines / 2`): fails for more than `2^30` lines.  For a file
of `2^30 + 1` empty lines the loop with the `int` counter starts the pass with
`groupsize = 1073741824`, which prints and returns, and then one more pass,
with `print` set and `groupsize = -2147483648`, less than half of
`totalLines`. -/
theorem printing_pass_not_last_beyond_2_30 :
    ∃ d v v', distribute (emptyLines 1073741825) 0 2147483647 = .ok d ∧
      d.totalLines = 1073741825 ∧
      ((1073741824 : Int), true, v) ∈
        passStartsInt 0 2147483647 d.totalLines d.totalLines.toNat 2 false d.vars ∧
      mergePass 0 2147483647 1073741824 true v = .ok v' ∧ v'.out.length = 1073741825 ∧
      (passStartsInt 0 2147483647 d.totalLines d.totalLines.toNat 2 false d.vars).getLast? =
        some ((-2147483648 : Int), true, v') ∧
      ¬ (2 * (-2147483648 : Int) ≥ d.totalLines) := by
  obtain ⟨d, v, v', hd, hlen, hmem, hpass, hlast, _, _, _, _, ho, _⟩ :=
    emptyLines_further_pass 1073741825 0 2147483647 (by omega) (by omega)
  have hlen' : d.totalLines = 1073741825 := by rw [hlen]; rfl
  exact ⟨d, v, v', hd, hlen', hmem, hpass, ho, hlast, by rw [hlen']; decide⟩

/-- C17 (every `headQ` and `removeQ` meets a queue that is not empty): fails
for more than `2^30` lines.  For a file of `2^30 + 1` empty lines the loop
with the `int` counter starts, after the printing pass, a pass with
`q1Size > 0` and `q1` empty; its loop `while (q1Left > 0)` applies `headQ` to
the empty `q1`, and the `removeQ` of `addRemove` has nothing to remove. -/
theorem empty_queue_reached_beyond_2_30 :
    ∃ d v, distribute (emptyLines 1073741825) 0 2147483647 = .ok d ∧
      d.totalLines = 1073741825 ∧
      (passStartsInt 0 2147483647 d.totalLines d.totalLines.toNat 2 false d.vars).getLast? =
        some ((-2147483648 : Int), true, v) ∧
      0 < v.q1Size ∧ v.q2Size = 0 ∧ Fifo.isEmptyQ v.q1 = true ∧ Fifo.headQ v.q1 = none ∧
      Fifo.removeQ v.q1 = none ∧
      mergePass 0 2147483647 (-2147483648) true v = .error .uninitialised ∧
      passLoopInt 0 2147483647 d.totalLines d.totalLines.toNat 2 false d.vars =
        .error .uninitialised := by
  obtain ⟨d, _, v', hd, hlen, _, _, hlast, y1, _, z1, z2, _, hf, hloop⟩ :=
    emptyLines_further_pass 1073741825 0 2147483647 (by omega) (by omega)
  refine ⟨d, v', hd, by rw [hlen]; rfl, hlast, by rw [z1]; decide, z2, ?_, ?_, ?_, hf, hloop⟩
  · rw [y1]; rfl
  · rw [y1]; rfl
  · rw [y1]; rfl

theorem clog_of_doubling (k : Nat) (n : Nat) (h2 : 2 < n) (c1 : (n : Int) ≤ 2 * 2 ^ k)
    (c2 : ∀ j < k, (2 : Int) * 2 ^ j < n) : k + 1 = Nat.clog 2 n := by
  have hk1 : 1 ≤ k := by
    by_contra hk0
    have : k = 0 := by omega
    rw [this] at c1
    simp at c1
    omega
  have c3 := c2 (k - 1) (by omega)
  have e1 : (2 : Int) * 2 ^ k = ((2 ^ (k + 1) : Nat) : Int) := by
    push_cast; rw [pow_succ]; ring
  have e2 : (2 : Int) * 2 ^ (k - 1) = ((2 ^ k : Nat) : Int) := by
    obtain ⟨j, hj⟩ : ∃ j, k = j + 1 := ⟨k - 1, by omega⟩
    rw [hj, Nat.add_sub_cancel]; push_cast; rw [pow_succ]; ring
  rw [e1] at c1
  rw [e2] at c3
  have u1 : n ≤ 2 ^ (k + 1) := by exact_mod_cast c1
  have u2 : 2 ^ k < n := by exact_mod_cast c3
  have v1 := (Nat.le_pow_iff_clog_le (by omega : 1 < 2)).1 u1
  have v2 := (Nat.pow_lt_iff_lt_clog (by omega : 1 < 2)).1 u2
  omega

/-- Up to `2^30` lines the counter loop returns: no double leaves `int`, and
the number `k` of its passes is the least with `n ≤ g * 2 ^ k`. -/
theorem groupsizes_count (n : Int) (hn : n ≤ 1073741824) :
    ∀ (fuel : Nat) (g : Int), 0 < g → n ≤ g * 2 ^ fuel →
      ∃ l, groupsizes n fuel g = .ok l ∧ n ≤ g * 2 ^ l.length ∧
        ∀ j < l.length, g * 2 ^ j < n := by
  intro fuel
  induction fuel with
  | zero =>
    intro g _ h
    simp only [pow_zero, mul_one] at h
    exact ⟨[], groupsizes_done n 0 g (by omega), by simpa using h, fun j hj => by simp at hj⟩
  | succ fuel ih =>
    intro g h0 h
    by_cases hg : g < n
    · have hd : doubleGroupsize g = some (g * 2) := by
        rw [doubleGroupsize_eq g (by omega), if_pos (by unfold INT_MAX; omega)]
      obtain ⟨l, hl, c1, c2⟩ := ih (g * 2) (by omega) (by rw [pow_succ] at h; linarith)
      refine ⟨g :: l, ?_, ?_, ?_⟩
      · rw [groupsizes_succ n fuel g hg, hd]
        simp only [hl]
        rfl
      · simp only [List.length_cons]; rw [pow_succ]; linarith
      · intro j hj
        cases j with
        | zero => simpa using hg
        | succ j =>
          have := c2 j (by simpa using hj)
          rw [pow_succ]; linarith
    · exact ⟨[], groupsizes_done n _ g hg, by simp only [List.length_nil, pow_zero, mul_one]; omega,
        fun j hj => by simp at hj⟩

/-- C16, counterexample: for the three lines `b`, `a`, `c` the loop
`while (groupsize < totalLines)` returns after one pass, the pass with group
size 2, and the ceiling of the binary logarithm of 3 is 2. -/
theorem one_pass_for_three_lines :
    distribute [[[98, 10], [97, 10], [99, 10]]] 0 2147483647 =
        .ok { q1 := [[97], [98]], q2 := [[99]], totalLines := 3, q1Size := 2, q2Size := 1,
              addQueue1 := false } ∧
      (passLoopInt 0 2147483647 3 3 2 false
          { q1 := [[97], [98]], q2 := [[99]], q1Size := 2, q2Size := 1, q1Left := 0, q2Left := 0,
            fromQueue1 := 0, fromQueue2 := 0, addQueue1 := false, out := [] }).map
          (fun v => v.out) = .ok [[97], [98], [99]] ∧
      (passStartsInt 0 2147483647 3 3 2 false
          { q1 := [[97], [98]], q2 := [[99]], q1Size := 2, q2Size := 1, q1Left := 0, q2Left := 0,
            fromQueue1 := 0, fromQueue2 := 0, addQueue1 := false, out := [] }).map
          (fun s => s.1) = [2] ∧
      groupsizes 3 3 2 = .ok [2] ∧
      Nat.clog 2 3 = 2 :=
  ⟨by decide!, by decide!, by decide!, by decide, by simp [Nat.clog]⟩

/-- The passes that the loop with the `int` counter starts, whatever they do,
have the first group sizes of the counter loop, in order. -/
theorem passStartsInt_prefix (pos len : Nat) (n : Int) :
    ∀ (fuel : Nat) (g : Int) (p : Bool) (v : Vars) (l : List Int),
      groupsizes n fuel g = .ok l →
      (passStartsInt pos len n fuel g p v).map (fun s => s.1) <+: l := by
  intro fuel
  induction fuel with
  | zero =>
    intro g p v l hl
    by_cases hg : g < n
    · rw [groupsizes, if_pos hg] at hl
      cases hl
    · rw [passStartsInt_done pos len n 0 g p v hg]
      exact List.nil_prefix
  | succ fuel ih =>
    intro g p v l hl
    by_cases hg : g < n
    · rw [groupsizes_succ n fuel g hg] at hl
      unfold doubleGroupsize at hl
      split_ifs at hl with hr
      simp only at hl
      cases hrest : groupsizes n fuel (g * 2) with
      | error e => rw [hrest] at hl; cases hl
      | ok rest =>
        rw [hrest] at hl
        cases hl
        rw [passStartsInt_succ pos len n fuel g p v hg,
          wrapInt_of_int (g * 2) (by unfold INT_MIN at hr; omega) (by unfold INT_MAX at hr; omega)]
        simp only [List.map_cons]
        apply List.prefix_cons_inj g |>.2
        cases mergePass pos len g (if 2 * g ≥ n then true else p) v with
        | error e => exact List.nil_prefix
        | ok v1 => exact ih (g * 2) _ v1 rest hrest
    · rw [passStartsInt_done pos len n _ g p v hg]
      exact List.nil_prefix

/-- C16, amended: for every `totalLines` above 2 and up to `2^30` the loop on
`groupsize` (from 2, doubled after each pass on an `int`, repeated while
`groupsize < totalLines`) ends, its passes returning, after one pass less than
the ceiling of the binary logarithm of `totalLines`, and no double leaves
`int`.  In every run of that many lines the passes that the loop of `main`
starts are the first of these, in order; and for every input of that many
lines in which the offset is inside each line, the loop of `main` returns and
its passes are all of these. -/
theorem merge_loop_terminates (n : Int) (h2 : 2 < n) (hn : n ≤ 1073741824) :
    ∃ l, groupsizes n n.toNat 2 = .ok l ∧ l.length + 1 = Nat.clog 2 n.toNat ∧
      (∀ (pos len : Nat) (p : Bool) (v : Vars),
        (passStartsInt pos len n n.toNat 2 p v).map (fun s => s.1) <+: l) ∧
      ∀ (files : List (List Line)) (pos len : Nat) (d : Dist),
        distribute files pos len = .ok d → d.totalLines = n →
        (∀ x ∈ files.flatten, InB pos (trim x)) →
        ∃ v', passLoopInt pos len n n.toNat 2 false d.vars = .ok v' ∧
          (passStartsInt pos len n n.toNat 2 false d.vars).map (fun s => s.1) = l := by
  obtain ⟨N, hN⟩ : ∃ N : Nat, n = N := ⟨n.toNat, by omega⟩
  subst hN
  simp only [Int.toNat_ofNat]
  have hfuel : (N : Int) ≤ 2 * 2 ^ N := by
    have := Nat.lt_two_pow N
    have : ((N : Nat) : Int) < ((2 ^ N : Nat) : Int) := by exact_mod_cast this
    push_cast at this
    have hp : (0 : Int) < 2 ^ N := by positivity
    linarith
  obtain ⟨l, hl, c1, c2⟩ := groupsizes_count N hn N 2 (by omega) hfuel
  refine ⟨l, hl, clog_of_doubling l.length N (by omega) c1 c2,
    fun pos len p v => passStartsInt_prefix pos len N N 2 p v l hl, ?_⟩
  intro files pos len d hd hlen hin
  obtain ⟨v', hv'⟩ := passLoop_returns files pos len d hd hin (by rw [hlen]; exact h2)
  rw [hlen] at hv'
  simp only [Int.toNat_ofNat] at hv'
  obtain ⟨e1, e2⟩ := passLoopInt_eq pos len N hn N 2 false d.vars (by omega)
  rw [e1, e2]
  refine ⟨v', hv', ?_⟩
  have hall : ∀ s ∈ passStarts pos len N N 2 false d.vars, s.1 * 2 ≤ INT_MAX := by
    intro s hs
    have hs' : s ∈ passStarts pos len d.totalLines d.totalLines.toNat 2 false d.vars := by
      rw [hlen]; simpa using hs
    obtain ⟨m, e, _, hlt, _⟩ := passStarts_main files pos len d hd s hs'
    have hL := (distribute_inv files pos len d hd).2.2.2.2.1
    rw [hlen] at hL
    have : (m : Int) < ((files.flatten.map trim).length : Int) := by exact_mod_cast hlt
    rw [e]; unfold INT_MAX; omega
  have hg := (groupsizes_of_passLoop pos len N N 2 false d.vars v' (by omega) hv').1 hall
  rw [hl] at hg
  cases hg
  rfl

/-- C16 at five lines: the loop on `groupsize` ends after the passes with the
group sizes 2 and 4, and the ceiling of the binary logarithm of 5 is 3; for
the lines `c`, `a`, `b`, `e`, `d` the loop of `main` returns after these. -/
theorem merge_loop_terminates_witness :
    (2 : Int) < 5 ∧ (5 : Int) ≤ 1073741824 ∧ groupsizes 5 5 2 = .ok [2, 4] ∧
      Nat.clog 2 5 = 3 ∧
      ∃ l, groupsizes 5 (5 : Int).toNat 2 = .ok l ∧ l.length + 1 = Nat.clog 2 (5 : Int).toNat ∧
        ∃ v', passLoopInt 0 2147483647 5 (5 : Int).toNat 2 false fiveLinesDist.vars = .ok v' ∧
          (passStartsInt 0 2147483647 5 (5 : Int).toNat 2 false fiveLinesDist.vars).map
            (fun s => s.1) = l :=
  have hd : distribute fiveLines 0 2147483647 = .ok fiveLinesDist := by decide!
  have h := merge_loop_terminates 5 (by decide) (by decide)
  ⟨by decide, by decide, by decide, by simp [Nat.clog],
    h.elim fun l hl => ⟨l, hl.1, hl.2.1,
      hl.2.2.2 fiveLines 0 2147483647 fiveLinesDist hd rfl (by decide)⟩⟩

end Merge16
